import Mathlib

/-!
Verification development for the DOM-parsing core (src/src/from_dom.ts) of the
prosemirror-model repository.  The file shallowly embeds the source: the
ParseRule / DOMParser rule store, the NodeContext stack, the mark
pending/active/stash protocol, the whitespace policy, the position-finding
protocol and the recursive tree walker.  External collaborators that belong to
the repository but are not under src/ (the Mark value type and its ordered
deduplicated set operations, the content-model automaton, the Node/Fragment
value types, ResolvedPos) are modelled from the specification, as marked in
their doc comments.  JavaScript in-place mutation is rendered as explicit
state passing; object identity of stack frames is rendered by a uid stamp.
-/

set_option autoImplicit false

namespace FD

/-! ## String helpers (whitespace and tokenizing, mirroring the regexes used
by the source; implemented over the character list so that everything reduces
by plain structural recursion) -/

/-- Whitespace class of the source regexes [ \t\r\n\u000c]. -/
def isWsChar (c : Char) : Bool :=
  c = ' ' || c = '\t' || c = '\r' || c = '\n' || c = '\x0c'

/-- Test /[^ \t\r\n\u000c]/ : does the string contain a non-whitespace char. -/
def hasNonWs (s : String) : Bool := s.data.any (fun c => !isWsChar c)

/-- Test /^[ \t\r\n\u000c]/ : does the string start with a whitespace char. -/
def startsWithWs (s : String) : Bool :=
  match s.data with
  | [] => false
  | c :: _ => isWsChar c

/-- Test /[ \t\r\n\u000c]$/ : does the string end with a whitespace char. -/
def endsWithWs (s : String) : Bool :=
  match s.data.getLast? with
  | none => false
  | some c => isWsChar c

/-- Replace runs of whitespace by a single space,
the replace(/[ \t\r\n\u000c]+/g, spc) of the source; the boolean tracks
whether the previous character was part of a whitespace run. -/
def collapseWsAux : Bool → List Char → List Char
  | _, [] => []
  | prevWs, c :: cs =>
    if isWsChar c then
      if prevWs then collapseWsAux true cs else ' ' :: collapseWsAux true cs
    else c :: collapseWsAux false cs

def collapseWs (s : String) : String := ⟨collapseWsAux false s.data⟩

/-- The replace(/\r?\n|\r/g, spc) of the source: newlines become spaces. -/
def newlinesToSpacesList : List Char → List Char
  | [] => []
  | '\r' :: '\n' :: cs => ' ' :: newlinesToSpacesList cs
  | '\r' :: cs => ' ' :: newlinesToSpacesList cs
  | '\n' :: cs => ' ' :: newlinesToSpacesList cs
  | c :: cs => c :: newlinesToSpacesList cs

def newlinesToSpaces (s : String) : String := ⟨newlinesToSpacesList s.data⟩

/-- The replace(/\r\n?/g, nl) of the source: CR and CRLF become LF. -/
def normalizeCrList : List Char → List Char
  | [] => []
  | '\r' :: '\n' :: cs => '\n' :: normalizeCrList cs
  | '\r' :: cs => '\n' :: normalizeCrList cs
  | c :: cs => c :: normalizeCrList cs

def normalizeCr (s : String) : String := ⟨normalizeCrList s.data⟩

/-- Length of the trailing whitespace run, the /[ \t\r\n\u000c]+$/ match. -/
def trailingWsLen (s : String) : Nat :=
  (s.data.reverse.takeWhile isWsChar).length

/-- Drop the first character, the slice(1) of the source. -/
def strTail (s : String) : String := ⟨s.data.tail⟩

/-- Keep the first n characters, the slice(0, n) of the source. -/
def strTake (s : String) (n : Nat) : String := ⟨s.data.take n⟩

def strLen (s : String) : Nat := s.data.length

/-- Lower-casing as used for nodeName.toLowerCase(). -/
def lc (s : String) : String := ⟨s.data.map Char.toLower⟩

/-- Character class \s of JavaScript regexes (the subset that matters here). -/
def isJsSpace (c : Char) : Bool :=
  c = ' ' || c = '\t' || c = '\n' || c = '\r' || c = '\x0b' || c = '\x0c'

/-- Character class [\w-] used for style property names. -/
def isPropChar (c : Char) : Bool :=
  (c ≥ 'a' && c ≤ 'z') || (c ≥ 'A' && c ≤ 'Z') || (c ≥ '0' && c ≤ '9') ||
  c = '_' || c = '-'

def trimStr (s : String) : String :=
  ⟨((s.data.dropWhile isJsSpace).reverse.dropWhile isJsSpace).reverse⟩

/-- Split a character list on a separator character. -/
def splitOnCharList (sep : Char) : List Char → List (List Char)
  | [] => [[]]
  | c :: cs =>
    if c = sep then [] :: splitOnCharList sep cs
    else match splitOnCharList sep cs with
      | [] => [[c]]
      | p :: ps => (c :: p) :: ps

/-- Split a string on a separator character; mirrors split(sep) for the
one-character separators used by the source. -/
def splitOnChar (sep : Char) (s : String) : List String :=
  (splitOnCharList sep s.data).map (fun l => ⟨l⟩)

def strContainsChar (c : Char) (s : String) : Bool := s.data.contains c

/-! ## Marks.
Modelled from the spec: the Mark value type and the ordered, deduplicated
mark-collection operations (add, remove, membership, equality) are external
collaborators of this file (the Mark Algebra component of the spec, section
4.3 and the value-construction interface of section 6); marks are equality-
compared values carrying their mark type and attributes. -/

/-- Modelled from the spec: a mark value, a mark type id together with its
attributes (attributes abstracted to an optional numeric payload). -/
structure Mark where
  type : Nat
  attrs : Option Nat
deriving DecidableEq, Repr

/-- Modelled from the spec: the empty ordered mark collection (Mark.none). -/
def markNone : List Mark := []

/-- Modelled from the spec: add a mark to an ordered deduplicated collection
(mark.addToSet(set)); adding an already-present mark leaves the set as is. -/
def addToSet (m : Mark) (s : List Mark) : List Mark :=
  if m ∈ s then s else s ++ [m]

/-- Modelled from the spec: remove every mark equal to the given one
(mark.removeFromSet(set)). -/
def removeFromSet (m : Mark) (s : List Mark) : List Mark :=
  s.filter (fun x => !(decide (x = m)))

/-- Modelled from the spec: membership by mark equality (mark.isInSet(set)). -/
def isInSet (m : Mark) (s : List Mark) : Bool := decide (m ∈ s)

/-- The findSameMarkInSet helper of the source: first mark in the set equal to
the given one. -/
def findSameMarkInSet (m : Mark) (s : List Mark) : Option Mark :=
  s.find? (fun x => decide (x = m))

/-! ## Output document values.
Modelled from the spec: the immutable node / fragment value types are external
collaborators (section 6); a node is a typed node (type id, attributes,
content, marks) or a text node, and the standard position arithmetic gives a
text node the size of its text and a non-leaf node the size of its content
plus two. -/

mutual
/-- Modelled from the spec: an output document node value. -/
inductive PMNode where
  | text (typeId : Nat) (value : String) (marks : List Mark)
  | node (typeId : Nat) (attrs : Option Nat) (content : PMNodeList) (marks : List Mark)
/-- Content fragment of a node, kept as a dedicated list type so that all
recursion over nodes stays structural. -/
inductive PMNodeList where
  | nil
  | cons (head : PMNode) (tail : PMNodeList)
end

def PMNodeList.ofList : List PMNode → PMNodeList
  | [] => .nil
  | n :: ns => .cons n (PMNodeList.ofList ns)

def PMNodeList.toList : PMNodeList → List PMNode
  | .nil => []
  | .cons n ns => n :: ns.toList

def PMNode.isText : PMNode → Bool
  | .text _ _ _ => true
  | .node _ _ _ _ => false

def PMNode.typeIdOf : PMNode → Nat
  | .text t _ _ => t
  | .node t _ _ _ => t

def PMNode.marksOf : PMNode → List Mark
  | .text _ _ ms => ms
  | .node _ _ _ ms => ms

def PMNode.textValue : PMNode → String
  | .text _ v _ => v
  | .node _ _ _ _ => ""

/-- The node.mark(marks) operation: replace the mark set of a node. -/
def PMNode.withMarks : PMNode → List Mark → PMNode
  | .text t v _, ms => .text t v ms
  | .node t a c _, ms => .node t a c ms

/-- The text.withText operation: replace the text of a text node. -/
def PMNode.withText : PMNode → String → PMNode
  | .text t _ ms, v => .text t v ms
  | n, _ => n

/-! ## Content-model automaton.
Modelled from the spec: the per-node-type content automaton is an external
collaborator (section 6) exposing advance (matchType), fill-before, minimal
wrapping, outgoing edges and a default child type.  States carry a numeric
stateId standing for the object identity used by the visited set of the
reachability scan, and designate node types by their numeric ids. -/

inductive ContentMatch where
  | mk (stateId : Nat)
       (matchTypeF : Nat → Option ContentMatch)
       (fillBeforeF : List PMNode → Bool → Option (List PMNode))
       (findWrappingF : Nat → Option (List Nat))
       (edges : List (Nat × ContentMatch))
       (defaultTypeF : Option Nat)

def ContentMatch.stateId : ContentMatch → Nat
  | .mk i _ _ _ _ _ => i

def ContentMatch.matchType (cm : ContentMatch) (ty : Nat) : Option ContentMatch :=
  match cm with | .mk _ f _ _ _ _ => f ty

def ContentMatch.fillBefore (cm : ContentMatch) (frag : List PMNode) (force : Bool) :
    Option (List PMNode) :=
  match cm with | .mk _ _ f _ _ _ => f frag force

def ContentMatch.findWrapping (cm : ContentMatch) (ty : Nat) : Option (List Nat) :=
  match cm with | .mk _ _ _ f _ _ => f ty

def ContentMatch.edges : ContentMatch → List (Nat × ContentMatch)
  | .mk _ _ _ _ e _ => e

def ContentMatch.defaultType : ContentMatch → Option Nat
  | .mk _ _ _ _ _ d => d

/-- The ContentMatch.matchFragment operation of the automaton interface:
advance the automaton over every node of a fragment in turn. -/
def ContentMatch.matchFragment (cm : ContentMatch) (frag : List PMNode) :
    Option ContentMatch :=
  match frag with
  | [] => some cm
  | n :: rest =>
    match cm.matchType n.typeIdOf with
    | none => none
    | some cm2 => cm2.matchFragment rest

/-! ## Node types and schema.
Modelled from the spec: node types, mark allowance and the schema directory
are external collaborators (section 6).  A node type is plain data plus its
content automaton and a mark-allowance predicate over mark type ids. -/

structure NodeType where
  id : Nat
  name : String
  groups : List String
  isInline : Bool
  inlineContent : Bool
  isLeaf : Bool
  isTextblock : Bool
  hasDefaultAttrs : Bool
  whitespacePre : Bool
  contentMatch : ContentMatch
  allowsMarkF : Nat → Bool

/-- The type.allowsMarkType query of the schema interface. -/
def NodeType.allowsMarkType (t : NodeType) (markTy : Nat) : Bool := t.allowsMarkF markTy

mutual
/-- The nodeSize of the node value interface (text length, or content size
plus two for non-leaf nodes, one for leaves); leafhood is read off the
schema directory. -/
def nodeSizeWith (leafOf : Nat → Bool) : PMNode → Nat
  | .text _ v _ => strLen v
  | .node t _ content _ =>
    if leafOf t then 1 else 2 + nodeSizeListWith leafOf content
def nodeSizeListWith (leafOf : Nat → Bool) : PMNodeList → Nat
  | .nil => 0
  | .cons n ns => nodeSizeWith leafOf n + nodeSizeListWith leafOf ns
end

/-! ## Parse rules and the input tree -/

/-- Values returned by a getAttrs attribute-computation function: reject the
match, accept with default attributes, or accept with computed attributes. -/
inductive GARes where
  | reject
  | dflt
  | attrs (a : Nat)
deriving DecidableEq, Repr

/-- The preserveWhitespace option values false, true and full. -/
inductive PreserveWS where
  | noPres
  | pres
  | presFull
deriving DecidableEq, Repr

mutual
/-- The input markup tree, the read-only DOM of the external interface:
elements carry a numeric identity, a node name, an optional namespace, the
raw inline style attribute and their children; text nodes carry an identity
and their text.  The mutual list type keeps all recursion structural. -/
inductive DomNode where
  | text (id : Nat) (value : String)
  | elem (id : Nat) (name : String) (ns : Option String) (styleAttr : Option String)
         (children : DomNodeList)
inductive DomNodeList where
  | nil
  | cons (head : DomNode) (tail : DomNodeList)
end

def DomNode.idOf : DomNode → Nat
  | .text i _ => i
  | .elem i _ _ _ _ => i

/-- The nodeName accessor (text nodes report the #text name). -/
def DomNode.nameOf : DomNode → String
  | .text _ _ => "#text"
  | .elem _ n _ _ _ => n

def DomNode.isElem : DomNode → Bool
  | .text _ _ => false
  | .elem _ _ _ _ _ => true

def DomNode.childrenOf : DomNode → DomNodeList
  | .text _ _ => .nil
  | .elem _ _ _ _ cs => cs

def DomNode.nsOf : DomNode → Option String
  | .text _ _ => none
  | .elem _ _ n _ _ => n

def DomNode.styleOf : DomNode → Option String
  | .text _ _ => none
  | .elem _ _ _ s _ => s

/-- The nodeValue accessor of a text node. -/
def DomNode.textValueOf : DomNode → String
  | .text _ v => v
  | .elem _ _ _ _ _ => ""

def DomNodeList.toList : DomNodeList → List DomNode
  | .nil => []
  | .cons c cs => c :: cs.toList

def DomNodeList.length : DomNodeList → Nat
  | .nil => 0
  | .cons _ cs => cs.length + 1

def DomNodeList.append : DomNodeList → DomNodeList → DomNodeList
  | .nil, l => l
  | .cons c cs, l => .cons c (cs.append l)

def DomNodeList.drop : Nat → DomNodeList → DomNodeList
  | 0, l => l
  | _, .nil => .nil
  | n + 1, .cons _ cs => DomNodeList.drop n cs

/-- Append one child at the end of the child list of an element
(the appendChild DOM operation used by normalizeList). -/
def DomNode.appendChild (d : DomNode) (c : DomNode) : DomNode :=
  match d with
  | .text i v => .text i v
  | .elem i n ns st cs => .elem i n ns st (cs.append (.cons c .nil))

mutual
/-- Identities of a node and all its descendants, in document (preorder)
order. -/
def DomNode.subtreeIds : DomNode → List Nat
  | .text i _ => [i]
  | .elem i _ _ _ cs => i :: cs.subtreeIds
def DomNodeList.subtreeIds : DomNodeList → List Nat
  | .nil => []
  | .cons c cs => c.subtreeIds ++ cs.subtreeIds
end

/-- The node.contains DOM query (inclusive containment), by identity. -/
def DomNode.containsId (d : DomNode) (i : Nat) : Bool := decide (i ∈ d.subtreeIds)

mutual
/-- Locate the node with the given identity inside a subtree. -/
def DomNode.findById (d : DomNode) (i : Nat) : Option DomNode :=
  if d.idOf = i then some d else
    match d with
    | .text _ _ => none
    | .elem _ _ _ _ cs => cs.findById i
def DomNodeList.findById : DomNodeList → Nat → Option DomNode
  | .nil, _ => none
  | .cons c cs, i =>
    match c.findById i with
    | some r => some r
    | none => cs.findById i
end

/-- Does the node with identity a strictly contain the node with identity b,
within the given root subtree. -/
def isAncestorIn (root : DomNode) (a b : Nat) : Bool :=
  match root.findById a with
  | some (.elem _ _ _ _ cs) => decide (b ∈ cs.subtreeIds)
  | _ => false

/-- The bit of content.compareDocumentPosition(target) tested by findAround:
bit 2 (target precedes content, also set when target contains content) for
before = true, bit 4 (target follows content, also set when content contains
target) for before = false.  Both nodes are assumed inside the given root. -/
def domPosBit (root : DomNode) (contentId targetId : Nat) (before : Bool) : Bool :=
  if targetId = contentId then false
  else if isAncestorIn root targetId contentId then before
  else if isAncestorIn root contentId targetId then !before
  else
    let ids := root.subtreeIds
    if before then decide (ids.indexOf targetId < ids.indexOf contentId)
    else decide (ids.indexOf contentId < ids.indexOf targetId)

/-- Tag-selector matching, the external dom.matches CSS query; modelled from
the spec as matching the lowercased element name against the selector. -/
def selMatches (d : DomNode) (sel : String) : Bool :=
  match d with
  | .elem _ n _ _ _ => decide (lc n = sel)
  | .text _ _ => false

/-- Argument passed to getAttrs: the DOM element for tag rules, the style
value string for style rules. -/
inductive GAIn where
  | el (d : DomNode)
  | sv (s : String)

/-- One parsing rule, the ParseRule interface of the source.  The skip field
keeps only its boolean reading (the internal DOM-node redirect form of skip,
reachable only through the internal ruleFromNode option, is not modelled). -/
structure ParseRule where
  tag : Option String := none
  ns : Option String := none
  style : Option String := none
  priority : Option Nat := none
  consuming : Option Bool := none
  context : Option String := none
  node : Option String := none
  mark : Option String := none
  clearMark : Option (Mark → Bool) := none
  ignore : Bool := false
  closeParent : Bool := false
  skip : Bool := false
  attrs : Option Nat := none
  getAttrs : Option (GAIn → GARes) := none
  contentElement : Option String := none
  getContent : Option (DomNode → List PMNode) := none
  preserveWhitespace : Option PreserveWS := none

/-- Mark-type entry of the schema directory (spec-modelled): numeric id plus
declared parse rules. -/
structure MarkTypeDef where
  id : Nat
  parseDOM : Option (List ParseRule) := none

/-- Node-type entry of the schema directory (spec-modelled): the node type
plus declared parse rules. -/
structure NodeTypeDef where
  type : NodeType
  parseDOM : Option (List ParseRule) := none

/-- Modelled from the spec: the externally supplied ancestor context
(ResolvedPos), exposing its depth, the node type at each depth and the
content match after the child index at each depth (used by
textblockFromContext). -/
structure RPos where
  depth : Nat
  nodeTypeAt : Nat → NodeType
  cmAfter : Nat → ContentMatch

/-- Modelled from the spec: the schema directory consumed by the parsing
core, keyed by declaration order; typeById resolves the type ids used by the
automaton interface, and scanFuel bounds the markMayApply reachability scan
(the real automaton is finite, so a large enough bound is exact). -/
structure Schema where
  marks : List (String × MarkTypeDef)
  nodes : List (String × NodeTypeDef)
  topNodeType : NodeType
  textTypeId : Nat
  typeById : Nat → NodeType
  scanFuel : Nat

def Schema.nodeByName (s : Schema) (n : String) : Option NodeTypeDef :=
  (s.nodes.find? (fun p => decide (p.1 = n))).map Prod.snd

def Schema.markByName (s : Schema) (n : String) : Option MarkTypeDef :=
  (s.marks.find? (fun p => decide (p.1 = n))).map Prod.snd

/-- The schema.text(value) node constructor. -/
def Schema.text (s : Schema) (v : String) : PMNode := .text s.textTypeId v markNone

def Schema.isLeafId (s : Schema) (i : Nat) : Bool := (s.typeById i).isLeaf

def Schema.nodeSize (s : Schema) (n : PMNode) : Nat := nodeSizeWith s.isLeafId n

/-- The node.isInline test of the node value interface, via the schema
directory (text nodes are inline). -/
def Schema.nodeIsInline (s : Schema) : PMNode → Bool
  | .text _ _ _ => true
  | .node t _ _ _ => (s.typeById t).isInline

/-! ## Style tokenizing and tag tables -/

/-- One matching step of the parseStyles scanner: at the current position try
to read a [\w-]+ property run, optional whitespace, a colon, optional
whitespace, then a nonempty up-to-semicolon value; on failure advance. -/
def parseStylesAux : Nat → List Char → List (String × String)
  | 0, _ => []
  | _, [] => []
  | fuel + 1, c :: cs =>
    if isPropChar c then
      let run := (c :: cs).takeWhile isPropChar
      let afterRun := (c :: cs).dropWhile isPropChar
      let afterWs := afterRun.dropWhile isJsSpace
      match afterWs with
      | ':' :: rest =>
        let rest2 := rest.dropWhile isJsSpace
        let value := rest2.takeWhile (fun d => !(decide (d = ';')))
        if value.isEmpty then parseStylesAux fuel rest
        else
          (⟨run⟩, trimStr ⟨value⟩) ::
            parseStylesAux fuel (rest2.dropWhile (fun d => !(decide (d = ';'))))
      | _ => parseStylesAux fuel afterRun
    else parseStylesAux fuel cs

/-- Tokenize a style attribute into property/value pairs (parseStyles of the
source; pairs are kept as a pair list rather than an even-length flat
list). -/
def parseStyles (style : String) : List (String × String) :=
  parseStylesAux style.data.length style.data

def blockTags : List String :=
  ["address", "article", "aside", "blockquote", "canvas",
   "dd", "div", "dl", "fieldset", "figcaption", "figure",
   "footer", "form", "h1", "h2", "h3", "h4", "h5",
   "h6", "header", "hgroup", "hr", "li", "noscript", "ol",
   "output", "p", "pre", "section", "table", "tfoot", "ul"]

def ignoreTags : List String :=
  ["head", "noscript", "object", "script", "style", "title"]

def listTags : List String := ["ol", "ul"]

/-- JavaScript truthiness of an optional string field (absent or empty is
falsy). -/
def optStrTruthy (o : Option String) : Bool :=
  match o with
  | some s => !(decide (s = ""))
  | none => false

/-- Test of /^(ul|ol)\b/ on a tag selector. -/
def isWordChar (c : Char) : Bool :=
  (c ≥ 'a' && c ≤ 'z') || (c ≥ 'A' && c ≤ 'Z') || (c ≥ '0' && c ≤ '9') || c = '_'

def ulOlBound (s : String) : Bool :=
  (List.isPrefixOf "ul".data s.data || List.isPrefixOf "ol".data s.data) &&
  (match s.data.drop 2 with
   | [] => true
   | c :: _ => !isWordChar c)

/-! ## The DOMParser rule store -/

structure DOMParser where
  schema : Schema
  rules : List ParseRule
  tags : List ParseRule
  styles : List ParseRule
  normalizeLists : Bool

/-- The DOMParser constructor: split the rules into tag and style lists and
decide whether list normalization is needed (only when the schema list types
cannot directly contain themselves). -/
def mkDOMParser (schema : Schema) (rules : List ParseRule) : DOMParser :=
  let tags := rules.filter (fun r => optStrTruthy r.tag)
  let styles := rules.filter (fun r => !optStrTruthy r.tag && optStrTruthy r.style)
  { schema, rules, tags, styles,
    normalizeLists := !(tags.any (fun r =>
      if ulOlBound (r.tag.getD "") && optStrTruthy r.node then
        match schema.nodeByName (r.node.getD "") with
        | some ndef => (ndef.type.contentMatch.matchType ndef.type.id).isSome
        | none => false
      else false)) }

/-- The effective priority of a rule (missing priority counts as 50). -/
def prioOf (r : ParseRule) : Nat := r.priority.getD 50

/-- The insertion step of DOMParser.schemaRules: place a rule before the
first rule of strictly smaller priority (absent priority counting as 50). -/
def insertByPrio (rule : ParseRule) : List ParseRule → List ParseRule
  | [] => [rule]
  | r :: rest =>
    if prioOf r < prioOf rule then rule :: r :: rest
    else r :: insertByPrio rule rest

/-- Rules declared by a schema in declaration order: every mark-spec rule
(with the mark production defaulted to the declaring mark) followed by every
node-spec rule (with the node production defaulted to the declaring node);
the source copies each rule before defaulting, which is implicit in the value
semantics here. -/
def declaredRules (schema : Schema) : List ParseRule :=
  (schema.marks.flatMap (fun p =>
    match p.2.parseDOM with
    | none => []
    | some rules => rules.map (fun r =>
        if !(optStrTruthy r.mark || r.ignore || r.clearMark.isSome) then
          { r with mark := some p.1 }
        else r))) ++
  (schema.nodes.flatMap (fun p =>
    match p.2.parseDOM with
    | none => []
    | some rules => rules.map (fun r =>
        if !(optStrTruthy r.node || r.ignore || optStrTruthy r.mark) then
          { r with node := some p.1 }
        else r)))

/-- DOMParser.schemaRules: insert every declared rule in turn into the
priority-ordered list. -/
def schemaRules (schema : Schema) : List ParseRule :=
  (declaredRules schema).foldl (fun acc r => insertByPrio r acc) []

/-! ## Whitespace options and node contexts -/

/-- The per-frame option bitfield of the source (OPT_PRESERVE_WS,
OPT_PRESERVE_WS_FULL, OPT_OPEN_LEFT), rendered as a record of the three
bits. -/
structure WsOptions where
  preserveWS : Bool := false
  preserveWSFull : Bool := false
  openLeft : Bool := false
deriving DecidableEq, Repr

/-- The wsOptionsFor helper: explicit option, else schema whitespace pre,
else inheritance from the base with the open-left bit cleared. -/
def wsOptionsFor (type : Option NodeType) (pws : Option PreserveWS) (base : WsOptions) :
    WsOptions :=
  match pws with
  | some p =>
    { preserveWS := !(decide (p = .noPres)), preserveWSFull := decide (p = .presFull),
      openLeft := false }
  | none =>
    match type with
    | some t =>
      if t.whitespacePre then
        { preserveWS := true, preserveWSFull := true, openLeft := false }
      else { base with openLeft := false }
    | none => { base with openLeft := false }

/-- One frame of the node-construction stack (the NodeContext class).  The
uid field renders the JavaScript object identity used by sync and
removePendingMark; the match field of the source is named cmatch. -/
structure NodeContext where
  uid : Nat
  type : Option NodeType
  attrs : Option Nat
  marks : List Mark
  pendingMarks : List Mark
  solid : Bool
  cmatch : Option ContentMatch
  options : WsOptions
  content : List PMNode := []
  activeMarks : List Mark := []
  stashMarks : List Mark := []

/-- The NodeContext constructor: when no match is given, an open-left frame
starts unconstrained, otherwise the match starts at the content match of the
type. -/
def mkNodeContext (uid : Nat) (type : Option NodeType) (attrs : Option Nat)
    (marks pendingMarks : List Mark) (solid : Bool) (m : Option ContentMatch)
    (options : WsOptions) : NodeContext :=
  { uid, type, attrs, marks, pendingMarks, solid,
    cmatch :=
      match m with
      | some cm => some cm
      | none => if options.openLeft then none else type.map (fun t => t.contentMatch),
    options }

mutual
/-- The recursive scan of markMayApply over automaton states, with the
visited list threaded through and a fuel bound (exact for fuel at least the
squared state count of the finite automaton). -/
def mmaScan : Nat → Nat → List Nat → ContentMatch → Bool × List Nat
  | 0, _, seen, _ => (false, seen)
  | fuel + 1, tid, seen, cm => mmaScanEdges fuel tid (cm.stateId :: seen) cm.edges
def mmaScanEdges : Nat → Nat → List Nat → List (Nat × ContentMatch) → Bool × List Nat
  | 0, _, seen, _ => (false, seen)
  | _ + 1, _, seen, [] => (false, seen)
  | fuel + 1, tid, seen, (ty, next) :: rest =>
    if ty = tid then (true, seen)
    else if decide (next.stateId ∈ seen) then mmaScanEdges fuel tid seen rest
    else
      match mmaScan fuel tid seen next with
      | (true, seen2) => (true, seen2)
      | (false, seen2) => mmaScanEdges fuel tid seen2 rest
end

/-- The markMayApply helper of the source: could some node type that allows
this mark type eventually contain a node of the given type. -/
def markMayApply (schema : Schema) (markTy : Nat) (nodeTy : NodeType) : Bool :=
  schema.nodes.any (fun p =>
    let parent := p.2.type
    parent.allowsMarkF markTy &&
      (mmaScan schema.scanFuel nodeTy.id [] parent.contentMatch).1)

/-- NodeContext.applyPending: promote every pending mark that the frame (or,
for a typeless frame, the markMayApply fallback for the incoming type) allows
and that is not yet active. -/
def NodeContext.applyPending (nc : NodeContext) (schema : Schema) (nextType : NodeType) :
    NodeContext :=
  nc.pendingMarks.foldl (fun acc mark =>
    let allowed :=
      match acc.type with
      | some t => t.allowsMarkF mark.type
      | none => markMayApply schema mark.type nextType
    if allowed && !isInSet mark acc.activeMarks then
      { acc with activeMarks := addToSet mark acc.activeMarks,
                 pendingMarks := removeFromSet mark acc.pendingMarks }
    else acc) nc

/-- Remove the last mark equal to the given one from a list, returning it. -/
def popLastEq (m : Mark) : List Mark → Option (Mark × List Mark)
  | [] => none
  | x :: xs =>
    match popLastEq m xs with
    | some (y, xs2) => some (y, x :: xs2)
    | none => if x = m then some (x, xs) else none

/-- NodeContext.popFromStashMark: remove and return the last stashed mark
equal to the given one. -/
def NodeContext.popFromStashMark (nc : NodeContext) (m : Mark) :
    Option Mark × NodeContext :=
  match popLastEq m nc.stashMarks with
  | some (y, rest) => (some y, { nc with stashMarks := rest })
  | none => (none, nc)

/-- NodeContext.inlineContext: a typed frame answers by its type, a typeless
frame by its first child, an empty typeless frame by whether the parent of
the inspected DOM node is a known block tag. -/
def NodeContext.inlineContext (nc : NodeContext) (schema : Schema)
    (parentName : Option String) : Bool :=
  match nc.type with
  | some t => t.inlineContent
  | none =>
    match nc.content with
    | n :: _ => schema.nodeIsInline n
    | [] =>
      match parentName with
      | some pn => !(decide (lc pn ∈ blockTags))
      | none => false

/-- NodeContext.findWrapping, with the in-place update of the frame match
made explicit: an unconstrained frame first tries fill-before against the
type content match, then a direct wrapping from the content-match start. -/
def NodeContext.findWrappingCx (nc : NodeContext) (node : PMNode) :
    Option (List Nat) × NodeContext :=
  match nc.cmatch with
  | some m => (m.findWrapping node.typeIdOf, nc)
  | none =>
    match nc.type with
    | none => (some [], nc)
    | some t =>
      match t.contentMatch.fillBefore [node] false with
      | some fill =>
        match t.contentMatch.matchFragment fill with
        | some m2 => (m2.findWrapping node.typeIdOf, { nc with cmatch := some m2 })
        | none =>
          -- the source asserts this match non-null and would fault at runtime
          (none, { nc with cmatch := none })
      | none =>
        match t.contentMatch.findWrapping node.typeIdOf with
        | some wrap => (some wrap, { nc with cmatch := some t.contentMatch })
        | none => (none, nc)

/-- Content part of NodeContext.finish: strip trailing whitespace of the last
text child unless preserving, then pad to validity unless closing open. -/
def NodeContext.finishContent (nc : NodeContext) (openEnd : Bool) : List PMNode :=
  let content :=
    if !nc.options.preserveWS then
      match nc.content.getLast? with
      | some last =>
        if last.isText && decide (0 < trailingWsLen last.textValue) then
          let m := trailingWsLen last.textValue
          if strLen last.textValue = m then nc.content.dropLast
          else nc.content.dropLast ++
            [last.withText (strTake last.textValue (strLen last.textValue - m))]
        else nc.content
      | none => nc.content
    else nc.content
  if !openEnd then
    match nc.cmatch with
    | some m => content ++ (m.fillBefore [] true).getD []
    | none => content
  else content

/-- NodeContext.finish for an inner (typed) frame, yielding the finished
node; frames above the root always carry a type. -/
def NodeContext.finishNode (nc : NodeContext) (openEnd : Bool) : Option PMNode :=
  nc.type.map (fun t =>
    PMNode.node t.id nc.attrs (PMNodeList.ofList (nc.finishContent openEnd)) nc.marks)

/-- Result of finishing the bottom frame: a whole document node or an open
fragment. -/
inductive ParseResult where
  | doc (n : PMNode)
  | fragment (ns : List PMNode)

def NodeContext.finishTop (nc : NodeContext) (openEnd : Bool) : ParseResult :=
  match nc.type with
  | some t =>
    .doc (PMNode.node t.id nc.attrs (PMNodeList.ofList (nc.finishContent openEnd)) nc.marks)
  | none => .fragment (nc.finishContent openEnd)

/-! ## The parse context -/

/-- One record of the caller-supplied findPositions list.  The pos field of
the source is rendered as the history of every value assigned to it (pos is
the last entry); the guards of the source read pos as unset exactly when the
history is empty. -/
structure FindEntry where
  node : Nat
  offset : Nat
  posHist : List Int := []
deriving DecidableEq, Repr

/-- The pos field currently stored in an entry. -/
def FindEntry.pos (e : FindEntry) : Option Int := e.posHist.getLast?

/-- The options recognized by parse and parseSlice (the internal ruleFromNode
hook is not modelled; topNode is modelled by its type and attributes). -/
structure ParseOptions where
  preserveWhitespace : Option PreserveWS := none
  findPositions : List FindEntry := []
  fromIdx : Option Nat := none
  toIdx : Option Nat := none
  topNode : Option (NodeType × Option Nat) := none
  topMatch : Option ContentMatch := none
  context : Option RPos := none
  topOpen : Bool := false

/-- The ParseContext state: the rule store (threaded because matching writes
computed attributes onto rules), the relevant options, the open depth, the
find list, the needs-block flag, the frame stack and the uid counter for
newly created frames. -/
structure ParseContext where
  parser : DOMParser
  optPreserveWhitespace : Option PreserveWS
  optContext : Option RPos
  optTopOpen : Bool
  isOpen : Bool
  openDepth : Nat
  find : List FindEntry
  needsBlock : Bool
  nodes : List NodeContext
  nextUid : Nat

/-- Placeholder frame used for out-of-range stack indexing (never reached on
states satisfying the stack invariant). -/
def dummyNC : NodeContext :=
  mkNodeContext 0 none none markNone markNone true none {}

/-- The ParseContext constructor. -/
def mkParseContext (parser : DOMParser) (options : ParseOptions) (isOpen : Bool) :
    ParseContext :=
  let base := wsOptionsFor none options.preserveWhitespace {}
  let topOptions := { base with openLeft := base.openLeft || isOpen }
  let topContext :=
    match options.topNode with
    | some (tn, tattrs) =>
      mkNodeContext 0 (some tn) tattrs markNone markNone true
        (some (options.topMatch.getD tn.contentMatch)) topOptions
    | none =>
      if isOpen then mkNodeContext 0 none none markNone markNone true none topOptions
      else mkNodeContext 0 (some parser.schema.topNodeType) none markNone markNone true
        none topOptions
  { parser, optPreserveWhitespace := options.preserveWhitespace,
    optContext := options.context, optTopOpen := options.topOpen, isOpen,
    openDepth := 0, find := options.findPositions, needsBlock := false,
    nodes := [topContext], nextUid := 1 }

/-- The top getter: the frame at the open depth. -/
def ParseContext.top (pc : ParseContext) : NodeContext :=
  pc.nodes.getD pc.openDepth dummyNC

/-- Replace the frame at the given depth. -/
def ParseContext.setNode (pc : ParseContext) (i : Nat) (nc : NodeContext) : ParseContext :=
  { pc with nodes := pc.nodes.set i nc }

def ParseContext.setTop (pc : ParseContext) (nc : NodeContext) : ParseContext :=
  pc.setNode pc.openDepth nc

/-! ## Context-path matching -/

/-- Does a node type satisfy one path segment (name or group match); a null
type never matches. -/
def typeMatchesPart (t : Option NodeType) (part : String) : Bool :=
  match t with
  | none => false
  | some ty => decide (ty.name = part) || decide (part ∈ ty.groups)

mutual
/-- The inner match(i, depth) recursion of matchesContext; the natural number
argument is the part index plus one (zero meaning the index has run out and
the whole path matched). -/
def mcGo (pc : ParseContext) (parts : List String) (useRoot : Bool) (minDepth : Int) :
    Nat → Int → Bool
  | 0, _ => true
  | i + 1, depth =>
    let part := parts.getD i ""
    if part = "" then
      if decide (i = parts.length - 1) || decide (i = 0) then
        mcGo pc parts useRoot minDepth i depth
      else mcTry pc parts useRoot minDepth i (depth - minDepth + 1).toNat depth
    else
      let next : Option NodeType :=
        if depth > 0 || (depth = 0 && useRoot) then
          (pc.nodes.getD depth.toNat dummyNC).type
        else
          match pc.optContext with
          | some opt =>
            if depth ≥ minDepth then some (opt.nodeTypeAt (depth - minDepth).toNat)
            else none
          | none => none
      if typeMatchesPart next part then mcGo pc parts useRoot minDepth i (depth - 1)
      else false
  termination_by i _ => (i, 0)
/-- The depth-searching loop of the double-slash segment: try every depth
down to minDepth; the fuel counts the depths left to try. -/
def mcTry (pc : ParseContext) (parts : List String) (useRoot : Bool) (minDepth : Int) :
    Nat → Nat → Int → Bool
  | _, 0, _ => false
  | i, n + 1, depth =>
    if depth < minDepth then false
    else if mcGo pc parts useRoot minDepth i depth then true
    else mcTry pc parts useRoot minDepth i n (depth - 1)
  termination_by i n _ => (i, n + 1)
end

/-- One alternation-free branch of matchesContext. -/
def matchesContextOne (pc : ParseContext) (context : String) : Bool :=
  let parts := splitOnChar '/' context
  let useRoot := !pc.isOpen &&
    (match pc.optContext with
     | none => true
     | some opt =>
       match (pc.nodes.getD 0 dummyNC).type with
       | some t0 => decide ((opt.nodeTypeAt opt.depth).id = t0.id)
       | none => false)
  let minDepth : Int :=
    -(match pc.optContext with
      | some opt => (opt.depth : Int) + 1
      | none => 0) + (if useRoot then 0 else 1)
  mcGo pc parts useRoot minDepth parts.length (pc.openDepth : Int)

/-- ParseContext.matchesContext: try each pipe-separated alternative in
turn. -/
def ParseContext.matchesContext (pc : ParseContext) (context : String) : Bool :=
  if strContainsChar '|' context then
    ((splitOnChar '|' context).map trimStr).any (fun c => matchesContextOne pc c)
  else matchesContextOne pc context

/-! ## Rule matching (with the in-rule attrs write-back made explicit) -/

/-- The scanning loop of DOMParser.matchTag from a start index; when a rule
with a getAttrs function matches, the computed result is written back onto
the rule record in the store, exactly as the source assigns rule.attrs. -/
def matchTagAux (p : DOMParser) (dom : DomNode) (cx : ParseContext) :
    Nat → Nat → Option (ParseRule × Nat) × DOMParser
  | _, 0 => (none, p)
  | i, fuel + 1 =>
    match p.tags[i]? with
    | none => (none, p)
    | some rule =>
      let contextOk :=
        match rule.context with
        | none => true
        | some ctx => if ctx = "" then true else cx.matchesContext ctx
      if selMatches dom (rule.tag.getD "") &&
         (match rule.ns with
          | none => true
          | some n => decide (dom.nsOf = some n)) &&
         contextOk then
        match rule.getAttrs with
        | none => (some (rule, i), p)
        | some f =>
          match f (.el dom) with
          | .reject => matchTagAux p dom cx (i + 1) fuel
          | .dflt =>
            let rule2 := { rule with attrs := none }
            (some (rule2, i), { p with tags := p.tags.set i rule2 })
          | .attrs a =>
            let rule2 := { rule with attrs := some a }
            (some (rule2, i), { p with tags := p.tags.set i rule2 })
      else matchTagAux p dom cx (i + 1) fuel

/-- DOMParser.matchTag: scan the tag rules, optionally starting just past a
previous match; returns the matched (possibly attrs-updated) rule with its
index, and the possibly updated store. -/
def DOMParser.matchTagCx (p : DOMParser) (dom : DomNode) (cx : ParseContext)
    (after : Option Nat) : Option (ParseRule × Nat) × DOMParser :=
  let start := match after with | some i => i + 1 | none => 0
  matchTagAux p dom cx start (p.tags.length + 1)

/-- The scanning loop of DOMParser.matchStyle. -/
def matchStyleAux (p : DOMParser) (prop value : String) (cx : ParseContext) :
    Nat → Nat → Option (ParseRule × Nat) × DOMParser
  | _, 0 => (none, p)
  | i, fuel + 1 =>
    match p.styles[i]? with
    | none => (none, p)
    | some rule =>
      let style := rule.style.getD ""
      let contextOk :=
        match rule.context with
        | none => true
        | some ctx => if ctx = "" then true else cx.matchesContext ctx
      if List.isPrefixOf prop.data style.data && contextOk &&
         (decide (style = prop) || decide (style = prop ++ "=" ++ value)) then
        match rule.getAttrs with
        | none => (some (rule, i), p)
        | some f =>
          match f (.sv value) with
          | .reject => matchStyleAux p prop value cx (i + 1) fuel
          | .dflt =>
            let rule2 := { rule with attrs := none }
            (some (rule2, i), { p with styles := p.styles.set i rule2 })
          | .attrs a =>
            let rule2 := { rule with attrs := some a }
            (some (rule2, i), { p with styles := p.styles.set i rule2 })
      else matchStyleAux p prop value cx (i + 1) fuel

/-- DOMParser.matchStyle: scan the style rules for the given property and
value. -/
def DOMParser.matchStyleCx (p : DOMParser) (prop value : String) (cx : ParseContext)
    (after : Option Nat) : Option (ParseRule × Nat) × DOMParser :=
  let start := match after with | some i => i + 1 | none => 0
  matchStyleAux p prop value cx start (p.styles.length + 1)

/-! ## Stack maintenance and position finding -/

/-- The loop of closeExtra: fold the finished topmost frame into its parent
the given number of times. -/
def closeExtraGo (openEnd : Bool) : Nat → List NodeContext → List NodeContext
  | 0, ns => ns
  | k + 1, ns =>
    match ns.getLast? with
    | none => ns
    | some last =>
      let ns2 := ns.dropLast
      let ns3 :=
        match ns2.getLast? with
        | none => ns2
        | some parent =>
          ns2.dropLast ++
            [{ parent with
                content := parent.content ++
                  (match last.finishNode openEnd with
                   | some n => [n]
                   | none => []) }]
      closeExtraGo openEnd k ns3

/-- ParseContext.closeExtra: finish and fold every frame above the open
depth. -/
def ParseContext.closeExtra (pc : ParseContext) (openEnd : Bool := false) : ParseContext :=
  { pc with nodes := closeExtraGo openEnd (pc.nodes.length - (pc.openDepth + 1)) pc.nodes }

/-- The currentPos getter: close extra frames, then count the sizes of all
accumulated content on the open stack plus one separator per open depth. -/
def ParseContext.currentPosSt (pc : ParseContext) : ParseContext × Int :=
  let pc2 := pc.closeExtra
  let schema := pc2.parser.schema
  let pos : Int :=
    (List.range (pc2.openDepth + 1)).foldl (fun acc i =>
      acc + ((pc2.nodes.getD i dummyNC).content.map (fun n => (schema.nodeSize n : Int))).sum +
        (if i = 0 then 0 else 1)) 0
  (pc2, pos)

/-- ParseContext.findAtPoint: record the current position on every entry
whose node and offset equal the given point (no unset guard in the
source). -/
def ParseContext.findAtPoint (pc : ParseContext) (parentId : Nat) (offset : Nat) :
    ParseContext :=
  if pc.find.any (fun e => decide (e.node = parentId) && decide (e.offset = offset)) then
    let (pc2, pos) := pc.currentPosSt
    { pc2 with
        find := pc2.find.map (fun e =>
          if e.node = parentId ∧ e.offset = offset then
            { e with posHist := e.posHist ++ [pos] }
          else e) }
  else pc

/-- ParseContext.findInside: record the current position on every still-unset
entry contained in the given element (text parents never match because of the
nodeType check of the source). -/
def ParseContext.findInside (pc : ParseContext) (parent : DomNode) : ParseContext :=
  if pc.find.any (fun e => e.posHist.isEmpty && parent.isElem && parent.containsId e.node) then
    let (pc2, pos) := pc.currentPosSt
    { pc2 with
        find := pc2.find.map (fun e =>
          if e.posHist.isEmpty ∧ parent.isElem = true ∧ parent.containsId e.node = true then
            { e with posHist := e.posHist ++ [pos] }
          else e) }
  else pc

/-- ParseContext.findAround: like findInside but only for entries on the
given side of the content element. -/
def ParseContext.findAround (pc : ParseContext) (parent content : DomNode) (before : Bool) :
    ParseContext :=
  if parent.idOf ≠ content.idOf ∧
     pc.find.any (fun e =>
       e.posHist.isEmpty && parent.isElem && parent.containsId e.node &&
       domPosBit parent content.idOf e.node before) then
    let (pc2, pos) := pc.currentPosSt
    { pc2 with
        find := pc2.find.map (fun e =>
          if e.posHist.isEmpty ∧ parent.isElem = true ∧ parent.containsId e.node = true ∧
             domPosBit parent content.idOf e.node before = true then
            { e with posHist := e.posHist ++ [pos] }
          else e) }
  else pc

/-- ParseContext.findInText: resolve entries pointing into the given text
node against the current position (no unset guard in the source). -/
def ParseContext.findInText (pc : ParseContext) (textNode : DomNode) : ParseContext :=
  if pc.find.any (fun e => decide (e.node = textNode.idOf)) then
    let (pc2, pos) := pc.currentPosSt
    { pc2 with
        find := pc2.find.map (fun e =>
          if e.node = textNode.idOf then
            { e with
                posHist := e.posHist ++
                  [pos - ((strLen textNode.textValueOf : Int) - (e.offset : Int))] }
          else e) }
  else pc

/-- Search for the frame with the given uid from a depth downward (the
identity search of sync). -/
def syncSearch (nodes : List NodeContext) (toUid : Nat) : Nat → Option Nat
  | 0 => if (nodes.getD 0 dummyNC).uid = toUid then some 0 else none
  | i + 1 =>
    if (nodes.getD (i + 1) dummyNC).uid = toUid then some (i + 1)
    else syncSearch nodes toUid i

/-- ParseContext.sync: move the open depth back to the frame with the given
identity, if it is still on the open stack. -/
def ParseContext.sync (pc : ParseContext) (toUid : Nat) : ParseContext × Bool :=
  match syncSearch pc.nodes toUid pc.openDepth with
  | some i => ({ pc with openDepth := i }, true)
  | none => (pc, false)

/-! ## The fitter: enterInner, findPlace, insertNode, enter -/

/-- ParseContext.enterInner: close extra frames, promote pending marks on the
top frame, advance its match, and push a fresh frame for the given type; a
new frame regains the open-left option exactly when the parent frame is
open-left and still empty. -/
def ParseContext.enterInner (pc : ParseContext) (type : NodeType)
    (attrs : Option Nat := none) (solid : Bool := false)
    (preserveWS : Option PreserveWS := none) : ParseContext :=
  let pc := pc.closeExtra
  let top := pc.top
  let top := top.applyPending pc.parser.schema type
  let top :=
    { top with
        cmatch := match top.cmatch with
                  | some m => m.matchType type.id
                  | none => none }
  let pc := pc.setTop top
  let options := wsOptionsFor (some type) preserveWS top.options
  let options :=
    if top.options.openLeft && top.content.isEmpty then { options with openLeft := true }
    else options
  let nc := mkNodeContext pc.nextUid (some type) attrs top.activeMarks top.pendingMarks
    solid none options
  { pc with nodes := pc.nodes ++ [nc], openDepth := pc.openDepth + 1,
            nextUid := pc.nextUid + 1 }

/-- The scanning loop of findPlace, from the given depth downward, keeping
the best (shortest, innermost-first) route and its frame depth; stops early
on an adopted direct fit and never proceeds past a solid frame. -/
def fpScan (node : PMNode) : Nat → ParseContext → Option (List Nat × Nat) →
    ParseContext × Option (List Nat × Nat)
  | d, pc, best =>
    let cx := pc.nodes.getD d dummyNC
    let (found, cx2) := cx.findWrappingCx node
    let pc2 := pc.setNode d cx2
    match found with
    | some f =>
      let adopt := match best with
        | none => true
        | some (r, _) => decide (f.length < r.length)
      let best2 := if adopt then some (f, d) else best
      if adopt && f.isEmpty then (pc2, best2)
      else if cx2.solid then (pc2, best2)
      else
        match d with
        | 0 => (pc2, best2)
        | d' + 1 => fpScan node d' pc2 best2
    | none =>
      if cx2.solid then (pc2, best)
      else
        match d with
        | 0 => (pc2, best)
        | d' + 1 => fpScan node d' pc2 best

/-- ParseContext.findPlace: scan for a wrapping route, then synchronize to
the chosen frame and open one non-solid frame per wrapper type. -/
def ParseContext.findPlace (pc : ParseContext) (node : PMNode) : ParseContext × Bool :=
  let (pc2, best) := fpScan node pc.openDepth pc none
  match best with
  | none => (pc2, false)
  | some (route, d) =>
    let (pc3, _) := pc2.sync (pc2.nodes.getD d dummyNC).uid
    let pc4 := route.foldl
      (fun acc tid => acc.enterInner (acc.parser.schema.typeById tid) none false none) pc3
    (pc4, true)

/-- One step of the context walk of textblockFromContext: the default type
after the child index at the given depth, if it is a default-attributed
textblock. -/
def tbcCheck (ctx : RPos) (schema : Schema) (d : Nat) : Option NodeType :=
  match (ctx.cmAfter d).defaultType with
  | some tid =>
    let t := schema.typeById tid
    if t.isTextblock && t.hasDefaultAttrs then some t else none
  | none => none

/-- ParseContext.textblockFromContext, the context part: walk the supplied
ancestor context from its depth downward looking for a default textblock
type. -/
def tbcGo (ctx : RPos) (schema : Schema) : Nat → Option NodeType
  | 0 => tbcCheck ctx schema 0
  | d + 1 =>
    match tbcCheck ctx schema (d + 1) with
    | some t => some t
    | none => tbcGo ctx schema d

/-- ParseContext.textblockFromContext: a default textblock from the supplied
context, else the first schema node type that is a default-attributed
textblock. -/
def ParseContext.textblockFromContext (pc : ParseContext) : Option NodeType :=
  let schema := pc.parser.schema
  let fromCtx :=
    match pc.optContext with
    | some ctx => tbcGo ctx schema ctx.depth
    | none => none
  match fromCtx with
  | some t => some t
  | none =>
    (schema.nodes.find? (fun p => p.2.type.isTextblock && p.2.type.hasDefaultAttrs)).map
      (fun p => p.2.type)

/-- ParseContext.insertNode: synthesize a default textblock when an inline
node arrives while a block is needed in a typeless frame, then place the
node, promote pending marks, advance the match, and append the node with the
active marks the frame type allows. -/
def ParseContext.insertNode (pc : ParseContext) (node : PMNode) : ParseContext × Bool :=
  let schema := pc.parser.schema
  let pc :=
    if schema.nodeIsInline node && pc.needsBlock && pc.top.type.isNone then
      match pc.textblockFromContext with
      | some block => pc.enterInner block
      | none => pc
    else pc
  let (pc2, ok) := pc.findPlace node
  if ok then
    let pc3 := pc2.closeExtra
    let top := pc3.top
    let top := top.applyPending schema (schema.typeById node.typeIdOf)
    let top :=
      { top with
          cmatch := match top.cmatch with
                    | some m => m.matchType node.typeIdOf
                    | none => none }
    let marks := node.marksOf.foldl (fun ms mk =>
      if (match top.type with
          | none => true
          | some t => t.allowsMarkType mk.type) then addToSet mk ms else ms)
      top.activeMarks
    let top := { top with content := top.content ++ [node.withMarks marks] }
    (pc3.setTop top, true)
  else (pc2, false)

/-- ParseContext.enter: place a node of the given type, then open a solid
frame for it. -/
def ParseContext.enter (pc : ParseContext) (type : NodeType) (attrs : Option Nat)
    (preserveWS : Option PreserveWS) : ParseContext × Bool :=
  let (pc2, ok) := pc.findPlace (PMNode.node type.id attrs .nil markNone)
  (if ok then pc2.enterInner type attrs true preserveWS else pc2, ok)

/-! ## The pending-mark protocol on the context -/

/-- ParseContext.addPendingMark: stash an equal pending mark, then add the
mark to the pending set of the top frame. -/
def ParseContext.addPendingMark (pc : ParseContext) (m : Mark) : ParseContext :=
  let top := pc.top
  let top :=
    match findSameMarkInSet m top.pendingMarks with
    | some found => { top with stashMarks := top.stashMarks ++ [found] }
    | none => top
  pc.setTop { top with pendingMarks := addToSet m top.pendingMarks }

/-- The frame walk of removePendingMark, from the given depth down to the
frame with the upto identity: remove from pending if still pending there,
otherwise remove from active and reactivate an equal stashed mark when the
frame type allows it. -/
def rpmGo (m : Mark) (uptoUid : Nat) : Nat → ParseContext → ParseContext
  | d, pc =>
    let level := pc.nodes.getD d dummyNC
    let level2 :=
      if isInSet m level.pendingMarks then
        { level with pendingMarks := removeFromSet m level.pendingMarks }
      else
        let level := { level with activeMarks := removeFromSet m level.activeMarks }
        let (stash, level) := level.popFromStashMark m
        match stash with
        | some sm =>
          if (match level.type with
              | some t => t.allowsMarkType sm.type
              | none => false) then
            { level with activeMarks := addToSet sm level.activeMarks }
          else level
        | none => level
    let pc2 := pc.setNode d level2
    if level2.uid = uptoUid then pc2
    else
      match d with
      | 0 => pc2
      | d' + 1 => rpmGo m uptoUid d' pc2

/-- ParseContext.removePendingMark. -/
def ParseContext.removePendingMark (pc : ParseContext) (m : Mark) (uptoUid : Nat) :
    ParseContext :=
  rpmGo m uptoUid pc.openDepth pc

/-! ## Styles, text nodes and fallbacks -/

/-- The inner matching chain of readStyles for one property/value pair,
following consuming:false rules; yields none when an ignore rule matches,
otherwise the accumulated add and remove marks. -/
def rsChain (prop value : String) : Nat → Option Nat → ParseContext → List Mark →
    List Mark → ParseContext × Option (List Mark × List Mark)
  | 0, _, pc, add, remove => (pc, some (add, remove))
  | fuel + 1, after, pc, add, remove =>
    let (res, p2) := pc.parser.matchStyleCx prop value pc after
    let pc2 := { pc with parser := p2 }
    match res with
    | none => (pc2, some (add, remove))
    | some (rule, idx) =>
      if rule.ignore then (pc2, none)
      else
        match rule.clearMark with
        | some f =>
          let remove2 := pc2.top.pendingMarks.foldl
            (fun rm mk => if f mk then addToSet mk rm else rm) remove
          if rule.consuming = some false then rsChain prop value fuel (some idx) pc2 add remove2
          else (pc2, some (add, remove2))
        | none =>
          let add2 :=
            match pc2.parser.schema.markByName (rule.mark.getD "") with
            | some mdef => addToSet { type := mdef.id, attrs := rule.attrs } add
            | none => add
          if rule.consuming = some false then rsChain prop value fuel (some idx) pc2 add2 remove
          else (pc2, some (add2, remove))

/-- The pair loop of readStyles. -/
def rsGo : List (String × String) → ParseContext → List Mark → List Mark →
    ParseContext × Option (List Mark × List Mark)
  | [], pc, add, remove => (pc, some (add, remove))
  | (prop, value) :: rest, pc, add, remove =>
    match rsChain prop value (pc.parser.styles.length + 1) none pc add remove with
    | (pc2, none) => (pc2, none)
    | (pc2, some (add2, remove2)) => rsGo rest pc2 add2 remove2

/-- ParseContext.readStyles: run the style rules over every property/value
pair; none signals that a matched rule had ignore set. -/
def ParseContext.readStyles (pc : ParseContext) (styles : List (String × String)) :
    ParseContext × Option (List Mark × List Mark) :=
  rsGo styles pc markNone markNone

/-- ParseContext.addTextNode, given the name of the previous DOM sibling and
of the parent node of the text (the DOM navigation the source performs). -/
def ParseContext.addTextNode (pc : ParseContext) (dom : DomNode)
    (prevSibName : Option String) (parentName : Option String) : ParseContext :=
  let value := dom.textValueOf
  let top := pc.top
  let schema := pc.parser.schema
  if top.options.preserveWSFull || top.inlineContext schema parentName || hasNonWs value then
    let value :=
      if !top.options.preserveWS then
        let v := collapseWs value
        if startsWithWs v && decide (pc.openDepth = pc.nodes.length - 1) then
          let nodeBefore := top.content.getLast?
          let stripIt :=
            match nodeBefore with
            | none => true
            | some nb =>
              (match prevSibName with
               | some n => decide (n = "BR")
               | none => false) ||
              (nb.isText && endsWithWs nb.textValue)
          if stripIt then strTail v else v
        else v
      else if !top.options.preserveWSFull then newlinesToSpaces value
      else normalizeCr value
    let pc2 := if value = "" then pc else (pc.insertNode (schema.text value)).1
    pc2.findInText dom
  else
    pc.findInside dom

/-- ParseContext.leafFallback: an unplaceable BR in inline content becomes a
literal newline text node (a fresh DOM text node with no parent, modelled
with identity zero). -/
def ParseContext.leafFallback (pc : ParseContext) (dom : DomNode) : ParseContext :=
  if dom.nameOf = "BR" &&
     (match pc.top.type with
      | some t => t.inlineContent
      | none => false) then
    pc.addTextNode (DomNode.text 0 "\n") none none
  else pc

/-- ParseContext.ignoreFallback: an ignored BR outside inline content runs
findPlace with a placeholder text node to establish an inline context. -/
def ParseContext.ignoreFallback (pc : ParseContext) (dom : DomNode) : ParseContext :=
  if dom.nameOf = "BR" &&
     !(match pc.top.type with
       | some t => t.inlineContent
       | none => false) then
    (pc.findPlace (pc.parser.schema.text "-")).1
  else pc

/-! ## List normalization -/

def domListOf : List DomNode → DomNodeList
  | [] => .nil
  | c :: cs => .cons c (domListOf cs)

/-- The child scan of normalizeList: acc holds finished children, cur the
current list item absorbing directly nested lists, after the text nodes seen
since cur. -/
def normalizeListGo : DomNodeList → List DomNode → Option DomNode → List DomNode →
    List DomNode
  | .nil, acc, cur, after =>
    acc ++ (match cur with | some li => [li] | none => []) ++ after
  | .cons child rest, acc, cur, after =>
    match child with
    | .text i v =>
      match cur with
      | none => normalizeListGo rest (acc ++ [.text i v]) none after
      | some li => normalizeListGo rest acc (some li) (after ++ [.text i v])
    | .elem i n ns st cs =>
      let name := lc n
      if decide (name ∈ listTags) && cur.isSome then
        match cur with
        | some li => normalizeListGo rest acc (some (li.appendChild (.elem i n ns st cs))) after
        | none => normalizeListGo rest acc none after
      else if name = "li" then
        normalizeListGo rest
          (acc ++ (match cur with | some li => [li] | none => []) ++ after)
          (some (.elem i n ns st cs)) []
      else
        normalizeListGo rest
          (acc ++ (match cur with | some li => [li] | none => []) ++ after ++ [.elem i n ns st cs])
          none []

/-- The normalizeList kludge: merge a list nested directly inside a list into
the preceding list item. -/
def normalizeList (dom : DomNode) : DomNode :=
  match dom with
  | .elem i n ns st cs => .elem i n ns st (domListOf (normalizeListGo cs [] none []))
  | t => t

mutual
/-- The querySelector lookup used for a contentElement selector: first
descendant (document order, self excluded at the top call) whose name
matches. -/
def qsNode : DomNode → String → Option DomNode
  | .text i v, sel => if selMatches (.text i v) sel then some (.text i v) else none
  | .elem i n ns st cs, sel =>
    if selMatches (.elem i n ns st cs) sel then some (.elem i n ns st cs)
    else qsList cs sel
def qsList : DomNodeList → String → Option DomNode
  | .nil, _ => none
  | .cons c cs, sel =>
    match qsNode c sel with
    | some r => some r
    | none => qsList cs sel
end

/-- The dom.querySelector call of the contentElement branch (descendants
only). -/
def querySelectorModel (dom : DomNode) (sel : String) : Option DomNode :=
  qsList dom.childrenOf sel

/-! ## The tree walker.
The mutually recursive walk is driven by an explicit fuel (every call steps
it down once); fuel zero returns the state unchanged, so any bound at least
the number of walk steps gives exactly the source behavior. -/

mutual
/-- ParseContext.addDOM: dispatch a DOM node to text handling, plain element
handling, or the style-marks-wrapped element handling. -/
def addDOM : Nat → ParseContext → DomNode → Option String → Option String → ParseContext
  | 0, pc, _, _, _ => pc
  | fuel + 1, pc, dom, prevSibName, parentName =>
    match dom with
    | .text i v => pc.addTextNode (.text i v) prevSibName parentName
    | .elem i n ns styleAttr cs =>
      let el : DomNode := .elem i n ns styleAttr cs
      if !optStrTruthy styleAttr then addElement fuel pc el none
      else
        let (pc2, marksOpt) := pc.readStyles (parseStyles (styleAttr.getD ""))
        match marksOpt with
        | none => pc2
        | some (addMarks, removeMarks) =>
          let topUid := pc2.top.uid
          let pc3 := removeMarks.foldl (fun acc m => acc.removePendingMark m topUid) pc2
          let pc4 := addMarks.foldl (fun acc m => acc.addPendingMark m) pc3
          let pc5 := addElement fuel pc4 el none
          let pc6 := addMarks.foldl (fun acc m => acc.removePendingMark m topUid) pc5
          removeMarks.foldl (fun acc m => acc.addPendingMark m) pc6

/-- ParseContext.addElement: normalize lists, resolve a rule, and dispatch to
the ignore, transparent (no rule / skip / closeParent) or rule-driven
handling. -/
def addElement : Nat → ParseContext → DomNode → Option Nat → ParseContext
  | 0, pc, _, _ => pc
  | fuel + 1, pc, dom0, matchAfter =>
    let name := lc dom0.nameOf
    let dom :=
      if decide (name ∈ listTags) && pc.parser.normalizeLists then normalizeList dom0
      else dom0
    let (ruleRes, p2) := pc.parser.matchTagCx dom pc matchAfter
    let pc := { pc with parser := p2 }
    match ruleRes with
    | some (rule, ruleIdx) =>
      if rule.ignore then
        (pc.findInside dom).ignoreFallback dom
      else if rule.skip || rule.closeParent then
        let pc :=
          if rule.closeParent then { pc with openDepth := pc.openDepth - 1 } else pc
        addElementSkip fuel pc dom name
      else
        addElementByRule fuel pc dom rule
          (if rule.consuming = some false then some ruleIdx else none)
    | none =>
      if decide (name ∈ ignoreTags) then
        (pc.findInside dom).ignoreFallback dom
      else addElementSkip fuel pc dom name

/-- The transparent branch of addElement shared by the no-rule, skip and
closeParent cases: synchronize block boundaries, recurse into the children,
restore the needs-block flag. -/
def addElementSkip : Nat → ParseContext → DomNode → String → ParseContext
  | 0, pc, _, _ => pc
  | fuel + 1, pc, dom, name =>
    let top := pc.top
    let oldNeedsBlock := pc.needsBlock
    if decide (name ∈ blockTags) then
      let pc :=
        if !top.content.isEmpty &&
           (match top.content.head? with
            | some n => pc.parser.schema.nodeIsInline n
            | none => false) &&
           decide (pc.openDepth ≠ 0) then
          { pc with openDepth := pc.openDepth - 1 }
        else pc
      let top2 := pc.top
      let pc := if top2.type.isNone then { pc with needsBlock := true } else pc
      let pc := addAll fuel pc dom none none
      let (pc, _) := pc.sync top2.uid
      { pc with needsBlock := oldNeedsBlock }
    else
      match dom.childrenOf with
      | .nil => pc.leafFallback dom
      | .cons _ _ =>
        let pc := addAll fuel pc dom none none
        { pc with needsBlock := oldNeedsBlock }

/-- ParseContext.addElementByRule: apply a matched producing rule (open a
node frame, insert a leaf, or push a pending mark), parse the content as the
rule directs, then pop the frame or remove the mark. -/
def addElementByRule : Nat → ParseContext → DomNode → ParseRule → Option Nat →
    ParseContext
  | 0, pc, _, _, _ => pc
  | fuel + 1, pc, dom, rule, continueAfter =>
    let schema := pc.parser.schema
    let prod :
        ParseContext × Bool × Option NodeType × Option Mark :=
      if optStrTruthy rule.node then
        match schema.nodeByName (rule.node.getD "") with
        | some ndef =>
          let nodeType := ndef.type
          if !nodeType.isLeaf then
            let (pc2, ok) := pc.enter nodeType rule.attrs rule.preserveWhitespace
            (pc2, ok, some nodeType, none)
          else
            let (pc2, ok) :=
              pc.insertNode (PMNode.node nodeType.id rule.attrs .nil markNone)
            ((if ok then pc2 else pc2.leafFallback dom), false, some nodeType, none)
        | none =>
          -- an undeclared node name faults at runtime in the source
          (pc, false, none, none)
      else
        match schema.markByName (rule.mark.getD "") with
        | some mdef =>
          let mark : Mark := { type := mdef.id, attrs := rule.attrs }
          (pc.addPendingMark mark, false, none, some mark)
        | none =>
          -- an undeclared mark name faults at runtime in the source
          (pc, false, none, none)
    match prod with
    | (pc1, syncFrame, nodeType, mark) =>
      let startInUid := pc1.top.uid
      let pc2 :=
        if (match nodeType with
            | some t => t.isLeaf
            | none => false) then
          pc1.findInside dom
        else
          match continueAfter with
          | some idx => addElement fuel pc1 dom (some idx)
          | none =>
            match rule.getContent with
            | some f =>
              let pcA := pc1.findInside dom
              (f dom).foldl (fun acc n => (acc.insertNode n).1) pcA
            | none =>
              let contentDOM :=
                match rule.contentElement with
                | some sel => (querySelectorModel dom sel).getD dom
                | none => dom
              let pcA := pc1.findAround dom contentDOM true
              addAll fuel pcA contentDOM none none
      let pc3 :=
        if syncFrame then
          match pc2.sync startInUid with
          | (pcS, true) => { pcS with openDepth := pcS.openDepth - 1 }
          | (pcS, false) => pcS
        else pc2
      match mark with
      | some m => pc3.removePendingMark m startInUid
      | none => pc3

/-- The child loop of addAll: record the find point before each child, walk
the child, and record the final point when the range or the list runs out. -/
def addAllGo : Nat → ParseContext → Nat → String → List DomNode → Nat → Nat →
    Option String → ParseContext
  | 0, pc, _, _, _, _, _, _ => pc
  | _ + 1, pc, parentId, _, [], _, idx, _ => pc.findAtPoint parentId idx
  | _ + 1, pc, parentId, _, _ :: _, 0, idx, _ => pc.findAtPoint parentId idx
  | fuel + 1, pc, parentId, parentName, c :: rest, k + 1, idx, prevSib =>
    let pc := pc.findAtPoint parentId idx
    let pc := addDOM fuel pc c prevSib (some parentName)
    addAllGo fuel pc parentId parentName rest k (idx + 1) (some c.nameOf)

/-- ParseContext.addAll over a child-index range (whole child list when no
range is given). -/
def addAll : Nat → ParseContext → DomNode → Option Nat → Option Nat → ParseContext
  | 0, pc, _, _, _ => pc
  | fuel + 1, pc, parent, fromIdx, toIdx =>
    let children := parent.childrenOf.toList
    let start := fromIdx.getD 0
    let count := toIdx.getD children.length - start
    let prevSib : Option String :=
      if start = 0 then none else (children.get? (start - 1)).map (fun c => c.nameOf)
    addAllGo fuel pc parent.idOf parent.nameOf (children.drop start) count start prevSib
end

/-- ParseContext.finish: unwind to the root and finish the bottom frame. -/
def ParseContext.finishPc (pc : ParseContext) : ParseContext × ParseResult :=
  let pc := { pc with openDepth := 0 }
  let pc := pc.closeExtra pc.isOpen
  (pc, (pc.nodes.getD 0 dummyNC).finishTop (pc.isOpen || pc.optTopOpen))

/-- DOMParser.parse: build a context, walk the input, finish into a document
node. -/
def DOMParser.parse (p : DOMParser) (dom : DomNode) (options : ParseOptions)
    (fuel : Nat) : ParseContext × ParseResult :=
  let cx := mkParseContext p options false
  let cx := addAll fuel cx dom options.fromIdx options.toIdx
  cx.finishPc

/-- DOMParser.parseSlice: like parse but with an open context at both sides
(the Slice.maxOpen wrapper of the result is outside this core). -/
def DOMParser.parseSlice (p : DOMParser) (dom : DomNode) (options : ParseOptions)
    (fuel : Nat) : ParseContext × ParseResult :=
  let cx := mkParseContext p options true
  let cx := addAll fuel cx dom options.fromIdx options.toIdx
  cx.finishPc

/-! ## A small concrete schema used by witnesses and counterexamples:
a doc of paragraphs of text, with em and link marks. -/

/-- A dead automaton state. -/
def egCMDead : ContentMatch :=
  .mk 9 (fun _ => none) (fun _ _ => none) (fun _ => none) [] none

/-- The paragraph content automaton (text*), unfolded to a finite depth. -/
def egCMPara : Nat → ContentMatch
  | 0 => egCMDead
  | n + 1 =>
    .mk 1 (fun t => if t = 2 then some (egCMPara n) else none)
      (fun frag _ => if frag.all (fun nd => decide (nd.typeIdOf = 2)) then some [] else none)
      (fun t => if t = 2 then some [] else none)
      [(2, egCMPara n)]
      none

/-- The doc content automaton (paragraph*), unfolded to a finite depth; a
text node wraps in one paragraph. -/
def egCMDoc : Nat → ContentMatch
  | 0 => egCMDead
  | n + 1 =>
    .mk 0 (fun t => if t = 1 then some (egCMDoc n) else none)
      (fun frag _ => if frag.all (fun nd => decide (nd.typeIdOf = 1)) then some [] else none)
      (fun t => if t = 2 then some [1] else if t = 1 then some [] else none)
      [(1, egCMDoc n)]
      (some 1)

def egTextType : NodeType :=
  { id := 2, name := "text", groups := ["inline"], isInline := true,
    inlineContent := false, isLeaf := true, isTextblock := false,
    hasDefaultAttrs := true, whitespacePre := false, contentMatch := egCMDead,
    allowsMarkF := fun _ => false }

def egParaType : NodeType :=
  { id := 1, name := "paragraph", groups := ["block"], isInline := false,
    inlineContent := true, isLeaf := false, isTextblock := true,
    hasDefaultAttrs := true, whitespacePre := false, contentMatch := egCMPara 50,
    allowsMarkF := fun m => m = 10 || m = 11 }

def egDocType : NodeType :=
  { id := 0, name := "doc", groups := [], isInline := false,
    inlineContent := false, isLeaf := false, isTextblock := false,
    hasDefaultAttrs := true, whitespacePre := false, contentMatch := egCMDoc 50,
    allowsMarkF := fun _ => false }

def egSchema : Schema :=
  { marks := [("em", { id := 10 }), ("link", { id := 11 })],
    nodes := [("doc", { type := egDocType }), ("paragraph", { type := egParaType }),
              ("text", { type := egTextType })],
    topNodeType := egDocType,
    textTypeId := 2,
    typeById := fun i => if i = 0 then egDocType else if i = 1 then egParaType else egTextType,
    scanFuel := 30 }

def egRuleP : ParseRule := { tag := some "p", node := some "paragraph" }

def egRuleB : ParseRule := { tag := some "b", mark := some "em" }

def egRuleA : ParseRule := { tag := some "a", mark := some "link" }

def egDOMParser : DOMParser := mkDOMParser egSchema [egRuleP, egRuleB, egRuleA]

/-- Fixture for the rule-ordering claim: a schema declaring, in this order, a
priority-30 rule and a priority-70 rule for the same tag selector. -/
def egSchPrio : Schema :=
  { egSchema with
    marks := [],
    nodes := [("doc",
      { type := egDocType,
        parseDOM := some [{ tag := some "x", priority := some 30 },
                          { tag := some "x", priority := some 70 }] })] }

/-- Fixture for the attrs write-back claim: one tag rule with a getAttrs
function computing attributes 7, stored with absent attrs. -/
def egRuleGA : ParseRule :=
  { tag := some "p", node := some "paragraph", getAttrs := some (fun _ => .attrs 7) }

/-- Fixture style rule with a getAttrs function, for the matchStyle half. -/
def egRuleSGA : ParseRule :=
  { style := some "color", mark := some "em", getAttrs := some (fun _ => .attrs 7) }

def egPGA : DOMParser := mkDOMParser egSchema [egRuleGA, egRuleSGA]

def egCxGA : ParseContext := mkParseContext egPGA {} false

def egDomP : DomNode := .elem 1 "P" none none .nil

/-- Fixture for the style-ignore claim: a style rule for the color property
with ignore set. -/
def egRuleColor : ParseRule := { style := some "color", ignore := true }

def egPColor : DOMParser := mkDOMParser egSchema [egRuleP, egRuleColor]

def egCxColor : ParseContext := mkParseContext egPColor {} false

/-- A span with a styled attribute and a text child, for the style-ignore
claim. -/
def egDomSpan : DomNode :=
  .elem 3 "SPAN" none (some "color: red") (.cons (.text 4 "x") .nil)

/-- Fixture for the ignored-BR claim: a parser whose br rule is an ignore
rule. -/
def egRuleBrIgnore : ParseRule := { tag := some "br", ignore := true }

def egPBr : DOMParser := mkDOMParser egSchema [egRuleP, egRuleBrIgnore]

def egDomBr : DomNode := .elem 2 "BR" none none .nil

mutual
/-- Number of text nodes contained in a node, recursively. -/
def PMNode.textCount : PMNode → Nat
  | .text _ _ _ => 1
  | .node _ _ c _ => c.textCount
def PMNodeList.textCount : PMNodeList → Nat
  | .nil => 0
  | .cons n ns => n.textCount + ns.textCount
end

def ParseResult.textCount : ParseResult → Nat
  | .doc n => n.textCount
  | .fragment ns => (ns.map PMNode.textCount).sum

/-- A blockquote-like node type for the context-path witness. -/
def egBqType : NodeType :=
  { id := 5, name := "blockquote", groups := ["block"], isInline := false,
    inlineContent := false, isLeaf := false, isTextblock := false,
    hasDefaultAttrs := true, whitespacePre := false, contentMatch := egCMDead,
    allowsMarkF := fun _ => false }

/-- A context whose innermost open frame is a paragraph inside a
blockquote. -/
def egCxBq : ParseContext :=
  { parser := egDOMParser, optPreserveWhitespace := none, optContext := none,
    optTopOpen := false, isOpen := false, openDepth := 1, find := [],
    needsBlock := false,
    nodes := [mkNodeContext 0 (some egBqType) none markNone markNone true none {},
              mkNodeContext 1 (some egParaType) none markNone markNone false none {}],
    nextUid := 2 }

/-- Combine two candidate routes, preferring the first (scanned earlier, more
inner) unless the second is strictly shorter. -/
def bestCombine : Option (List Nat × Nat) → Option (List Nat × Nat) → Option (List Nat × Nat)
  | none, r => r
  | some b, none => some b
  | some (b, db), some (r, dr) => if r.length < b.length then some (r, dr) else some (b, db)

/-- One frame of the scan described by the spec: the frame's own route (paired
with its depth) beats any route found further out unless that one is strictly
shorter, and nothing beyond a solid frame is considered. -/
def specStep (node : PMNode) (cx : NodeContext) (d : Nat)
    (rest : Option (List Nat × Nat)) : Option (List Nat × Nat) :=
  bestCombine
    (match (cx.findWrappingCx node).1 with
     | none => none
     | some f => some (f, d))
    (if cx.solid then none else rest)

/-- Following the wording of the spec (the refinement side of the placement
claim): scan frames from the given depth outward, computing a wrapping route
at each frame, keeping the shortest successful route with ties to the
innermost frame, and never proceeding past a solid frame. -/
def specScan (node : PMNode) (nodes : List NodeContext) : Nat → Option (List Nat × Nat)
  | 0 => specStep node (nodes.getD 0 dummyNC) 0 none
  | d + 1 => specStep node (nodes.getD (d + 1) dummyNC) (d + 1) (specScan node nodes d)

/-- A context with just the document frame open (as at the start of a
parse). -/
def egCxDoc : ParseContext :=
  { parser := egDOMParser, optPreserveWhitespace := none, optContext := none,
    optTopOpen := false, isOpen := false, openDepth := 0, find := [],
    needsBlock := false,
    nodes := [mkNodeContext 0 (some egDocType) none markNone markNone true none {}],
    nextUid := 1 }

/-- A div whose only child is a line-break element. -/
def egDomBrDiv : DomNode := .elem 1 "DIV" none none (.cons egDomBr .nil)

/-! # Theorems -/

/-! ## C4: schema-derived rule ordering -/


/-- Default find entry for out-of-range indexing. -/
def dFE : FindEntry := { node := 0, offset := 0 }

/-- A parser whose tag rules never redirect content through a contentElement
selector. -/
def NoCE (p : DOMParser) : Prop := ∀ r ∈ p.tags, r.contentElement = none

/-- The find list keeps its length and the node and offset of every entry. -/
def findShape (pc pc2 : ParseContext) : Prop :=
  pc2.find.length = pc.find.length ∧
  ∀ i : Nat, (pc2.find.getD i dFE).node = (pc.find.getD i dFE).node ∧
    (pc2.find.getD i dFE).offset = (pc.find.getD i dFE).offset

/-- Write-once within an id set: entries pointing outside the set keep their
history, entries pointing into it end with at most one recorded position. -/
def fwow (ids : List Nat) (pc pc2 : ParseContext) : Prop :=
  findShape pc pc2 ∧
  ∀ i : Nat,
    ((pc.find.getD i dFE).node ∉ ids →
      (pc2.find.getD i dFE).posHist = (pc.find.getD i dFE).posHist) ∧
    ((pc.find.getD i dFE).node ∈ ids → (pc2.find.getD i dFE).posHist.length ≤ 1)

/-- Every entry pointing into the id set is still unresolved. -/
def findClean (ids : List Nat) (pc : ParseContext) : Prop :=
  ∀ i : Nat, (pc.find.getD i dFE).node ∈ ids → (pc.find.getD i dFE).posHist = []

/-- No entry targets the identity reserved for synthetic text nodes. -/
def findNoZero (pc : ParseContext) : Prop :=
  ∀ i : Nat, i < pc.find.length → (pc.find.getD i dFE).node ≠ 0

/-- Precondition of the child loop: parent entries at or past the index and
entries into the children about to be walked are unresolved. -/
def aagPre (parentId : Nat) (takenIds : List Nat) (idx : Nat) (pc : ParseContext) : Prop :=
  (∀ i : Nat, (pc.find.getD i dFE).node = parentId → idx ≤ (pc.find.getD i dFE).offset →
     (pc.find.getD i dFE).posHist = []) ∧
  findClean takenIds pc

/-- Postcondition of the child loop: entries elsewhere and parent entries
before the index are untouched, the rest resolve at most once. -/
def aagPost (parentId : Nat) (takenIds : List Nat) (idx : Nat) (pc pc2 : ParseContext) :
    Prop :=
  findShape pc pc2 ∧
  ∀ i : Nat,
    ((pc.find.getD i dFE).node ∉ parentId :: takenIds →
      (pc2.find.getD i dFE).posHist = (pc.find.getD i dFE).posHist) ∧
    ((pc.find.getD i dFE).node = parentId → (pc.find.getD i dFE).offset < idx →
      (pc2.find.getD i dFE).posHist = (pc.find.getD i dFE).posHist) ∧
    (((pc.find.getD i dFE).node ∈ takenIds ∨
      ((pc.find.getD i dFE).node = parentId ∧ idx ≤ (pc.find.getD i dFE).offset)) →
      (pc2.find.getD i dFE).posHist.length ≤ 1)

universe uu

theorem mem_insertByPrio {a r : ParseRule} :
    ∀ {l : List ParseRule}, a ∈ insertByPrio r l → a = r ∨ a ∈ l := by
  intro l
  induction l with
  | nil =>
    intro h
    simpa [insertByPrio] using h
  | cons hd tl ih =>
    intro h
    simp only [insertByPrio] at h
    by_cases hlt : prioOf hd < prioOf r
    · rw [if_pos hlt] at h
      rcases List.mem_cons.mp h with h | h
      · exact Or.inl h
      · exact Or.inr h
    · rw [if_neg hlt] at h
      rcases List.mem_cons.mp h with h | h
      · exact Or.inr (by simp [h])
      · rcases ih h with h2 | h2
        · exact Or.inl h2
        · exact Or.inr (by simp [h2])

theorem insertByPrio_sorted {r : ParseRule} {l : List ParseRule}
    (h : l.Pairwise (fun a b => prioOf b ≤ prioOf a)) :
    (insertByPrio r l).Pairwise (fun a b => prioOf b ≤ prioOf a) := by
  induction l with
  | nil => simp [insertByPrio]
  | cons hd tl ih =>
    rw [List.pairwise_cons] at h
    by_cases hlt : prioOf hd < prioOf r
    · simp only [insertByPrio]
      rw [if_pos hlt]
      refine List.Pairwise.cons ?_ (List.Pairwise.cons h.1 h.2)
      intro x hx
      rcases List.mem_cons.mp hx with rfl | hx
      · exact Nat.le_of_lt hlt
      · exact Nat.le_trans (h.1 x hx) (Nat.le_of_lt hlt)
    · simp only [insertByPrio]
      rw [if_neg hlt]
      refine List.Pairwise.cons ?_ (ih h.2)
      intro x hx
      rcases mem_insertByPrio hx with rfl | hx
      · exact Nat.le_of_not_lt hlt
      · exact h.1 x hx

theorem filter_eq_nil_of_sorted_lt {l : List ParseRule} {p : Nat}
    (h : l.Pairwise (fun a b => prioOf b ≤ prioOf a))
    (hp : ∀ x ∈ l.head?, prioOf x < p) :
    l.filter (fun x => decide (prioOf x = p)) = [] := by
  cases l with
  | nil => rfl
  | cons hd tl =>
    rw [List.pairwise_cons] at h
    have hhd : prioOf hd < p := hp hd rfl
    rw [List.filter_eq_nil_iff]
    intro a ha
    rcases List.mem_cons.mp ha with rfl | ha
    · simpa using Nat.ne_of_lt hhd
    · have : prioOf a ≤ prioOf hd := h.1 a ha
      simpa using Nat.ne_of_lt (Nat.lt_of_le_of_lt this hhd)

theorem filter_insertByPrio {r : ParseRule} {l : List ParseRule} {p : Nat}
    (h : l.Pairwise (fun a b => prioOf b ≤ prioOf a)) :
    (insertByPrio r l).filter (fun x => decide (prioOf x = p)) =
      if prioOf r = p then l.filter (fun x => decide (prioOf x = p)) ++ [r]
      else l.filter (fun x => decide (prioOf x = p)) := by
  induction l with
  | nil =>
    by_cases hr : prioOf r = p <;> simp [insertByPrio, List.filter, hr]
  | cons hd tl ih =>
    rw [List.pairwise_cons] at h
    by_cases hlt : prioOf hd < prioOf r
    · simp only [insertByPrio]
      rw [if_pos hlt]
      by_cases hr : prioOf r = p
      · have hnil : (hd :: tl).filter (fun x => decide (prioOf x = p)) = [] := by
          refine filter_eq_nil_of_sorted_lt (List.Pairwise.cons h.1 h.2) ?_
          intro x hx
          simp only [List.head?] at hx
          cases hx
          exact hr ▸ hlt
        rw [hnil, List.filter_cons]
        simp [hr, hnil]
      · rw [List.filter_cons]
        simp [hr]
    · simp only [insertByPrio]
      rw [if_neg hlt]
      rw [List.filter_cons, List.filter_cons]
      by_cases hr : prioOf r = p <;> by_cases hhd : prioOf hd = p <;>
        simp [hr, hhd, ih h.2]

theorem foldl_insert_props (rs : List ParseRule) :
    ∀ acc : List ParseRule, acc.Pairwise (fun a b => prioOf b ≤ prioOf a) →
      ((rs.foldl (fun a r => insertByPrio r a) acc).Pairwise
          (fun a b => prioOf b ≤ prioOf a) ∧
        ∀ p : Nat,
          (rs.foldl (fun a r => insertByPrio r a) acc).filter
              (fun x => decide (prioOf x = p)) =
            acc.filter (fun x => decide (prioOf x = p)) ++
              rs.filter (fun x => decide (prioOf x = p))) := by
  induction rs with
  | nil => intro acc hacc; exact ⟨hacc, fun p => by simp⟩
  | cons r rs ih =>
    intro acc hacc
    have h2 := ih (insertByPrio r acc) (insertByPrio_sorted hacc)
    refine ⟨h2.1, fun p => ?_⟩
    have h3 := h2.2 p
    rw [List.foldl_cons] at *
    rw [h3, filter_insertByPrio hacc, List.filter_cons]
    by_cases hr : prioOf r = p <;> simp [hr]

/-- C4: the rule list built from a schema is stable-sorted by descending
priority (missing priority counting as 50): it is pairwise sorted, and for
every priority class it preserves the declaration sequence (all mark-declared
rules, in declaration order, then all node-declared rules); consequently any
rule of priority 70 sits strictly before any rule of priority 30, regardless
of declaration order. -/
theorem c4_schema_rule_order (s : Schema) :
    (schemaRules s).Pairwise (fun a b => prioOf b ≤ prioOf a) ∧
    (∀ p : Nat,
      (schemaRules s).filter (fun r => decide (prioOf r = p)) =
        (declaredRules s).filter (fun r => decide (prioOf r = p))) ∧
    (∀ i j : Fin (schemaRules s).length,
      prioOf ((schemaRules s).get i) = 70 → prioOf ((schemaRules s).get j) = 30 →
        i < j) := by
  have h := foldl_insert_props (declaredRules s) [] (by simp)
  have hs : (schemaRules s).Pairwise (fun a b => prioOf b ≤ prioOf a) := h.1
  refine ⟨hs, fun p => by simpa using h.2 p, ?_⟩
  intro i j h70 h30
  rcases Nat.lt_trichotomy i.val j.val with hlt | heq | hgt
  · exact hlt
  · exfalso
    have heq2 : ((schemaRules s).get i) = ((schemaRules s).get j) := by
      congr 1
      exact Fin.ext heq
    rw [heq2, h30] at h70
    exact absurd h70 (by decide)
  · exfalso
    have hle := List.pairwise_iff_get.mp hs j i hgt
    rw [h70, h30] at hle
    exact absurd hle (by decide)

/-- Witness for C4 at the concrete fixture schema: its two same-tag rules
were declared with priority 30 first and 70 second, and the derived list
puts the priority-70 rule strictly first. -/
theorem c4_schema_rule_order_witness :
    (⟨0, by decide⟩ : Fin (schemaRules egSchPrio).length) < ⟨1, by decide⟩ := by
  have h := c4_schema_rule_order egSchPrio
  exact h.2.2 ⟨0, by decide⟩ ⟨1, by decide⟩ (by decide) (by decide)

/-! ## C7: context-path matching for blockquote/paragraph/ -/

/-- C7: with no externally supplied ancestor context and a non-open parse,
a rule context of blockquote/paragraph/ matches exactly when the innermost
open frame's type name or group is paragraph and the frame one level out has
name or group blockquote; in particular it never matches when the innermost
open frame is the document root (open depth zero). -/
theorem c7_context_path (pc : ParseContext)
    (hopen : pc.isOpen = false) (hctx : pc.optContext = none) :
    pc.matchesContext "blockquote/paragraph/" = true ↔
      (typeMatchesPart (pc.nodes.getD pc.openDepth dummyNC).type "paragraph" = true ∧
       1 ≤ pc.openDepth ∧
       typeMatchesPart (pc.nodes.getD (pc.openDepth - 1) dummyNC).type "blockquote" = true) := by
  have hpipe : strContainsChar '|' "blockquote/paragraph/" = false := by decide
  have hparts : splitOnChar '/' "blockquote/paragraph/" = ["blockquote", "paragraph", ""] := by
    decide
  have e1 : (["blockquote", "paragraph", ""].getD 2 "") = "" := by decide
  have e2 : (decide (2 = ["blockquote", "paragraph", ""].length - 1) || decide (2 = 0)) =
      true := by decide
  have e3 : (["blockquote", "paragraph", ""].getD 1 "") = "paragraph" := by decide
  have e4 : (["blockquote", "paragraph", ""].getD 0 "") = "blockquote" := by decide
  rw [ParseContext.matchesContext, if_neg (by simp [hpipe])]
  rw [matchesContextOne]
  rw [hparts]
  simp only [hopen, hctx, Bool.not_false, Bool.true_and, List.length_cons, List.length_nil,
    neg_zero, zero_add, if_true, if_pos]
  rw [mcGo]
  simp only [e1, e2, if_pos, if_true]
  rw [mcGo]
  simp only [e3]
  rw [if_neg (show ¬("paragraph" = "") by decide)]
  have hcondP : (decide ((pc.openDepth : Int) > 0) ||
      (decide ((pc.openDepth : Int) = 0) && true)) = true := by
    rcases Nat.eq_zero_or_pos pc.openDepth with h | h
    · have h2 : (pc.openDepth : Int) = 0 := by omega
      simp [h2]
    · have h2 : (pc.openDepth : Int) > 0 := by omega
      simp [h2]
  simp only [hcondP, if_pos, if_true, Int.toNat_natCast]
  have hbq : ∀ depth : Int, mcGo pc ["blockquote", "paragraph", ""] true 0 1 depth =
      ((decide (depth > 0) || (decide (depth = 0) && true)) &&
        typeMatchesPart (pc.nodes.getD depth.toNat dummyNC).type "blockquote") := by
    intro depth
    rw [mcGo]
    simp only [e4]
    rw [if_neg (show ¬("blockquote" = "") by decide)]
    by_cases hc : (decide (depth > 0) || (decide (depth = 0) && true)) = true
    · simp only [hc, if_true, if_pos, Bool.true_and]
      cases htm : typeMatchesPart (pc.nodes.getD depth.toNat dummyNC).type "blockquote" <;>
        simp [htm, mcGo]
    · have hc2 : (decide (depth > 0) || (decide (depth = 0) && true)) = false := by
        revert hc
        cases (decide (depth > 0) || (decide (depth = 0) && true)) <;> simp
      simp only [hc2, Bool.false_and, if_false, hctx]
      simp [typeMatchesPart]
  rw [hbq]
  rcases Nat.eq_zero_or_pos pc.openDepth with h0 | hpos
  · rw [h0]
    norm_num
  · have hc : (decide ((pc.openDepth : Int) - 1 > 0) ||
        (decide ((pc.openDepth : Int) - 1 = 0) && true)) = true := by
      rcases Nat.lt_or_ge 1 pc.openDepth with h | h
      · have h2 : (pc.openDepth : Int) - 1 > 0 := by omega
        simp [h2]
      · have h2 : (pc.openDepth : Int) - 1 = 0 := by omega
        simp [h2]
    have h1 : ((pc.openDepth : Int) - 1).toNat = pc.openDepth - 1 := by omega
    rw [hc, h1]
    simp only [Bool.true_and]
    cases hP : typeMatchesPart (pc.nodes.getD pc.openDepth dummyNC).type "paragraph" <;>
      cases hB : typeMatchesPart (pc.nodes.getD (pc.openDepth - 1) dummyNC).type "blockquote" <;>
      simp [hP, hB] <;> omega

/-- Witness for C7 at a concrete stack [blockquote, paragraph] with open
depth one. -/
theorem c7_context_path_witness :
    egCxBq.isOpen = false ∧ egCxBq.optContext = none ∧
    (egCxBq.matchesContext "blockquote/paragraph/" = true ↔
      (typeMatchesPart (egCxBq.nodes.getD egCxBq.openDepth dummyNC).type "paragraph" = true ∧
       1 ≤ egCxBq.openDepth ∧
       typeMatchesPart (egCxBq.nodes.getD (egCxBq.openDepth - 1) dummyNC).type
         "blockquote" = true)) :=
  ⟨rfl, rfl, c7_context_path egCxBq rfl rfl⟩

/-! ## C10: a style matched by an ignore rule drops the whole element -/

theorem rsChain_parser_only (prop value : String) :
    ∀ (fuel : Nat) (after : Option Nat) (pc : ParseContext) (add rem : List Mark),
      ∃ pr, (rsChain prop value fuel after pc add rem).1 = { pc with parser := pr } := by
  intro fuel
  induction fuel with
  | zero =>
    intro after pc add rem
    exact ⟨pc.parser, rfl⟩
  | succ fuel ih =>
    intro after pc add rem
    rw [rsChain]
    cases hms : pc.parser.matchStyleCx prop value pc after with
    | mk res p2 =>
      simp only []
      cases res with
      | none => exact ⟨p2, rfl⟩
      | some ri =>
        cases ri with
        | mk rule idx =>
          by_cases hig : rule.ignore
          · simp only [hig, if_pos]
            exact ⟨p2, rfl⟩
          · simp only [hig]
            cases hcm : rule.clearMark with
            | some f =>
              by_cases hcons : rule.consuming = some false
              · simp only [hcons, if_pos]
                rcases ih (some idx) { pc with parser := p2 } add
                  ((({ pc with parser := p2 } : ParseContext).top).pendingMarks.foldl
                    (fun rm mk2 => if f mk2 then addToSet mk2 rm else rm) rem) with ⟨pr, hpr⟩
                exact ⟨pr, by simp [hig, hcm, hcons, hpr]⟩
              · exact ⟨p2, by simp [hig, hcm, hcons]⟩
            | none =>
              by_cases hcons : rule.consuming = some false
              · rcases ih (some idx) { pc with parser := p2 }
                  (match ({ pc with parser := p2 } : ParseContext).parser.schema.markByName
                      (rule.mark.getD "") with
                    | some mdef => addToSet { type := mdef.id, attrs := rule.attrs } add
                    | none => add) rem with ⟨pr, hpr⟩
                exact ⟨pr, by simp [hig, hcm, hcons, hpr]⟩
              · exact ⟨p2, by simp [hig, hcm, hcons]⟩

theorem rsGo_parser_only :
    ∀ (styles : List (String × String)) (pc : ParseContext) (add rem : List Mark),
      ∃ pr, (rsGo styles pc add rem).1 = { pc with parser := pr } := by
  intro styles
  induction styles with
  | nil =>
    intro pc add rem
    exact ⟨pc.parser, rfl⟩
  | cons pv rest ih =>
    intro pc add rem
    cases pv with
    | mk prop value =>
      rw [rsGo]
      rcases hch : rsChain prop value (pc.parser.styles.length + 1) none pc add rem with
        ⟨pc2, mo⟩
      rcases rsChain_parser_only prop value (pc.parser.styles.length + 1) none pc add rem
        with ⟨pr2, hpr2⟩
      rw [hch] at hpr2
      simp only [] at hpr2
      cases mo with
      | none => exact ⟨pr2, by simp [hpr2]⟩
      | some ar =>
        cases ar with
        | mk add2 rem2 =>
          rcases ih pc2 add2 rem2 with ⟨pr3, hpr3⟩
          refine ⟨pr3, ?_⟩
          simp only []
          rw [hpr3, hpr2]

/-- C10: when the inline style of an element makes readStyles return none
(some property/value pair was matched by a rule with ignore set — readStyles
returns none exactly in that case), addDOM drops the whole element: the frame
stack, open depth, find list and needs-block flag are exactly as before, so
neither the element nor any of its descendants contributes anything to the
output (only the rule store may have received attribute write-backs). -/
theorem c10_style_ignore_skips (fuel : Nat) (pc : ParseContext) (i : Nat)
    (n : String) (nsv : Option String) (sty : String) (cs : DomNodeList)
    (prevSib parentName : Option String)
    (hsty : sty ≠ "")
    (hignore : (pc.readStyles (parseStyles sty)).2 = none) :
    (addDOM (fuel + 1) pc (.elem i n nsv (some sty) cs) prevSib parentName).nodes =
        pc.nodes ∧
    (addDOM (fuel + 1) pc (.elem i n nsv (some sty) cs) prevSib parentName).openDepth =
        pc.openDepth ∧
    (addDOM (fuel + 1) pc (.elem i n nsv (some sty) cs) prevSib parentName).find =
        pc.find ∧
    (addDOM (fuel + 1) pc (.elem i n nsv (some sty) cs) prevSib parentName).needsBlock =
        pc.needsBlock := by
  have htr : optStrTruthy (some sty) = true := by
    simp [optStrTruthy, hsty]
  rw [addDOM]
  simp only [htr, Bool.not_true, Bool.false_eq_true, if_false, Option.getD]
  rcases hrs : pc.readStyles (parseStyles sty) with ⟨pc2, mo⟩
  rw [hrs] at hignore
  simp only [] at hignore
  subst hignore
  rcases rsGo_parser_only (parseStyles sty) pc markNone markNone with ⟨pr, hpr⟩
  have h1 : (pc.readStyles (parseStyles sty)).1 = pc2 := by rw [hrs]
  have hpc2 : pc2 = { pc with parser := pr } := by
    rw [← h1]
    exact hpr
  simp only []
  rw [hpc2]
  exact ⟨rfl, rfl, rfl, rfl⟩

/-- Witness for C10 at the concrete fixtures: a span with style color: red
and a matching ignore style rule is dropped with all its content. -/
theorem c10_style_ignore_skips_witness :
    ("color: red" ≠ "") ∧
    ((egCxColor.readStyles (parseStyles "color: red")).2 = none) ∧
    ((addDOM 50 egCxColor (.elem 3 "SPAN" none (some "color: red")
        (.cons (.text 4 "x") .nil)) none none).nodes = egCxColor.nodes ∧
      (addDOM 50 egCxColor (.elem 3 "SPAN" none (some "color: red")
        (.cons (.text 4 "x") .nil)) none none).openDepth = egCxColor.openDepth ∧
      (addDOM 50 egCxColor (.elem 3 "SPAN" none (some "color: red")
        (.cons (.text 4 "x") .nil)) none none).find = egCxColor.find ∧
      (addDOM 50 egCxColor (.elem 3 "SPAN" none (some "color: red")
        (.cons (.text 4 "x") .nil)) none none).needsBlock = egCxColor.needsBlock) :=
  ⟨by decide, rfl,
    c10_style_ignore_skips 49 egCxColor 3 "SPAN" none "color: red"
      (.cons (.text 4 "x") .nil) none none (by decide) rfl⟩

/-! ## C6: pure-whitespace text discard -/

/-- C6 counterexample: a pure-whitespace text node, with a tracked coordinate
inside it, under the (non-inline-context, non-full-preserve) document frame:
no text child is produced, and the tracked coordinate is NOT resolved — its
pos stays unset, although the claim says it still resolves to the current
position (the findInside call of the discard branch only matches element
parents, never the text node itself). -/
theorem c6_counterexample :
    ((mkParseContext egDOMParser { findPositions := [{ node := 2, offset := 1 }] }
        false).addTextNode (.text 2 "   ") none (some "DIV")).nodes.map
        (fun nc => nc.content.length) = [0] ∧
    ((mkParseContext egDOMParser { findPositions := [{ node := 2, offset := 1 }] }
        false).addTextNode (.text 2 "   ") none (some "DIV")).find.map
        (fun e => e.posHist) = [[]] := ⟨rfl, rfl⟩

/-- C6 amended: for a pure-whitespace text node in a frame that is neither in
full-preserve mode nor an inline context, addTextNode changes nothing at all:
no text node is added, and tracked coordinates inside the text node are left
unresolved (the findInside call is a no-op on a text-node argument). -/
theorem c6_pure_ws_discard (pc : ParseContext) (i : Nat) (v : String)
    (prevSibName parentName : Option String)
    (hws : hasNonWs v = false)
    (hfull : (pc.top).options.preserveWSFull = false)
    (hinline : (pc.top).inlineContext pc.parser.schema parentName = false) :
    pc.addTextNode (.text i v) prevSibName parentName = pc := by
  unfold ParseContext.addTextNode
  simp only [DomNode.textValueOf, hws, hfull, hinline, Bool.false_or, Bool.or_false,
    Bool.or_self, if_false]
  unfold ParseContext.findInside
  simp [DomNode.isElem]

/-- Witness for the C6 amended theorem at the concrete counterexample
state. -/
theorem c6_pure_ws_discard_witness :
    hasNonWs "   " = false ∧
    ((mkParseContext egDOMParser { findPositions := [{ node := 2, offset := 1 }] }
        false).top).options.preserveWSFull = false ∧
    ((mkParseContext egDOMParser { findPositions := [{ node := 2, offset := 1 }] }
        false).top).inlineContext
        (mkParseContext egDOMParser { findPositions := [{ node := 2, offset := 1 }] }
          false).parser.schema (some "DIV") = false ∧
    (mkParseContext egDOMParser { findPositions := [{ node := 2, offset := 1 }] }
        false).addTextNode (.text 2 "   ") none (some "DIV") =
      mkParseContext egDOMParser { findPositions := [{ node := 2, offset := 1 }] }
        false :=
  ⟨rfl, rfl, rfl,
    c6_pure_ws_discard _ 2 "   " none (some "DIV") rfl rfl rfl⟩

/-! ## C3: the rule store is mutated during matching -/

theorem matchTagAux_writeback (p : DOMParser) (dom : DomNode) (cx : ParseContext) :
    ∀ (fuel i : Nat) (rule : ParseRule) (j : Nat) (r0 : ParseRule)
      (f : GAIn → GARes) (a : Nat),
      (matchTagAux p dom cx i fuel).1 = some (rule, j) →
      p.tags[j]? = some r0 → r0.getAttrs = some f → f (.el dom) = .attrs a →
      rule = { r0 with attrs := some a } ∧
      (matchTagAux p dom cx i fuel).2.tags = p.tags.set j { r0 with attrs := some a } := by
  intro fuel
  induction fuel with
  | zero =>
    intro i rule j r0 f a h hj hga hf
    simp [matchTagAux] at h
  | succ fuel ih =>
    intro i rule j r0 f a h hj hga hf
    rw [matchTagAux] at h ⊢
    cases htags : p.tags[i]? with
    | none => rw [htags] at h; simp at h
    | some rcur =>
      rw [htags] at h
      simp only [] at h ⊢
      split at h
      case isTrue hcond =>
        rw [if_pos hcond]
        cases hga2 : rcur.getAttrs with
        | none =>
          rw [hga2] at h
          simp only [Prod.mk.injEq, Option.some.injEq] at h
          rcases h with ⟨hrule, hji⟩
          subst hji
          rw [htags] at hj
          simp only [Option.some.injEq] at hj
          subst hj
          rw [hga2] at hga
          cases hga
        | some f2 =>
          rw [hga2] at h
          simp only [] at h
          simp only []
          cases hres : f2 (.el dom) with
          | reject =>
            rw [hres] at h
            simp only [] at h
            exact ih (i + 1) rule j r0 f a h hj hga hf
          | dflt =>
            rw [hres] at h
            simp only [Prod.mk.injEq, Option.some.injEq] at h
            rcases h with ⟨hrule, hji⟩
            subst hji
            rw [htags] at hj
            simp only [Option.some.injEq] at hj
            subst hj
            rw [hga2] at hga
            simp only [Option.some.injEq] at hga
            subst hga
            rw [hf] at hres
            cases hres
          | attrs a2 =>
            rw [hres] at h
            simp only [Prod.mk.injEq, Option.some.injEq] at h
            rcases h with ⟨hrule, hji⟩
            subst hji
            rw [htags] at hj
            simp only [Option.some.injEq] at hj
            subst hj
            rw [hga2] at hga
            simp only [Option.some.injEq] at hga
            subst hga
            rw [hf] at hres
            simp only [GARes.attrs.injEq] at hres
            subst hres
            rw [hga2]
            exact ⟨hrule.symm, rfl⟩
      case isFalse hcond =>
        rw [if_neg hcond]
        exact ih (i + 1) rule j r0 f a h hj hga hf


theorem matchStyleAux_writeback (p : DOMParser) (prop value : String) (cx : ParseContext) :
    ∀ (fuel i : Nat) (rule : ParseRule) (j : Nat) (r0 : ParseRule)
      (f : GAIn → GARes) (a : Nat),
      (matchStyleAux p prop value cx i fuel).1 = some (rule, j) →
      p.styles[j]? = some r0 → r0.getAttrs = some f → f (.sv value) = .attrs a →
      rule = { r0 with attrs := some a } ∧
      (matchStyleAux p prop value cx i fuel).2.styles = p.styles.set j { r0 with attrs := some a } := by
  intro fuel
  induction fuel with
  | zero =>
    intro i rule j r0 f a h hj hga hf
    simp [matchStyleAux] at h
  | succ fuel ih =>
    intro i rule j r0 f a h hj hga hf
    rw [matchStyleAux] at h ⊢
    cases htags : p.styles[i]? with
    | none => rw [htags] at h; simp at h
    | some rcur =>
      rw [htags] at h
      simp only [] at h ⊢
      split at h
      case isTrue hcond =>
        rw [if_pos hcond]
        cases hga2 : rcur.getAttrs with
        | none =>
          rw [hga2] at h
          simp only [Prod.mk.injEq, Option.some.injEq] at h
          rcases h with ⟨hrule, hji⟩
          subst hji
          rw [htags] at hj
          simp only [Option.some.injEq] at hj
          subst hj
          rw [hga2] at hga
          cases hga
        | some f2 =>
          rw [hga2] at h
          simp only [] at h
          simp only []
          cases hres : f2 (.sv value) with
          | reject =>
            rw [hres] at h
            simp only [] at h
            exact ih (i + 1) rule j r0 f a h hj hga hf
          | dflt =>
            rw [hres] at h
            simp only [Prod.mk.injEq, Option.some.injEq] at h
            rcases h with ⟨hrule, hji⟩
            subst hji
            rw [htags] at hj
            simp only [Option.some.injEq] at hj
            subst hj
            rw [hga2] at hga
            simp only [Option.some.injEq] at hga
            subst hga
            rw [hf] at hres
            cases hres
          | attrs a2 =>
            rw [hres] at h
            simp only [Prod.mk.injEq, Option.some.injEq] at h
            rcases h with ⟨hrule, hji⟩
            subst hji
            rw [htags] at hj
            simp only [Option.some.injEq] at hj
            subst hj
            rw [hga2] at hga
            simp only [Option.some.injEq] at hga
            subst hga
            rw [hf] at hres
            simp only [GARes.attrs.injEq] at hres
            subst hres
            rw [hga2]
            exact ⟨hrule.symm, rfl⟩
      case isFalse hcond =>
        rw [if_neg hcond]
        exact ih (i + 1) rule j r0 f a h hj hga hf

/-- C3 counterexample: a store holding one tag rule with absent attrs and a
getAttrs computing attributes 7; after one matchTag call the stored rule has
attrs 7 — the shared rule record is written during matching, so the store is
not read-only. -/
theorem c3_counterexample :
    (egPGA.tags.map (fun r => r.attrs)) = [none] ∧
    (((egPGA.matchTagCx egDomP egCxGA none).2).tags.map (fun r => r.attrs)) =
      [some 7] := ⟨rfl, rfl⟩

/-- C3 amended: matchTag and matchStyle do not leave the store unchanged:
whenever the scan returns a rule (at index j) whose getAttrs computed
attributes, the returned rule and the stored rule record both carry the
computed attributes written into their attrs field. -/
theorem c3_attrs_writeback (p : DOMParser) (dom : DomNode) (prop value : String)
    (cx : ParseContext) (after : Option Nat) (rule ruleS : ParseRule) (j jS : Nat)
    (r0 r0S : ParseRule) (f fS : GAIn → GARes) (a aS : Nat) :
    ((p.matchTagCx dom cx after).1 = some (rule, j) →
      p.tags[j]? = some r0 → r0.getAttrs = some f → f (.el dom) = .attrs a →
      rule = { r0 with attrs := some a } ∧
      (p.matchTagCx dom cx after).2.tags = p.tags.set j { r0 with attrs := some a }) ∧
    ((p.matchStyleCx prop value cx after).1 = some (ruleS, jS) →
      p.styles[jS]? = some r0S → r0S.getAttrs = some fS → fS (.sv value) = .attrs aS →
      ruleS = { r0S with attrs := some aS } ∧
      (p.matchStyleCx prop value cx after).2.styles =
        p.styles.set jS { r0S with attrs := some aS }) := by
  constructor
  · intro h hj hga hf
    exact matchTagAux_writeback p dom cx _ _ rule j r0 f a h hj hga hf
  · intro h hj hga hf
    exact matchStyleAux_writeback p prop value cx _ _ ruleS jS r0S fS aS h hj hga hf

/-- Witness for the C3 amended theorem at the concrete fixtures: the matched
tag rule and the matched style rule both come back (and are stored) with
attrs 7. -/
theorem c3_attrs_writeback_witness :
    (({ egRuleGA with attrs := some 7 } : ParseRule) = { egRuleGA with attrs := some 7 } ∧
      (egPGA.matchTagCx egDomP egCxGA none).2.tags =
        egPGA.tags.set 0 { egRuleGA with attrs := some 7 }) ∧
    (({ egRuleSGA with attrs := some 7 } : ParseRule) = { egRuleSGA with attrs := some 7 } ∧
      (egPGA.matchStyleCx "color" "red" egCxGA none).2.styles =
        egPGA.styles.set 0 { egRuleSGA with attrs := some 7 }) := by
  have h := c3_attrs_writeback egPGA egDomP "color" "red" egCxGA none
    { egRuleGA with attrs := some 7 } { egRuleSGA with attrs := some 7 } 0 0
    egRuleGA egRuleSGA (fun _ => .attrs 7) (fun _ => .attrs 7) 7 7
  exact ⟨h.1 rfl rfl rfl rfl, h.2 rfl rfl rfl rfl⟩

/-! ## C8: open-left on newly opened frames -/

theorem wsOptionsFor_openLeft (t : Option NodeType) (pws : Option PreserveWS)
    (base : WsOptions) : (wsOptionsFor t pws base).openLeft = false := by
  cases pws with
  | some p => rfl
  | none =>
    cases t with
    | none => rfl
    | some ty => by_cases h : ty.whitespacePre <;> simp [wsOptionsFor, h]

/-- C8 counterexample: in an open (slice) parse, the root frame is open-left
with empty content; opening a paragraph under it by pure inheritance (no
per-call option, no per-rule option, paragraph has no whitespace pre) yields
a child frame whose open-left bit is SET, even though the wsOptionsFor
inheritance step itself had cleared it — enterInner re-establishes the bit. -/
theorem c8_counterexample :
    (((mkParseContext egDOMParser {} true).enterInner egParaType none false
        none).nodes.getLast?).map (fun nc => nc.options.openLeft) = some true ∧
    wsOptionsFor (some egParaType) none
        (mkParseContext egDOMParser {} true).top.options =
      { preserveWS := false, preserveWSFull := false, openLeft := false } := by
  constructor
  · rfl
  · rfl

theorem applyPending_preserves (schema : Schema) (t : NodeType) (nc : NodeContext) :
    (nc.applyPending schema t).options = nc.options ∧
    (nc.applyPending schema t).content = nc.content ∧
    (nc.applyPending schema t).uid = nc.uid ∧
    (nc.applyPending schema t).type = nc.type := by
  unfold NodeContext.applyPending
  generalize nc.pendingMarks = l
  induction l generalizing nc with
  | nil => exact ⟨rfl, rfl, rfl, rfl⟩
  | cons m ms ih =>
    rw [List.foldl_cons]
    refine (ih _).imp (fun h => h.trans ?_) (fun h => h.imp (fun h2 => h2.trans ?_)
      (fun h2 => h2.imp (fun h3 => h3.trans ?_) (fun h3 => h3.trans ?_))) <;>
      (by_cases hc : (match nc.type with
          | some ty => ty.allowsMarkF m.type
          | none => markMayApply schema m.type t) && !isInSet m nc.activeMarks <;>
        simp [hc])

/-- C8 amended: the wsOptionsFor computation always clears the open-left bit
(inheritance included), but enterInner then sets open-left on the new frame
exactly when the parent frame (after closing extra frames) is itself
open-left and still has no content; so a newly opened frame carries open-left
iff its parent is open-left and empty. -/
theorem c8_open_left_inheritance (pc : ParseContext) (type : NodeType)
    (attrs : Option Nat) (solid : Bool) (pws : Option PreserveWS) :
    ((pc.enterInner type attrs solid pws).nodes.getLast?).map
        (fun nc => nc.options.openLeft) =
      some ((pc.closeExtra.top).options.openLeft &&
        (pc.closeExtra.top).content.isEmpty) := by
  have hpres := applyPending_preserves pc.closeExtra.parser.schema type pc.closeExtra.top
  unfold ParseContext.enterInner
  simp only [List.getLast?_concat, Option.map_some]
  rw [hpres.1, hpres.2.1]
  by_cases h : (pc.closeExtra.top).options.openLeft &&
      (pc.closeExtra.top).content.isEmpty
  · simp only [h, if_pos]
    simp [mkNodeContext, h]
  · simp only [h]
    simp [mkNodeContext, h,
      wsOptionsFor_openLeft (some type) pws (pc.closeExtra.top).options]

/-! ## C1: mark restoration -/

/-- Setting the top frame and reading it back returns the new frame. -/
theorem top_setTop (pc : ParseContext) (nc : NodeContext)
    (h : pc.openDepth < pc.nodes.length) : (pc.setTop nc).top = nc := by
  simp [ParseContext.setTop, ParseContext.setNode, ParseContext.top, List.getD,
    List.getElem?_set_self, h]

/-- setTop leaves the open depth, the parser and the stack length alone. -/
theorem setTop_frame (pc : ParseContext) (nc : NodeContext) :
    (pc.setTop nc).openDepth = pc.openDepth ∧ (pc.setTop nc).parser = pc.parser ∧
    (pc.setTop nc).nodes.length = pc.nodes.length := by
  refine ⟨rfl, rfl, ?_⟩
  simp [ParseContext.setTop, ParseContext.setNode]

/-- addPendingMark with no equal pending mark only extends the pending set of
the top frame. -/
theorem addPendingMark_top (pc : ParseContext) (m : Mark)
    (hlen : pc.openDepth < pc.nodes.length)
    (hfs : findSameMarkInSet m pc.top.pendingMarks = none) :
    (pc.addPendingMark m).top
      = { pc.top with pendingMarks := addToSet m pc.top.pendingMarks } := by
  unfold ParseContext.addPendingMark
  simp only [hfs]
  exact top_setTop pc _ hlen

/-- addPendingMark leaves the open depth, the parser and the stack length
alone. -/
theorem addPendingMark_frame (pc : ParseContext) (m : Mark) :
    (pc.addPendingMark m).openDepth = pc.openDepth ∧
    (pc.addPendingMark m).parser = pc.parser ∧
    (pc.addPendingMark m).nodes.length = pc.nodes.length := by
  refine ⟨rfl, rfl, ?_⟩
  unfold ParseContext.addPendingMark
  exact (setTop_frame _ _).2.2

/-- C1: mark restoration.  On a clean typed top frame that allows the mark
type, push an outer mark A pending, then an unequal inner mark of the same
type.  Whether or not content inside the inner scope promoted both marks to
active (scenario one applies them, scenario two removes the inner mark while
both are still pending), after the inner mark is removed up to the owning
frame the outer mark is exactly what is active (or promoted by the next
insertion) -- so content written after the inner close and before the outer
close carries the outer mark again. -/
theorem c1_mark_restoration (pc : ParseContext) (outerA innerA : Mark) (T : NodeType)
    (hlen : pc.openDepth < pc.nodes.length)
    (htype : outerA.type = innerA.type) (hne : outerA ≠ innerA)
    (hp : pc.top.pendingMarks = []) (ha : pc.top.activeMarks = [])
    (hs : pc.top.stashMarks = [])
    (htT : pc.top.type = some T) (hallow : T.allowsMarkF outerA.type = true) :
    (let s2 := (pc.addPendingMark outerA).addPendingMark innerA
     let s3 := s2.setTop (s2.top.applyPending s2.parser.schema T)
     let s4 := s3.removePendingMark innerA s3.top.uid
     s4.top.activeMarks = [outerA]) ∧
    (let s2 := (pc.addPendingMark outerA).addPendingMark innerA
     let s4 := s2.removePendingMark innerA s2.top.uid
     s4.top.pendingMarks = [outerA] ∧
     (s4.top.applyPending s4.parser.schema T).activeMarks = [outerA]) := by
  have hoi : innerA ≠ outerA := Ne.symm hne
  have hdio : (decide (innerA = outerA)) = false := decide_eq_false hoi
  have hdoi : (decide (outerA = innerA)) = false := decide_eq_false hne
  have hallow2 : T.allowsMarkF innerA.type = true := by rw [← htype]; exact hallow
  -- first add
  have hfs1 : findSameMarkInSet outerA pc.top.pendingMarks = none := by
    rw [hp]; rfl
  have h1top : (pc.addPendingMark outerA).top = { pc.top with pendingMarks := [outerA] } := by
    rw [addPendingMark_top pc outerA hlen hfs1, hp]
    simp [addToSet]
  have h1len : (pc.addPendingMark outerA).openDepth
      < (pc.addPendingMark outerA).nodes.length := by
    rw [(addPendingMark_frame pc outerA).1, (addPendingMark_frame pc outerA).2.2]
    exact hlen
  -- second add
  have hfs2 : findSameMarkInSet innerA (pc.addPendingMark outerA).top.pendingMarks = none := by
    rw [h1top]
    simp [findSameMarkInSet, hne]
  have h2top : ((pc.addPendingMark outerA).addPendingMark innerA).top
      = { pc.top with pendingMarks := [outerA, innerA] } := by
    rw [addPendingMark_top (pc.addPendingMark outerA) innerA h1len hfs2, h1top]
    simp [addToSet, hoi]
  have h2len : ((pc.addPendingMark outerA).addPendingMark innerA).openDepth
      < ((pc.addPendingMark outerA).addPendingMark innerA).nodes.length := by
    rw [(addPendingMark_frame _ innerA).1, (addPendingMark_frame _ innerA).2.2]
    exact h1len
  constructor
  · -- scenario A
    simp only []
    generalize hs2 : (pc.addPendingMark outerA).addPendingMark innerA = s2 at h2top h2len ⊢
    have hap : s2.top.applyPending s2.parser.schema T
        = { pc.top with pendingMarks := [], activeMarks := [outerA, innerA] } := by
      rw [h2top]
      simp [NodeContext.applyPending, htT, ha, hallow, hallow2, isInSet, addToSet,
        removeFromSet, hdio, hdoi, hoi, hne]
    have h3top : (s2.setTop (s2.top.applyPending s2.parser.schema T)).top
        = { pc.top with pendingMarks := [], activeMarks := [outerA, innerA] } := by
      rw [top_setTop _ _ h2len, hap]
    have h3len : (s2.setTop (s2.top.applyPending s2.parser.schema T)).openDepth
        < (s2.setTop (s2.top.applyPending s2.parser.schema T)).nodes.length := by
      rw [(setTop_frame _ _).1, (setTop_frame _ _).2.2]
      exact h2len
    generalize hs3 : s2.setTop (s2.top.applyPending s2.parser.schema T) = s3
      at h3top h3len ⊢
    rw [ParseContext.removePendingMark, rpmGo.eq_def]
    have hgd : s3.nodes.getD s3.openDepth dummyNC
        = { pc.top with pendingMarks := [], activeMarks := [outerA, innerA] } := h3top
    rw [h3top]
    simp only [hgd, hs]
    simp [isInSet, removeFromSet, NodeContext.popFromStashMark, popLastEq, hdio,
      hdoi, hoi, hne, hs, ParseContext.setNode, ParseContext.top, List.getD,
      List.getElem?_set_self, h3len]
  · -- scenario B
    simp only []
    generalize hs2 : (pc.addPendingMark outerA).addPendingMark innerA = s2 at h2top h2len ⊢
    have hgd : s2.nodes.getD s2.openDepth dummyNC
        = { pc.top with pendingMarks := [outerA, innerA] } := h2top
    have h4top : (s2.removePendingMark innerA s2.top.uid).top
        = { pc.top with pendingMarks := [outerA] } := by
      rw [ParseContext.removePendingMark, rpmGo.eq_def, h2top]
      simp only [hgd]
      simp [isInSet, removeFromSet, hdio, hdoi, hne, hoi, ParseContext.setNode,
        ParseContext.top, List.getD, List.getElem?_set_self, h2len]
    rw [h4top]
    refine ⟨rfl, ?_⟩
    simp [NodeContext.applyPending, htT, ha, hallow, isInSet, addToSet]

/-- Concrete run of the mark-restoration theorem: two link marks with
different attributes on the paragraph-in-blockquote context. -/
theorem c1_mark_restoration_witness :
    egCxBq.openDepth < egCxBq.nodes.length ∧
    ((let s2 := (egCxBq.addPendingMark ⟨11, some 3⟩).addPendingMark ⟨11, some 5⟩
      let s3 := s2.setTop (s2.top.applyPending s2.parser.schema egParaType)
      let s4 := s3.removePendingMark ⟨11, some 5⟩ s3.top.uid
      s4.top.activeMarks = [⟨11, some 3⟩]) ∧
     (let s2 := (egCxBq.addPendingMark ⟨11, some 3⟩).addPendingMark ⟨11, some 5⟩
      let s4 := s2.removePendingMark ⟨11, some 5⟩ s2.top.uid
      s4.top.pendingMarks = [⟨11, some 3⟩] ∧
      (s4.top.applyPending s4.parser.schema egParaType).activeMarks = [⟨11, some 3⟩])) :=
  ⟨by decide,
   c1_mark_restoration egCxBq ⟨11, some 3⟩ ⟨11, some 5⟩ egParaType (by decide) rfl
     (by decide) rfl rfl rfl rfl rfl⟩

/-! ## C5: placement search -/


/-- findWrapping only ever updates the cached automaton state of a frame. -/
theorem findWrappingCx_pres (nc : NodeContext) (node : PMNode) :
    (nc.findWrappingCx node).2.uid = nc.uid ∧
    (nc.findWrappingCx node).2.type = nc.type ∧
    (nc.findWrappingCx node).2.solid = nc.solid := by
  refine ⟨?_, ?_, ?_⟩ <;>
    (unfold NodeContext.findWrappingCx; repeat' split) <;> rfl

/-- The spec scan only reads frames at or below its starting depth. -/
theorem specScan_set (node : PMNode) (nodes : List NodeContext) (i : Nat)
    (cx : NodeContext) :
    ∀ d, d < i → specScan node (nodes.set i cx) d = specScan node nodes d := by
  intro d
  induction d with
  | zero =>
    intro hd
    rw [specScan, specScan]
    simp [List.getD, List.getElem?_set_ne (Nat.ne_of_gt hd)]
  | succ d' ih =>
    intro hd
    rw [specScan, specScan, ih (by omega)]
    simp [List.getD, List.getElem?_set_ne (Nat.ne_of_gt hd)]

/-- A combined route comes from one of the two sides. -/
theorem bestCombine_depth (a b : Option (List Nat × Nat)) (r : List Nat) (dd : Nat)
    (h : bestCombine a b = some (r, dd)) : a = some (r, dd) ∨ b = some (r, dd) := by
  rcases a with _ | ⟨ar, ad⟩
  · exact Or.inr h
  · rcases b with _ | ⟨br, bd⟩
    · exact Or.inl h
    · simp only [bestCombine] at h
      split at h
      · exact Or.inr h
      · exact Or.inl h

/-- A route returned by one scan frame either comes from that frame or from
the scan further out. -/
theorem specStep_depth (node : PMNode) (cx : NodeContext) (d : Nat)
    (rest : Option (List Nat × Nat)) :
    ∀ r dd, specStep node cx d rest = some (r, dd) → dd = d ∨ rest = some (r, dd) := by
  intro r dd h
  unfold specStep at h
  rcases bestCombine_depth _ _ _ _ h with h2 | h2
  · left
    rcases hfw : (cx.findWrappingCx node).1 with _ | f <;> rw [hfw] at h2
    · simp at h2
    · simp at h2
      exact h2.2.symm
  · rcases hsol : cx.solid
    · rw [hsol] at h2
      simp at h2
      right
      exact h2
    · rw [hsol] at h2
      simp at h2

/-- The depth of a found route never exceeds the scanned depth. -/
theorem specScan_le (node : PMNode) (nodes : List NodeContext) :
    ∀ d r dd, specScan node nodes d = some (r, dd) → dd ≤ d := by
  intro d
  induction d with
  | zero =>
    intro r dd h
    rw [specScan] at h
    rcases specStep_depth _ _ _ _ _ _ h with h2 | h2
    · omega
    · simp at h2
  | succ d' ih =>
    intro r dd h
    rw [specScan] at h
    rcases specStep_depth _ _ _ _ _ _ h with h2 | h2
    · omega
    · exact Nat.le_succ_of_le (ih r dd h2)


/-- Route combination is associative (leftmost shortest wins). -/
theorem bestCombine_assoc (a b c : Option (List Nat × Nat)) :
    bestCombine (bestCombine a b) c = bestCombine a (bestCombine b c) := by
  rcases a with _ | ⟨ar, ad⟩ <;> rcases b with _ | ⟨br, bd⟩ <;> rcases c with _ | ⟨cr, cd⟩ <;>
    simp only [bestCombine] <;> split_ifs <;> simp only [bestCombine] <;>
    first
    | rfl
    | (split_ifs <;> first | rfl | omega)

/-- An empty route at a frame is never beaten. -/
theorem bestCombine_empty (d : Nat) (c : Option (List Nat × Nat)) :
    bestCombine (some ([], d)) c = some ([], d) := by
  rcases c with _ | ⟨cr, cd⟩ <;> simp [bestCombine]

/-- Setting a frame that keeps the uid keeps every looked-up uid. -/
theorem getD_set_uid (l : List NodeContext) (i j : Nat) (cx : NodeContext)
    (h : cx.uid = (l.getD i dummyNC).uid) :
    ((l.set i cx).getD j dummyNC).uid = (l.getD j dummyNC).uid := by
  by_cases hij : i = j
  · subst hij
    by_cases hl : i < l.length
    · simp [List.getD, List.getElem?_set_self, hl, h]
    · rw [List.set_eq_of_length_le (Nat.le_of_not_lt hl)]
  · simp [List.getD, List.getElem?_set_ne hij]

/-- The placement scan leaves the open depth, the parser, the stack length
and every frame identity alone. -/
theorem fpScan_state (node : PMNode) :
    ∀ d pc best,
      (fpScan node d pc best).1.openDepth = pc.openDepth ∧
      (fpScan node d pc best).1.parser = pc.parser ∧
      (fpScan node d pc best).1.nodes.length = pc.nodes.length ∧
      (∀ j, ((fpScan node d pc best).1.nodes.getD j dummyNC).uid
        = (pc.nodes.getD j dummyNC).uid) := by
  intro d
  induction d with
  | zero =>
    intro pc best
    rw [fpScan.eq_def]
    simp only []
    rcases hfw : (pc.nodes.getD 0 dummyNC).findWrappingCx node with ⟨found, cx2⟩
    have hu : cx2.uid = (pc.nodes.getD 0 dummyNC).uid := by
      have := (findWrappingCx_pres (pc.nodes.getD 0 dummyNC) node).1
      rw [hfw] at this
      exact this
    rcases found with _ | f <;>
      simp only [] <;>
      split_ifs <;>
      exact ⟨rfl, rfl, by simp [ParseContext.setNode],
        fun j => getD_set_uid pc.nodes 0 j cx2 hu⟩
  | succ d' ih =>
    intro pc best
    rw [fpScan.eq_def]
    simp only []
    rcases hfw : (pc.nodes.getD (d' + 1) dummyNC).findWrappingCx node with ⟨found, cx2⟩
    have hu : cx2.uid = (pc.nodes.getD (d' + 1) dummyNC).uid := by
      have := (findWrappingCx_pres (pc.nodes.getD (d' + 1) dummyNC) node).1
      rw [hfw] at this
      exact this
    have base : ∀ best2,
        ((pc.setNode (d' + 1) cx2).openDepth = pc.openDepth ∧
         (pc.setNode (d' + 1) cx2).parser = pc.parser ∧
         (pc.setNode (d' + 1) cx2).nodes.length = pc.nodes.length ∧
         (∀ j, (((pc.setNode (d' + 1) cx2).nodes.getD j dummyNC).uid
           = (pc.nodes.getD j dummyNC).uid))) ∧
        ((fpScan node d' (pc.setNode (d' + 1) cx2) best2).1.openDepth = pc.openDepth ∧
         (fpScan node d' (pc.setNode (d' + 1) cx2) best2).1.parser = pc.parser ∧
         (fpScan node d' (pc.setNode (d' + 1) cx2) best2).1.nodes.length
           = pc.nodes.length ∧
         (∀ j, ((fpScan node d' (pc.setNode (d' + 1) cx2) best2).1.nodes.getD j
             dummyNC).uid = (pc.nodes.getD j dummyNC).uid)) := by
      intro best2
      have hb : (pc.setNode (d' + 1) cx2).openDepth = pc.openDepth ∧
          (pc.setNode (d' + 1) cx2).parser = pc.parser ∧
          (pc.setNode (d' + 1) cx2).nodes.length = pc.nodes.length ∧
          (∀ j, (((pc.setNode (d' + 1) cx2).nodes.getD j dummyNC).uid
            = (pc.nodes.getD j dummyNC).uid)) :=
        ⟨rfl, rfl, by simp [ParseContext.setNode],
         fun j => getD_set_uid pc.nodes (d' + 1) j cx2 hu⟩
      obtain ⟨i1, i2, i3, i4⟩ := ih (pc.setNode (d' + 1) cx2) best2
      exact ⟨hb, by rw [i1, hb.1], by rw [i2, hb.2.1], by rw [i3, hb.2.2.1],
        fun j => by rw [i4 j, hb.2.2.2 j]⟩
    rcases found with _ | f <;> simp only [] <;> split_ifs
    all_goals first
      | exact (base best).1
      | exact (base _).2


/-- Nothing further out leaves the best as is. -/
theorem bestCombine_none (b : Option (List Nat × Nat)) : bestCombine b none = b := by
  rcases b with _ | ⟨br, bd⟩ <;> rfl

/-- The adopt step of the scanning loop is route combination. -/
theorem best2_eq (f : List Nat) (d : Nat) (best : Option (List Nat × Nat)) :
    (if (match best with
         | none => true
         | some (r, _) => decide (f.length < r.length)) then some (f, d) else best)
      = bestCombine best (some (f, d)) := by
  rcases best with _ | ⟨br, bd⟩
  · rfl
  · simp only [bestCombine]
    split_ifs <;> simp_all

/-- The scanning loop of findPlace computes exactly the best route described
by the spec, combined with the best found so far. -/
theorem fpScan_best (node : PMNode) :
    ∀ d pc best, (fpScan node d pc best).2 = bestCombine best (specScan node pc.nodes d) := by
  intro d
  induction d with
  | zero =>
    intro pc best
    rw [fpScan.eq_def, specScan]
    simp only []
    rcases hfw : (pc.nodes.getD 0 dummyNC).findWrappingCx node with ⟨found, cx2⟩
    have hsol : cx2.solid = (pc.nodes.getD 0 dummyNC).solid := by
      have := (findWrappingCx_pres (pc.nodes.getD 0 dummyNC) node).2.2
      rw [hfw] at this
      exact this
    rw [specStep, hfw]
    rcases found with _ | f
    · simp only []
      split_ifs <;> simp [bestCombine_none]
    · simp only []
      rw [best2_eq]
      split_ifs <;> (rename_i hcond; try rename_i hcond2) <;>
        simp [bestCombine_none, if_pos, if_neg]
  | succ d' ih =>
    intro pc best
    rw [fpScan.eq_def, specScan]
    simp only []
    rcases hfw : (pc.nodes.getD (d' + 1) dummyNC).findWrappingCx node with ⟨found, cx2⟩
    have hsol : cx2.solid = (pc.nodes.getD (d' + 1) dummyNC).solid := by
      have := (findWrappingCx_pres (pc.nodes.getD (d' + 1) dummyNC) node).2.2
      rw [hfw] at this
      exact this
    have hset : specScan node (pc.setNode (d' + 1) cx2).nodes d'
        = specScan node pc.nodes d' := by
      have := specScan_set node pc.nodes (d' + 1) cx2 d' (Nat.lt_succ_self d')
      simpa [ParseContext.setNode] using this
    rw [specStep, hfw]
    rcases found with _ | f
    · simp only []
      rcases hs : (pc.nodes.getD (d' + 1) dummyNC).solid
      · rw [hsol, hs]
        simp only [Bool.false_eq_true, if_false, ite_false]
        rw [ih, hset]
        simp [bestCombine]
      · rw [hsol, hs]
        rcases best with _ | ⟨br, bd⟩ <;> rfl
    · simp only []
      rw [best2_eq]
      by_cases hemp : f.isEmpty
      · have hf : f = [] := by simpa [List.isEmpty_iff] using hemp
        subst hf
        rw [bestCombine_empty]
        split_ifs <;>
          first
          | rfl
          | rw [ih, hset, bestCombine_assoc, bestCombine_empty]
      · have hne : f.isEmpty = false := by simpa using hemp
        rw [hne]
        simp only [Bool.and_false, Bool.false_eq_true, if_false, ite_false]
        rcases hs : (pc.nodes.getD (d' + 1) dummyNC).solid <;> rw [hsol, hs]
        · simp only [Bool.false_eq_true, if_false, ite_false]
          rw [ih, hset, bestCombine_assoc]
        · simp only [if_true, ite_true]
          rw [bestCombine_none]


/-- The stack walk of sync finds the queried identity at its depth when no
deeper frame carries the same identity. -/
theorem syncSearch_found (nodes : List NodeContext) (u : Nat) (d : Nat)
    (hud : (nodes.getD d dummyNC).uid = u) :
    ∀ i, d ≤ i → (∀ j, d < j → j ≤ i → (nodes.getD j dummyNC).uid ≠ u) →
      syncSearch nodes u i = some d := by
  intro i
  induction i with
  | zero =>
    intro hdi hj
    have hd0 : d = 0 := by omega
    subst hd0
    rw [syncSearch, if_pos hud]
  | succ i' ih =>
    intro hdi hj
    by_cases hd : d = i' + 1
    · subst hd
      rw [syncSearch, if_pos hud]
    · have hlt : d ≤ i' := by omega
      have hne : (nodes.getD (i' + 1) dummyNC).uid ≠ u :=
        hj (i' + 1) (by omega) (Nat.le_refl _)
      rw [syncSearch, if_neg hne]
      exact ih hlt (fun j h1 h2 => hj j h1 (by omega))

theorem getD_concat_left (l : List NodeContext) (x : NodeContext) (j : Nat)
    (h : j < l.length) : (l ++ [x]).getD j dummyNC = l.getD j dummyNC := by
  simp [List.getD, List.getElem?_append_left h]

theorem getD_concat_self (l : List NodeContext) (x : NodeContext) :
    (l ++ [x]).getD l.length dummyNC = x := by
  simp [List.getD, List.getElem?_concat_length]

theorem getD_dropLast (l : List NodeContext) (j : Nat) (h : j + 1 < l.length) :
    l.dropLast.getD j dummyNC = l.getD j dummyNC := by
  simp only [List.getD, List.get?_eq_getElem?, List.getElem?_dropLast]
  rw [if_pos (by omega : j < l.length - 1)]

theorem getLast?_getD (l : List NodeContext) (x : NodeContext) (h : l.getLast? = some x) :
    x = l.getD (l.length - 1) dummyNC := by
  rw [List.getLast?_eq_getElem?] at h
  simp [List.getD, h]

/-- One folding step: the last frame is folded into its parent, changing only
the parent's content. -/
theorem closeExtraGo_step (openEnd : Bool) (k : Nat) (ns : List NodeContext)
    (h : 2 ≤ ns.length) :
    ∃ x : NodeContext,
      closeExtraGo openEnd (k + 1) ns
        = closeExtraGo openEnd k (ns.dropLast.dropLast ++ [x]) ∧
      x.uid = (ns.getD (ns.length - 2) dummyNC).uid ∧
      x.type = (ns.getD (ns.length - 2) dummyNC).type ∧
      x.solid = (ns.getD (ns.length - 2) dummyNC).solid := by
  obtain ⟨last, hlast⟩ : ∃ x, ns.getLast? = some x := by
    rcases ns with _ | ⟨a, tl⟩
    · simp at h
    · simp [List.getLast?_eq_getElem?]
  obtain ⟨parent, hpar⟩ : ∃ x, ns.dropLast.getLast? = some x := by
    rcases hns2 : ns.dropLast with _ | ⟨a, tl⟩
    · have h0 : ns.dropLast.length = 0 := by rw [hns2]; rfl
      rw [List.length_dropLast] at h0
      omega
    · simp [List.getLast?_eq_getElem?]
  have hpareq : parent = ns.getD (ns.length - 2) dummyNC := by
    have h1 := getLast?_getD ns.dropLast parent hpar
    rw [List.length_dropLast] at h1
    rw [h1]
    have h3 : ns.length - 1 - 1 = ns.length - 2 := by omega
    rw [h3]
    exact getD_dropLast ns (ns.length - 2) (by omega)
  refine ⟨{ parent with
      content := parent.content ++
        (match last.finishNode openEnd with
         | some n => [n]
         | none => []) }, ?_, ?_, ?_, ?_⟩
  · rw [closeExtraGo, hlast]
    simp only [hpar]
  · rw [hpareq]
  · rw [hpareq]
  · rw [hpareq]

/-- Folding the frames above a given level into it changes nothing below that
level and only the content at it. -/
theorem closeExtraGo_facts (openEnd : Bool) :
    ∀ k m (ns : List NodeContext), ns.length = k + m + 1 →
      (closeExtraGo openEnd k ns).length = m + 1 ∧
      (∀ j, j < m → (closeExtraGo openEnd k ns).getD j dummyNC = ns.getD j dummyNC) ∧
      ((closeExtraGo openEnd k ns).getD m dummyNC).uid = (ns.getD m dummyNC).uid ∧
      ((closeExtraGo openEnd k ns).getD m dummyNC).type = (ns.getD m dummyNC).type ∧
      ((closeExtraGo openEnd k ns).getD m dummyNC).solid = (ns.getD m dummyNC).solid := by
  intro k
  induction k with
  | zero =>
    intro m ns h
    rw [closeExtraGo]
    exact ⟨by omega, fun j _ => rfl, rfl, rfl, rfl⟩
  | succ k' ih =>
    intro m ns h
    obtain ⟨x, hstep, hxu, hxt, hxs⟩ := closeExtraGo_step openEnd k' ns (by omega)
    have hlen2 : ns.length - 2 = k' + m := by omega
    rw [hlen2] at hxu hxt hxs
    rw [hstep]
    have hdl : ns.dropLast.dropLast.length = k' + m := by
      simp [List.length_dropLast]
      omega
    have hl3 : (ns.dropLast.dropLast ++ [x]).length = k' + m + 1 := by
      simp [hdl]
    have hsame : ∀ j, j < k' + m →
        (ns.dropLast.dropLast ++ [x]).getD j dummyNC = ns.getD j dummyNC := by
      intro j hj
      rw [getD_concat_left _ _ _ (by omega : j < ns.dropLast.dropLast.length)]
      rw [getD_dropLast _ _ (by rw [List.length_dropLast]; omega),
        getD_dropLast _ _ (by omega)]
    have hat : (ns.dropLast.dropLast ++ [x]).getD (k' + m) dummyNC = x := by
      rw [← hdl, getD_concat_self]
    obtain ⟨i1, i2, i3, i4, i5⟩ := ih m (ns.dropLast.dropLast ++ [x]) hl3
    have htr : ((ns.dropLast.dropLast ++ [x]).getD m dummyNC).uid
          = (ns.getD m dummyNC).uid ∧
        ((ns.dropLast.dropLast ++ [x]).getD m dummyNC).type
          = (ns.getD m dummyNC).type ∧
        ((ns.dropLast.dropLast ++ [x]).getD m dummyNC).solid
          = (ns.getD m dummyNC).solid := by
      rcases Nat.lt_or_ge m (k' + m) with hm | hm
      · rw [hsame m hm]
        exact ⟨rfl, rfl, rfl⟩
      · have hm0 : m = k' + m := by omega
        rw [hm0, hat]
        exact ⟨hxu, hxt, hxs⟩
    refine ⟨i1, ?_, ?_, ?_, ?_⟩
    · intro j hj
      rw [i2 j hj, hsame j (by omega)]
    · rw [i3, htr.1]
    · rw [i4, htr.2.1]
    · rw [i5, htr.2.2]


/-- Promoting pending marks also keeps the solid bit and the identity. -/
theorem applyPending_solid (schema : Schema) (t : NodeType) (nc : NodeContext) :
    (nc.applyPending schema t).solid = nc.solid := by
  unfold NodeContext.applyPending
  generalize nc.pendingMarks = l
  induction l generalizing nc with
  | nil => rfl
  | cons m ms ih =>
    rw [List.foldl_cons]
    refine (ih _).trans ?_
    by_cases hc : (match nc.type with
        | some ty => ty.allowsMarkF m.type
        | none => markMayApply schema m.type t) && !isInSet m nc.activeMarks <;>
      simp [hc]

/-- Closing extra frames keeps everything at or below the open depth apart
from the content of the level folded into. -/
theorem closeExtra_facts (pc : ParseContext) (openEnd : Bool)
    (h : pc.openDepth < pc.nodes.length) :
    (pc.closeExtra openEnd).openDepth = pc.openDepth ∧
    (pc.closeExtra openEnd).parser = pc.parser ∧
    (pc.closeExtra openEnd).nodes.length = pc.openDepth + 1 ∧
    (∀ j, j < pc.openDepth →
      (pc.closeExtra openEnd).nodes.getD j dummyNC = pc.nodes.getD j dummyNC) ∧
    ((pc.closeExtra openEnd).nodes.getD pc.openDepth dummyNC).uid
      = (pc.nodes.getD pc.openDepth dummyNC).uid ∧
    ((pc.closeExtra openEnd).nodes.getD pc.openDepth dummyNC).type
      = (pc.nodes.getD pc.openDepth dummyNC).type ∧
    ((pc.closeExtra openEnd).nodes.getD pc.openDepth dummyNC).solid
      = (pc.nodes.getD pc.openDepth dummyNC).solid := by
  obtain ⟨i1, i2, i3, i4, i5⟩ := closeExtraGo_facts openEnd
    (pc.nodes.length - (pc.openDepth + 1)) pc.openDepth pc.nodes (by omega)
  exact ⟨rfl, rfl, i1, i2, i3, i4, i5⟩


theorem getD_set_self (l : List NodeContext) (i : Nat) (x : NodeContext)
    (h : i < l.length) : (l.set i x).getD i dummyNC = x := by
  simp [List.getD, List.getElem?_set_self, h]

theorem getD_set_ne (l : List NodeContext) (i j : Nat) (x : NodeContext)
    (h : i ≠ j) : (l.set i x).getD j dummyNC = l.getD j dummyNC := by
  simp [List.getD, List.getElem?_set_ne h]

/-- Opening a frame pushes one new frame of the requested type and solidity,
bumps the open depth, and leaves the frames below alone (the parent keeps its
identity, type and solidity). -/
theorem enterInner_state (pc : ParseContext) (type : NodeType) (attrs : Option Nat)
    (solid : Bool) (pws : Option PreserveWS) (h : pc.openDepth < pc.nodes.length) :
    (pc.enterInner type attrs solid pws).openDepth = pc.openDepth + 1 ∧
    (pc.enterInner type attrs solid pws).parser = pc.parser ∧
    (pc.enterInner type attrs solid pws).nodes.length = pc.openDepth + 2 ∧
    ((pc.enterInner type attrs solid pws).nodes.getD (pc.openDepth + 1) dummyNC).type
      = some type ∧
    ((pc.enterInner type attrs solid pws).nodes.getD (pc.openDepth + 1) dummyNC).solid
      = solid ∧
    (∀ j, j < pc.openDepth →
      (pc.enterInner type attrs solid pws).nodes.getD j dummyNC
        = pc.nodes.getD j dummyNC) ∧
    ((pc.enterInner type attrs solid pws).nodes.getD pc.openDepth dummyNC).uid
      = (pc.nodes.getD pc.openDepth dummyNC).uid ∧
    ((pc.enterInner type attrs solid pws).nodes.getD pc.openDepth dummyNC).type
      = (pc.nodes.getD pc.openDepth dummyNC).type ∧
    ((pc.enterInner type attrs solid pws).nodes.getD pc.openDepth dummyNC).solid
      = (pc.nodes.getD pc.openDepth dummyNC).solid := by
  obtain ⟨c1, c2, c3, c4, c5, c6, c7⟩ := closeExtra_facts pc false h
  obtain ⟨T, N, hnodes, hTu, hTt, hTs, hNt, hNs⟩ :
      ∃ T N, (pc.enterInner type attrs solid pws).nodes
          = pc.closeExtra.nodes.set pc.closeExtra.openDepth T ++ [N] ∧
        T.uid = pc.closeExtra.top.uid ∧
        T.type = pc.closeExtra.top.type ∧
        T.solid = pc.closeExtra.top.solid ∧
        N.type = some type ∧
        N.solid = solid := by
    refine ⟨_, _, rfl, ?_, ?_, ?_, rfl, rfl⟩
    · exact (applyPending_preserves pc.closeExtra.parser.schema type pc.closeExtra.top).2.2.1
    · exact (applyPending_preserves pc.closeExtra.parser.schema type pc.closeExtra.top).2.2.2
    · exact applyPending_solid pc.closeExtra.parser.schema type pc.closeExtra.top
  have hod : pc.closeExtra.openDepth = pc.openDepth := c1
  have hlenset : (pc.closeExtra.nodes.set pc.closeExtra.openDepth T).length
      = pc.openDepth + 1 := by
    simp [c3]
  refine ⟨rfl, rfl, ?_, ?_, ?_, ?_, ?_, ?_, ?_⟩
  · rw [hnodes]
    simp [hlenset]
  · rw [hnodes, ← hlenset, getD_concat_self, hNt]
  · rw [hnodes, ← hlenset, getD_concat_self, hNs]
  · intro j hj
    rw [hnodes, getD_concat_left _ _ _ (by omega), hod,
      getD_set_ne _ _ _ _ (by omega), c4 j hj]
  · rw [hnodes, getD_concat_left _ _ _ (by omega), hod,
      getD_set_self _ _ _ (by omega), hTu]
    have : pc.closeExtra.top = pc.closeExtra.nodes.getD pc.openDepth dummyNC := by
      rw [ParseContext.top, hod]
    rw [this, c5]
  · rw [hnodes, getD_concat_left _ _ _ (by omega), hod,
      getD_set_self _ _ _ (by omega), hTt]
    have : pc.closeExtra.top = pc.closeExtra.nodes.getD pc.openDepth dummyNC := by
      rw [ParseContext.top, hod]
    rw [this, c6]
  · rw [hnodes, getD_concat_left _ _ _ (by omega), hod,
      getD_set_self _ _ _ (by omega), hTs]
    have : pc.closeExtra.top = pc.closeExtra.nodes.getD pc.openDepth dummyNC := by
      rw [ParseContext.top, hod]
    rw [this, c7]


/-- Opening one non-solid frame per wrapper type, in route order: the open
depth grows by the route length, every frame at or below the starting depth
keeps its identity, type and solidity, and the frame opened for step k has
the type of the k-th wrapper and is not solid. -/
theorem entersFold (route : List Nat) :
    ∀ pc : ParseContext, pc.openDepth < pc.nodes.length →
      (route.foldl (fun acc tid =>
          acc.enterInner (acc.parser.schema.typeById tid) none false none) pc).openDepth
        = pc.openDepth + route.length ∧
      (route.foldl (fun acc tid =>
          acc.enterInner (acc.parser.schema.typeById tid) none false none) pc).parser
        = pc.parser ∧
      (route.foldl (fun acc tid =>
          acc.enterInner (acc.parser.schema.typeById tid) none false none) pc).openDepth
        < (route.foldl (fun acc tid =>
          acc.enterInner (acc.parser.schema.typeById tid) none false none) pc).nodes.length ∧
      (∀ j, j ≤ pc.openDepth →
        (((route.foldl (fun acc tid =>
            acc.enterInner (acc.parser.schema.typeById tid) none false none) pc).nodes.getD
            j dummyNC).uid = (pc.nodes.getD j dummyNC).uid ∧
         ((route.foldl (fun acc tid =>
            acc.enterInner (acc.parser.schema.typeById tid) none false none) pc).nodes.getD
            j dummyNC).type = (pc.nodes.getD j dummyNC).type ∧
         ((route.foldl (fun acc tid =>
            acc.enterInner (acc.parser.schema.typeById tid) none false none) pc).nodes.getD
            j dummyNC).solid = (pc.nodes.getD j dummyNC).solid)) ∧
      (∀ k, k < route.length →
        ((route.foldl (fun acc tid =>
            acc.enterInner (acc.parser.schema.typeById tid) none false none) pc).nodes.getD
            (pc.openDepth + 1 + k) dummyNC).type
          = some (pc.parser.schema.typeById (route.getD k 0)) ∧
        ((route.foldl (fun acc tid =>
            acc.enterInner (acc.parser.schema.typeById tid) none false none) pc).nodes.getD
            (pc.openDepth + 1 + k) dummyNC).solid = false) := by
  induction route with
  | nil =>
    intro pc h
    exact ⟨rfl, rfl, h, fun j _ => ⟨rfl, rfl, rfl⟩, fun k hk => by simp at hk⟩
  | cons t ts ih =>
    intro pc h
    rw [List.foldl_cons]
    obtain ⟨e1, e2, e3, e4, e5, e6, e7, e8, e9⟩ :=
      enterInner_state pc (pc.parser.schema.typeById t) none false none h
    have h1 : (pc.enterInner (pc.parser.schema.typeById t) none false none).openDepth
        < (pc.enterInner (pc.parser.schema.typeById t) none false none).nodes.length := by
      rw [e1, e3]
      omega
    obtain ⟨i1, i2, i3, i4, i5⟩ :=
      ih (pc.enterInner (pc.parser.schema.typeById t) none false none) h1
    refine ⟨?_, ?_, i3, ?_, ?_⟩
    · rw [i1, e1]
      simp [Nat.add_assoc, Nat.add_comm 1 ts.length]
    · rw [i2, e2]
    · intro j hj
      have hj1 : j ≤ (pc.enterInner (pc.parser.schema.typeById t) none false none).openDepth := by
        rw [e1]
        omega
      obtain ⟨u1, u2, u3⟩ := i4 j hj1
      rcases Nat.lt_or_ge j pc.openDepth with hjlt | hjge
      · have he := e6 j hjlt
        exact ⟨by rw [u1, he], by rw [u2, he], by rw [u3, he]⟩
      · have hje : j = pc.openDepth := by omega
        subst hje
        exact ⟨by rw [u1, e7], by rw [u2, e8], by rw [u3, e9]⟩
    · intro k hk
      rcases k with _ | k'
      · have hj1 : pc.openDepth + 1
            ≤ (pc.enterInner (pc.parser.schema.typeById t) none false none).openDepth := by
          rw [e1]
        obtain ⟨u1, u2, u3⟩ := i4 (pc.openDepth + 1) hj1
        constructor
        · rw [show pc.openDepth + 1 + 0 = pc.openDepth + 1 by rfl, u2, e4]
          rfl
        · rw [show pc.openDepth + 1 + 0 = pc.openDepth + 1 by rfl, u3, e5]
      · have hk' : k' < ts.length := by simpa using hk
        obtain ⟨w1, w2⟩ := i5 k' hk'
        have hidx : pc.openDepth + 1 + (k' + 1)
            = (pc.enterInner (pc.parser.schema.typeById t) none false none).openDepth
              + 1 + k' := by
          rw [e1]
          omega
        constructor
        · rw [hidx, w1, e2]
          rfl
        · rw [hidx, w2]


/-- Distinct frame identities: two different stack depths carry different
uids. -/
theorem nodup_uid_ne (pc : ParseContext)
    (hnd : (pc.nodes.map (fun nc => nc.uid)).Nodup)
    (d j : Nat) (hdl : d < pc.nodes.length) (hjl : j < pc.nodes.length) (hne : d ≠ j) :
    (pc.nodes.getD j dummyNC).uid ≠ (pc.nodes.getD d dummyNC).uid := by
  intro heq
  have h1 : pc.nodes.getD j dummyNC = pc.nodes[j] := by
    simp [List.getD, List.getElem?_eq_getElem hjl]
  have h2 : pc.nodes.getD d dummyNC = pc.nodes[d] := by
    simp [List.getD, List.getElem?_eq_getElem hdl]
  rw [h1, h2] at heq
  have hjm : j < (pc.nodes.map (fun nc => nc.uid)).length := by simp [hjl]
  have hdm : d < (pc.nodes.map (fun nc => nc.uid)).length := by simp [hdl]
  have hmap : (pc.nodes.map (fun nc => nc.uid))[j]
      = (pc.nodes.map (fun nc => nc.uid))[d] := by
    simp [List.getElem_map]
    exact heq
  exact hne ((List.Nodup.getElem_inj_iff hnd).mp hmap).symm

/-- C5: findPlace scans frames from the innermost outward computing a
wrapping route per frame (shortest wins, ties to the innermost, never past a
solid frame, as captured by specScan), fails exactly when no scanned frame
admits the node, and on success synchronizes the stack to the chosen frame
and pushes one new non-solid frame per wrapper type in route order. -/
theorem c5_find_place (pc : ParseContext) (node : PMNode)
    (hlen : pc.openDepth < pc.nodes.length)
    (hnd : (pc.nodes.map (fun nc => nc.uid)).Nodup) :
    ((pc.findPlace node).2 = false ↔ specScan node pc.nodes pc.openDepth = none) ∧
    (∀ route d, specScan node pc.nodes pc.openDepth = some (route, d) →
      (pc.findPlace node).2 = true ∧
      (pc.findPlace node).1.openDepth = d + route.length ∧
      (pc.findPlace node).1.parser = pc.parser ∧
      ((pc.findPlace node).1.nodes.getD d dummyNC).uid
        = (pc.nodes.getD d dummyNC).uid ∧
      (∀ k, k < route.length →
        ((pc.findPlace node).1.nodes.getD (d + 1 + k) dummyNC).type
          = some (pc.parser.schema.typeById (route.getD k 0)) ∧
        ((pc.findPlace node).1.nodes.getD (d + 1 + k) dummyNC).solid = false)) := by
  obtain ⟨s1, s2, s3, s4⟩ := fpScan_state node pc.openDepth pc none
  rcases he : fpScan node pc.openDepth pc none with ⟨pc2, best⟩
  rw [he] at s1 s2 s3 s4
  have s1' : pc2.openDepth = pc.openDepth := s1
  have s2' : pc2.parser = pc.parser := s2
  have s3' : pc2.nodes.length = pc.nodes.length := s3
  have s4' : ∀ j, (pc2.nodes.getD j dummyNC).uid = (pc.nodes.getD j dummyNC).uid := s4
  clear s1 s2 s3 s4
  have hbest : best = specScan node pc.nodes pc.openDepth := by
    have h0 := fpScan_best node pc.openDepth pc none
    rw [he] at h0
    exact h0
  have hfp : pc.findPlace node
      = match best with
        | none => (pc2, false)
        | some (route, d) =>
          let (pc3, _) := pc2.sync ((pc2.nodes.getD d dummyNC).uid)
          let pc4 := route.foldl
            (fun acc tid => acc.enterInner (acc.parser.schema.typeById tid) none false none)
            pc3
          (pc4, true) := by
    unfold ParseContext.findPlace
    simp only [he]
    cases best <;> rfl
  rcases best with _ | ⟨route, d⟩
  · rw [hfp]
    refine ⟨by simp [← hbest], ?_⟩
    intro route d hsome
    rw [← hbest] at hsome
    simp at hsome
  · have hdle : d ≤ pc.openDepth := specScan_le node pc.nodes pc.openDepth route d hbest.symm
    have hsync : syncSearch pc2.nodes ((pc2.nodes.getD d dummyNC).uid) pc2.openDepth
        = some d := by
      apply syncSearch_found
      · rfl
      · rw [s1']
        exact hdle
      · intro j h1 h2
        rw [s4' j, s4' d]
        rw [s1'] at h2
        exact nodup_uid_ne pc hnd d j (by omega) (by omega) (by omega)
    have hsync2 : pc2.sync ((pc2.nodes.getD d dummyNC).uid)
        = ({ pc2 with openDepth := d }, true) := by
      unfold ParseContext.sync
      rw [hsync]
    rw [hfp]
    simp only [hsync2]
    try simp only []
    have hlen3 : ({ pc2 with openDepth := d } : ParseContext).openDepth
        < ({ pc2 with openDepth := d } : ParseContext).nodes.length := by
      show d < pc2.nodes.length
      rw [s3']
      omega
    obtain ⟨f1, f2, f3, f4, f5⟩ := entersFold route { pc2 with openDepth := d } hlen3
    refine ⟨?_, ?_⟩
    · constructor
      · intro hcontra
        simp at hcontra
      · intro hnone
        rw [← hbest] at hnone
        simp at hnone
    · intro route2 d2 hsome
      rw [← hbest] at hsome
      simp only [Option.some.injEq, Prod.mk.injEq] at hsome
      obtain ⟨hr2, hd2⟩ := hsome
      subst hr2
      subst hd2
      refine ⟨trivial, ?_, ?_, ?_, ?_⟩
      · exact f1
      · exact f2.trans s2'
      · exact ((f4 d (Nat.le_refl _)).1).trans (s4' d)
      · intro k hk
        obtain ⟨w1, w2⟩ := f5 k hk
        constructor
        · rw [← s2']
          exact w1
        · exact w2


/-- Concrete run of the placement theorem: a text node against the document
frame wraps in one paragraph, pushing one non-solid paragraph frame. -/
theorem c5_find_place_witness :
    egCxDoc.openDepth < egCxDoc.nodes.length ∧
    (egCxDoc.nodes.map (fun nc => nc.uid)).Nodup ∧
    specScan (PMNode.text 2 "x" []) egCxDoc.nodes egCxDoc.openDepth = some ([1], 0) ∧
    (egCxDoc.findPlace (PMNode.text 2 "x" [])).2 = true ∧
    (egCxDoc.findPlace (PMNode.text 2 "x" [])).1.openDepth = 0 + [1].length ∧
    (egCxDoc.findPlace (PMNode.text 2 "x" [])).1.parser = egCxDoc.parser ∧
    ((egCxDoc.findPlace (PMNode.text 2 "x" [])).1.nodes.getD 0 dummyNC).uid
      = (egCxDoc.nodes.getD 0 dummyNC).uid ∧
    (∀ k, k < ([1] : List Nat).length →
      ((egCxDoc.findPlace (PMNode.text 2 "x" [])).1.nodes.getD (0 + 1 + k) dummyNC).type
        = some (egCxDoc.parser.schema.typeById (([1] : List Nat).getD k 0)) ∧
      ((egCxDoc.findPlace (PMNode.text 2 "x" [])).1.nodes.getD (0 + 1 + k) dummyNC).solid
        = false) := by
  have h := (c5_find_place egCxDoc (PMNode.text 2 "x" []) (by decide) (by decide)).2
    [1] 0 (by rfl)
  exact ⟨by decide, by decide, by rfl, h.1, h.2.1, h.2.2.1, h.2.2.2.1, h.2.2.2.2⟩

/-! ## C9: ignored line-break fallback -/



/-- findWrapping keeps the frame content. -/
theorem findWrappingCx_content (nc : NodeContext) (node : PMNode) :
    (nc.findWrappingCx node).2.content = nc.content := by
  unfold NodeContext.findWrappingCx
  repeat' split
  all_goals rfl

/-- Setting a frame that keeps a field keeps every looked-up value of that
field. -/
theorem getD_set_pres {α : Type} (f : NodeContext → α) (l : List NodeContext)
    (i j : Nat) (x : NodeContext) (h : f x = f (l.getD i dummyNC)) :
    f ((l.set i x).getD j dummyNC) = f (l.getD j dummyNC) := by
  by_cases hij : i = j
  · subst hij
    by_cases hl : i < l.length
    · have hgi : l.getD i dummyNC = l[i] := by
        simp [List.getD, List.getElem?_eq_getElem hl]
      simp [List.getD, List.getElem?_set_self, hl]
      rw [← hgi]
      exact h
    · rw [List.set_eq_of_length_le (Nat.le_of_not_lt hl)]
  · simp [List.getD, List.getElem?_set_ne hij]

/-- The placement scan keeps every frame field that findWrapping keeps. -/
theorem fpScan_pres {α : Type} (node : PMNode) (f : NodeContext → α)
    (hf : ∀ nc, f (nc.findWrappingCx node).2 = f nc) :
    ∀ d pc best, ∀ j,
      f ((fpScan node d pc best).1.nodes.getD j dummyNC) = f (pc.nodes.getD j dummyNC) := by
  intro d
  induction d with
  | zero =>
    intro pc best j
    rw [fpScan.eq_def]
    simp only []
    rcases hfw : (pc.nodes.getD 0 dummyNC).findWrappingCx node with ⟨found, cx2⟩
    have hu : f cx2 = f (pc.nodes.getD 0 dummyNC) := by
      have := hf (pc.nodes.getD 0 dummyNC)
      rw [hfw] at this
      exact this
    rcases found with _ | fr <;>
      simp only [] <;>
      split_ifs <;>
      exact getD_set_pres f pc.nodes 0 j cx2 hu
  | succ d' ih =>
    intro pc best j
    rw [fpScan.eq_def]
    simp only []
    rcases hfw : (pc.nodes.getD (d' + 1) dummyNC).findWrappingCx node with ⟨found, cx2⟩
    have hu : f cx2 = f (pc.nodes.getD (d' + 1) dummyNC) := by
      have := hf (pc.nodes.getD (d' + 1) dummyNC)
      rw [hfw] at this
      exact this
    have base : ∀ best2,
        (f (((pc.setNode (d' + 1) cx2).nodes.getD j dummyNC))
          = f (pc.nodes.getD j dummyNC)) ∧
        (f ((fpScan node d' (pc.setNode (d' + 1) cx2) best2).1.nodes.getD j dummyNC)
          = f (pc.nodes.getD j dummyNC)) := by
      intro best2
      have hb : f (((pc.setNode (d' + 1) cx2).nodes.getD j dummyNC))
          = f (pc.nodes.getD j dummyNC) :=
        getD_set_pres f pc.nodes (d' + 1) j cx2 hu
      exact ⟨hb, (ih (pc.setNode (d' + 1) cx2) best2 j).trans hb⟩
    rcases found with _ | fr <;> simp only [] <;> split_ifs
    all_goals first
      | exact (base best).1
      | exact (base _).2

/-- Under a closed stack, closing extra frames is the identity. -/
theorem closeExtra_closed (pc : ParseContext) (openEnd : Bool)
    (h : pc.nodes.length = pc.openDepth + 1) : pc.closeExtra openEnd = pc := by
  unfold ParseContext.closeExtra
  rw [show pc.nodes.length - (pc.openDepth + 1) = 0 by omega, closeExtraGo]

/-- Under a closed stack, opening a frame keeps the parent content and starts
the new frame empty. -/
theorem enterInner_closed (pc : ParseContext) (type : NodeType) (attrs : Option Nat)
    (solid : Bool) (pws : Option PreserveWS) (h : pc.nodes.length = pc.openDepth + 1) :
    ((pc.enterInner type attrs solid pws).nodes.getD pc.openDepth dummyNC).content
      = (pc.nodes.getD pc.openDepth dummyNC).content ∧
    ((pc.enterInner type attrs solid pws).nodes.getD (pc.openDepth + 1) dummyNC).content
      = [] := by
  obtain ⟨T, N, hnodes, hTc, hNc⟩ :
      ∃ T N, (pc.enterInner type attrs solid pws).nodes
          = pc.closeExtra.nodes.set pc.closeExtra.openDepth T ++ [N] ∧
        T.content = pc.closeExtra.top.content ∧
        N.content = [] :=
    ⟨_, _, rfl, (applyPending_preserves pc.closeExtra.parser.schema type
      pc.closeExtra.top).2.1, rfl⟩
  rw [closeExtra_closed pc false h] at hnodes hTc
  have hsetlen : (pc.nodes.set pc.openDepth T).length = pc.openDepth + 1 := by
    simp [h]
  constructor
  · rw [hnodes, getD_concat_left _ _ _ (by omega), getD_set_self _ _ _ (by omega), hTc]
    rfl
  · rw [hnodes, ← hsetlen, getD_concat_self, hNc]

/-- Opening one frame per wrapper under a closed stack: the stack stays
closed, every frame at or below the starting depth keeps its content, and
each new frame starts with empty content. -/
theorem entersFoldClosed (route : List Nat) :
    ∀ pc : ParseContext, pc.nodes.length = pc.openDepth + 1 →
      (route.foldl (fun acc tid =>
          acc.enterInner (acc.parser.schema.typeById tid) none false none) pc).nodes.length
        = (route.foldl (fun acc tid =>
          acc.enterInner (acc.parser.schema.typeById tid) none false none) pc).openDepth
          + 1 ∧
      (∀ j, j ≤ pc.openDepth →
        ((route.foldl (fun acc tid =>
            acc.enterInner (acc.parser.schema.typeById tid) none false none) pc).nodes.getD
            j dummyNC).content = (pc.nodes.getD j dummyNC).content) ∧
      (∀ k, k < route.length →
        ((route.foldl (fun acc tid =>
            acc.enterInner (acc.parser.schema.typeById tid) none false none) pc).nodes.getD
            (pc.openDepth + 1 + k) dummyNC).content = []) := by
  induction route with
  | nil =>
    intro pc h
    exact ⟨h, fun j _ => rfl, fun k hk => by simp at hk⟩
  | cons t ts ih =>
    intro pc h
    rw [List.foldl_cons]
    have hlen : pc.openDepth < pc.nodes.length := by omega
    obtain ⟨e1, e2, e3, e4, e5, e6, e7, e8, e9⟩ :=
      enterInner_state pc (pc.parser.schema.typeById t) none false none hlen
    obtain ⟨g1, g2⟩ := enterInner_closed pc (pc.parser.schema.typeById t) none false none h
    have h1 : (pc.enterInner (pc.parser.schema.typeById t) none false none).nodes.length
        = (pc.enterInner (pc.parser.schema.typeById t) none false none).openDepth + 1 := by
      rw [e1, e3]
    obtain ⟨i1, i2, i3⟩ :=
      ih (pc.enterInner (pc.parser.schema.typeById t) none false none) h1
    refine ⟨i1, ?_, ?_⟩
    · intro j hj
      have hj1 : j ≤ (pc.enterInner (pc.parser.schema.typeById t) none false none).openDepth := by
        rw [e1]
        omega
      rw [i2 j hj1]
      rcases Nat.lt_or_ge j pc.openDepth with hjlt | hjge
      · rw [e6 j hjlt]
      · have hje : j = pc.openDepth := by omega
        subst hje
        exact g1
    · intro k hk
      rcases k with _ | k'
      · have hj1 : pc.openDepth + 1
            ≤ (pc.enterInner (pc.parser.schema.typeById t) none false none).openDepth := by
          rw [e1]
        rw [show pc.openDepth + 1 + 0 = pc.openDepth + 1 by rfl, i2 (pc.openDepth + 1) hj1]
        exact g2
      · have hk' : k' < ts.length := by simpa using hk
        have hidx : pc.openDepth + 1 + (k' + 1)
            = (pc.enterInner (pc.parser.schema.typeById t) none false none).openDepth
              + 1 + k' := by
          rw [e1]
          omega
        rw [hidx]
        exact i3 k' hk'


/-- Successful placement in full: the stack is synchronized to the chosen
frame and the wrappers are opened by a fold, while the scan phase only
touches cached automaton state (identities, contents, types and solidity of
every frame survive). -/
theorem findPlace_sync (pc : ParseContext) (node : PMNode) (route : List Nat) (d : Nat)
    (hlen : pc.openDepth < pc.nodes.length)
    (hnd : (pc.nodes.map (fun nc => nc.uid)).Nodup)
    (hspec : specScan node pc.nodes pc.openDepth = some (route, d)) :
    ∃ pc2 : ParseContext,
      pc.findPlace node
        = (route.foldl (fun acc tid =>
            acc.enterInner (acc.parser.schema.typeById tid) none false none)
            { pc2 with openDepth := d }, true) ∧
      pc2.openDepth = pc.openDepth ∧
      pc2.parser = pc.parser ∧
      pc2.nodes.length = pc.nodes.length ∧
      (∀ j, (pc2.nodes.getD j dummyNC).uid = (pc.nodes.getD j dummyNC).uid) ∧
      (∀ j, (pc2.nodes.getD j dummyNC).content = (pc.nodes.getD j dummyNC).content) ∧
      (∀ j, (pc2.nodes.getD j dummyNC).type = (pc.nodes.getD j dummyNC).type) ∧
      (∀ j, (pc2.nodes.getD j dummyNC).solid = (pc.nodes.getD j dummyNC).solid) := by
  obtain ⟨s1, s2, s3, s4⟩ := fpScan_state node pc.openDepth pc none
  have sc := fpScan_pres node (fun nc => nc.content)
    (fun nc => findWrappingCx_content nc node) pc.openDepth pc none
  have st := fpScan_pres node (fun nc => nc.type)
    (fun nc => (findWrappingCx_pres nc node).2.1) pc.openDepth pc none
  have ss := fpScan_pres node (fun nc => nc.solid)
    (fun nc => (findWrappingCx_pres nc node).2.2) pc.openDepth pc none
  rcases he : fpScan node pc.openDepth pc none with ⟨pc2, best⟩
  rw [he] at s1 s2 s3 s4 sc st ss
  have s1' : pc2.openDepth = pc.openDepth := s1
  have s2' : pc2.parser = pc.parser := s2
  have s3' : pc2.nodes.length = pc.nodes.length := s3
  have s4' : ∀ j, (pc2.nodes.getD j dummyNC).uid = (pc.nodes.getD j dummyNC).uid := s4
  have sc' : ∀ j, (pc2.nodes.getD j dummyNC).content = (pc.nodes.getD j dummyNC).content := sc
  have st' : ∀ j, (pc2.nodes.getD j dummyNC).type = (pc.nodes.getD j dummyNC).type := st
  have ss' : ∀ j, (pc2.nodes.getD j dummyNC).solid = (pc.nodes.getD j dummyNC).solid := ss
  clear s1 s2 s3 s4 sc st ss
  have hbest : best = specScan node pc.nodes pc.openDepth := by
    have h0 := fpScan_best node pc.openDepth pc none
    rw [he] at h0
    exact h0
  rw [hspec] at hbest
  subst hbest
  have hdle : d ≤ pc.openDepth := specScan_le node pc.nodes pc.openDepth route d hspec
  have hsync : syncSearch pc2.nodes ((pc2.nodes.getD d dummyNC).uid) pc2.openDepth
      = some d := by
    apply syncSearch_found
    · rfl
    · rw [s1']
      exact hdle
    · intro j h1 h2
      rw [s4' j, s4' d]
      rw [s1'] at h2
      exact nodup_uid_ne pc hnd d j (by omega) (by omega) (by omega)
  have hsync2 : pc2.sync ((pc2.nodes.getD d dummyNC).uid)
      = ({ pc2 with openDepth := d }, true) := by
    unfold ParseContext.sync
    rw [hsync]
  refine ⟨pc2, ?_, s1', s2', s3', s4', sc', st', ss'⟩
  unfold ParseContext.findPlace
  simp only [he]
  simp only [hsync2]

/-- C9 amended: an ignored line-break in a non-inline context does not insert
any placeholder node; it only runs the placement search for a text node,
which synchronizes the stack and opens empty non-solid wrapper frames (the
paragraph that would make the context inline), leaving every existing frame
content untouched and the output without any new node. -/
theorem c9_ignored_br (pc : ParseContext) (dom : DomNode) (route : List Nat)
    (hname : dom.nameOf = "BR")
    (htop : (match pc.top.type with
             | some t => t.inlineContent
             | none => false) = false)
    (hclosed : pc.nodes.length = pc.openDepth + 1)
    (hnd : (pc.nodes.map (fun nc => nc.uid)).Nodup)
    (hspec : specScan (pc.parser.schema.text "-") pc.nodes pc.openDepth
      = some (route, pc.openDepth)) :
    pc.ignoreFallback dom = (pc.findPlace (pc.parser.schema.text "-")).1 ∧
    (pc.ignoreFallback dom).openDepth = pc.openDepth + route.length ∧
    (∀ j, j ≤ pc.openDepth →
      ((pc.ignoreFallback dom).nodes.getD j dummyNC).content
        = (pc.nodes.getD j dummyNC).content) ∧
    (∀ k, k < route.length →
      ((pc.ignoreFallback dom).nodes.getD (pc.openDepth + 1 + k) dummyNC).content = [] ∧
      ((pc.ignoreFallback dom).nodes.getD (pc.openDepth + 1 + k) dummyNC).type
        = some (pc.parser.schema.typeById (route.getD k 0)) ∧
      ((pc.ignoreFallback dom).nodes.getD (pc.openDepth + 1 + k) dummyNC).solid
        = false) := by
  have hif : pc.ignoreFallback dom = (pc.findPlace (pc.parser.schema.text "-")).1 := by
    unfold ParseContext.ignoreFallback
    rw [hname, htop]
    simp
  obtain ⟨pc2, hfp, s1, s2, s3, s4, sc, st, ss⟩ :=
    findPlace_sync pc (pc.parser.schema.text "-") route pc.openDepth
      (by omega) hnd hspec
  have hp3len : ({ pc2 with openDepth := pc.openDepth } : ParseContext).nodes.length
      = ({ pc2 with openDepth := pc.openDepth } : ParseContext).openDepth + 1 := by
    show pc2.nodes.length = pc.openDepth + 1
    rw [s3, hclosed]
  have hp3lt : ({ pc2 with openDepth := pc.openDepth } : ParseContext).openDepth
      < ({ pc2 with openDepth := pc.openDepth } : ParseContext).nodes.length := by
    show pc.openDepth < pc2.nodes.length
    rw [s3]
    omega
  obtain ⟨f1, f2, f3, f4, f5⟩ :=
    entersFold route { pc2 with openDepth := pc.openDepth } hp3lt
  obtain ⟨g1, g2, g3⟩ :=
    entersFoldClosed route { pc2 with openDepth := pc.openDepth } hp3len
  have hres : pc.ignoreFallback dom
      = route.foldl (fun acc tid =>
          acc.enterInner (acc.parser.schema.typeById tid) none false none)
          { pc2 with openDepth := pc.openDepth } := by
    rw [hif, hfp]
  refine ⟨hif, ?_, ?_, ?_⟩
  · rw [hres]
    exact f1
  · intro j hj
    rw [hres, g2 j hj]
    exact sc j
  · intro k hk
    refine ⟨?_, ?_, ?_⟩
    · rw [hres]
      exact g3 k hk
    · rw [hres, (f5 k hk).1, s2]
    · rw [hres]
      exact (f5 k hk).2


set_option maxHeartbeats 2000000 in
/-- An ignored BR while the document frame (not an inline context) is open:
the walker leaves every frame content empty -- no placeholder text node
exists anywhere -- although a paragraph frame was opened; a full parse of a
div containing only the BR produces a document with zero text nodes. -/
theorem c9_counterexample :
    ((addElement 50 (mkParseContext egPBr {} false) egDomBr none).nodes.map
        (fun nc => nc.content.length) = [0, 0]) ∧
    ((addElement 50 (mkParseContext egPBr {} false) egDomBr none).nodes.map
        (fun nc => nc.type.map (fun t => t.name)) = [some "doc", some "paragraph"]) ∧
    (egPBr.parse egDomBrDiv {} 50).2.textCount = 0 := ⟨rfl, rfl, rfl⟩

/-- Concrete run of the amended ignored-BR theorem: the BR in the initial
document context runs the placement search for a text node and opens one
empty paragraph wrapper, inserting nothing. -/
theorem c9_ignored_br_witness :
    egDomBr.nameOf = "BR" ∧
    specScan ((mkParseContext egPBr {} false).parser.schema.text "-")
      (mkParseContext egPBr {} false).nodes (mkParseContext egPBr {} false).openDepth
      = some ([1], (mkParseContext egPBr {} false).openDepth) ∧
    ((mkParseContext egPBr {} false).ignoreFallback egDomBr
      = ((mkParseContext egPBr {} false).findPlace
          ((mkParseContext egPBr {} false).parser.schema.text "-")).1) ∧
    ((mkParseContext egPBr {} false).ignoreFallback egDomBr).openDepth
      = (mkParseContext egPBr {} false).openDepth + ([1] : List Nat).length := by
  have h := c9_ignored_br (mkParseContext egPBr {} false) egDomBr [1] rfl (by rfl) rfl
    (by decide) (by rfl)
  exact ⟨rfl, by rfl, h.1, h.2.1⟩


theorem fwow_id (ids : List Nat) (pc : ParseContext) (h : findClean ids pc) :
    fwow ids pc pc := by
  refine ⟨⟨rfl, fun i => ⟨rfl, rfl⟩⟩, fun i => ⟨fun _ => rfl, fun hm => ?_⟩⟩
  rw [h i hm]
  decide

theorem fwow_congr_left (ids : List Nat) (pc pc1 pc2 : ParseContext)
    (h : pc1.find = pc.find) (hw : fwow ids pc1 pc2) : fwow ids pc pc2 := by
  obtain ⟨⟨hl, hf⟩, hp⟩ := hw
  rw [h] at hl hf hp
  exact ⟨⟨hl, hf⟩, hp⟩

theorem fwow_congr_right (ids : List Nat) (pc pc1 pc2 : ParseContext)
    (h : pc2.find = pc1.find) (hw : fwow ids pc pc1) : fwow ids pc pc2 := by
  obtain ⟨⟨hl, hf⟩, hp⟩ := hw
  refine ⟨⟨?_, ?_⟩, ?_⟩
  · rw [h]; exact hl
  · intro i; rw [h]; exact hf i
  · intro i
    constructor
    · intro hn; rw [h]; exact (hp i).1 hn
    · intro hn; rw [h]; exact (hp i).2 hn

theorem findClean_congr (ids : List Nat) (pc pc1 : ParseContext)
    (h : pc1.find = pc.find) (hc : findClean ids pc) : findClean ids pc1 := by
  intro i
  rw [h]
  exact hc i

theorem findClean_mono (ids ids2 : List Nat) (pc : ParseContext)
    (hsub : ∀ x, x ∈ ids2 → x ∈ ids) (hc : findClean ids pc) : findClean ids2 pc :=
  fun i hm => hc i (hsub _ hm)

theorem fwow_memEq (ids ids2 : List Nat) (pc pc2 : ParseContext)
    (hiff : ∀ x, x ∈ ids ↔ x ∈ ids2) (hw : fwow ids pc pc2) : fwow ids2 pc pc2 := by
  obtain ⟨hs, hp⟩ := hw
  refine ⟨hs, fun i => ⟨fun hn => (hp i).1 (fun hx => hn ((hiff _).mp hx)),
    fun hn => (hp i).2 ((hiff _).mpr hn)⟩⟩

theorem fwow_mono (ids ids2 : List Nat) (pc pc2 : ParseContext)
    (hsub : ∀ x, x ∈ ids → x ∈ ids2) (hc : findClean ids2 pc) (hw : fwow ids pc pc2) :
    fwow ids2 pc pc2 := by
  obtain ⟨hs, hp⟩ := hw
  refine ⟨hs, fun i => ⟨fun hn => (hp i).1 (fun hx => hn (hsub _ hx)), fun hn => ?_⟩⟩
  by_cases hin : (pc.find.getD i dFE).node ∈ ids
  · exact (hp i).2 hin
  · rw [(hp i).1 hin, hc i hn]
    decide

theorem findClean_after (ids ids2 : List Nat) (pc pc2 : ParseContext)
    (hw : fwow ids pc pc2) (hc : findClean ids2 pc)
    (hdisj : ∀ x, x ∈ ids2 → x ∉ ids) : findClean ids2 pc2 := by
  obtain ⟨⟨hl, hf⟩, hp⟩ := hw
  intro i hm
  rw [(hf i).1] at hm
  rw [(hp i).1 (hdisj _ hm), hc i hm]

theorem fwow_trans_disj (ids1 ids2 : List Nat) (pc pc1 pc2 : ParseContext)
    (h1 : fwow ids1 pc pc1) (h2 : fwow ids2 pc1 pc2)
    (hdisj : ∀ x, x ∈ ids1 → x ∉ ids2) : fwow (ids1 ++ ids2) pc pc2 := by
  obtain ⟨⟨l1, f1⟩, p1⟩ := h1
  obtain ⟨⟨l2, f2⟩, p2⟩ := h2
  refine ⟨⟨l2.trans l1, fun i => ⟨(f2 i).1.trans (f1 i).1, (f2 i).2.trans (f1 i).2⟩⟩,
    fun i => ⟨?_, ?_⟩⟩
  · intro hn
    simp only [List.mem_append] at hn
    push_neg at hn
    have e2 := (p2 i).1 (by rw [(f1 i).1]; exact hn.2)
    rw [e2, (p1 i).1 hn.1]
  · intro hn
    simp only [List.mem_append] at hn
    rcases hn with hn | hn
    · have e2 := (p2 i).1 (by rw [(f1 i).1]; exact hdisj _ hn)
      rw [e2]
      exact (p1 i).2 hn
    · exact (p2 i).2 (by rw [(f1 i).1]; exact hn)

theorem findShape_trans (pc pc1 pc2 : ParseContext) (h1 : findShape pc pc1)
    (h2 : findShape pc1 pc2) : findShape pc pc2 :=
  ⟨h2.1.trans h1.1, fun i => ⟨(h2.2 i).1.trans (h1.2 i).1, (h2.2 i).2.trans (h1.2 i).2⟩⟩

theorem findNoZero_shape (pc pc2 : ParseContext) (hs : findShape pc pc2)
    (hz : findNoZero pc) : findNoZero pc2 := by
  intro i hi
  rw [(hs.2 i).1]
  exact hz i (by rw [← hs.1]; exact hi)


theorem find_map_facts (l : List FindEntry) (f : FindEntry → FindEntry)
    (hnode : ∀ e, (f e).node = e.node) (hoff : ∀ e, (f e).offset = e.offset) :
    (l.map f).length = l.length ∧
    (∀ i, ((l.map f).getD i dFE).node = (l.getD i dFE).node ∧
          ((l.map f).getD i dFE).offset = (l.getD i dFE).offset) ∧
    (∀ i, i < l.length → ((l.map f).getD i dFE) = f (l.getD i dFE)) ∧
    (∀ i, ¬ i < l.length → ((l.map f).getD i dFE) = l.getD i dFE) := by
  have hmap : ∀ i, i < l.length → ((l.map f).getD i dFE) = f (l.getD i dFE) := by
    intro i hi
    simp [List.getD, List.getElem?_map, List.getElem?_eq_getElem hi]
  have hout : ∀ i, ¬ i < l.length → ((l.map f).getD i dFE) = l.getD i dFE := by
    intro i hi
    have h1 : l[i]? = none := List.getElem?_eq_none (by omega)
    have h2 : (l.map f)[i]? = none := List.getElem?_eq_none (by simp; omega)
    simp [List.getD, h1, h2]
  refine ⟨by simp, fun i => ?_, hmap, hout⟩
  by_cases hi : i < l.length
  · rw [hmap i hi]
    exact ⟨hnode _, hoff _⟩
  · rw [hout i hi]
    exact ⟨rfl, rfl⟩

theorem findAtPoint_effect (pc : ParseContext) (parentId offset : Nat) :
    findShape pc (pc.findAtPoint parentId offset) ∧
    (∀ i, ¬((pc.find.getD i dFE).node = parentId ∧ (pc.find.getD i dFE).offset = offset) →
      ((pc.findAtPoint parentId offset).find.getD i dFE).posHist
        = (pc.find.getD i dFE).posHist) ∧
    (∀ i, ((pc.findAtPoint parentId offset).find.getD i dFE).posHist
        = (pc.find.getD i dFE).posHist ∨
      ∃ x, ((pc.findAtPoint parentId offset).find.getD i dFE).posHist
        = (pc.find.getD i dFE).posHist ++ [x]) := by
  unfold ParseContext.findAtPoint
  by_cases hany : pc.find.any (fun e => decide (e.node = parentId) && decide (e.offset = offset))
  all_goals simp only [hany, if_true, if_false, ite_true, ite_false]
  · rcases hcps : pc.currentPosSt with ⟨pc2, pos⟩
    have hfind : pc2.find = pc.find := by
      have h0 : (pc.currentPosSt).1.find = pc.find := rfl
      rw [hcps] at h0
      exact h0
    simp only []
    obtain ⟨m1, m2, m3, m4⟩ := find_map_facts pc.find
      (fun e => if e.node = parentId ∧ e.offset = offset
        then { e with posHist := e.posHist ++ [pos] } else e)
      (fun e => by simp only []; split <;> rfl)
      (fun e => by simp only []; split <;> rfl)
    rw [hfind]
    refine ⟨⟨m1, fun i => m2 i⟩, fun i hne => ?_, fun i => ?_⟩
    · by_cases hi : i < pc.find.length
      · rw [m3 i hi]
        split
        · exact absurd (by assumption) hne
        · rfl
      · rw [m4 i hi]
    · by_cases hi : i < pc.find.length
      · rw [m3 i hi]
        split
        · exact Or.inr ⟨pos, rfl⟩
        · exact Or.inl rfl
      · rw [m4 i hi]
        exact Or.inl rfl
  · exact ⟨⟨rfl, fun i => ⟨rfl, rfl⟩⟩, fun i _ => rfl, fun i => Or.inl rfl⟩

theorem findInText_effect (pc : ParseContext) (t : DomNode) :
    findShape pc (pc.findInText t) ∧
    (∀ i, ¬((pc.find.getD i dFE).node = t.idOf) →
      ((pc.findInText t).find.getD i dFE).posHist = (pc.find.getD i dFE).posHist) ∧
    (∀ i, ((pc.findInText t).find.getD i dFE).posHist = (pc.find.getD i dFE).posHist ∨
      ∃ x, ((pc.findInText t).find.getD i dFE).posHist
        = (pc.find.getD i dFE).posHist ++ [x]) := by
  unfold ParseContext.findInText
  by_cases hany : pc.find.any (fun e => decide (e.node = t.idOf))
  all_goals simp only [hany, if_true, if_false, ite_true, ite_false]
  · rcases hcps : pc.currentPosSt with ⟨pc2, pos⟩
    have hfind : pc2.find = pc.find := by
      have h0 : (pc.currentPosSt).1.find = pc.find := rfl
      rw [hcps] at h0
      exact h0
    simp only []
    obtain ⟨m1, m2, m3, m4⟩ := find_map_facts pc.find
      (fun e => if e.node = t.idOf
        then { e with posHist := e.posHist ++
          [pos - ((strLen t.textValueOf : Int) - (e.offset : Int))] } else e)
      (fun e => by simp only []; split <;> rfl)
      (fun e => by simp only []; split <;> rfl)
    rw [hfind]
    refine ⟨⟨m1, fun i => m2 i⟩, fun i hne => ?_, fun i => ?_⟩
    · by_cases hi : i < pc.find.length
      · rw [m3 i hi]
        split
        · exact absurd (by assumption) hne
        · rfl
      · rw [m4 i hi]
    · by_cases hi : i < pc.find.length
      · rw [m3 i hi]
        split
        · exact Or.inr ⟨_, rfl⟩
        · exact Or.inl rfl
      · rw [m4 i hi]
        exact Or.inl rfl
  · exact ⟨⟨rfl, fun i => ⟨rfl, rfl⟩⟩, fun i _ => rfl, fun i => Or.inl rfl⟩

theorem findInside_effect (pc : ParseContext) (parent : DomNode) :
    findShape pc (pc.findInside parent) ∧
    ∀ i, ((pc.findInside parent).find.getD i dFE).posHist = (pc.find.getD i dFE).posHist ∨
      ((pc.find.getD i dFE).posHist = [] ∧
       parent.containsId (pc.find.getD i dFE).node = true ∧
       ∃ x, ((pc.findInside parent).find.getD i dFE).posHist = [x]) := by
  unfold ParseContext.findInside
  by_cases hany : pc.find.any
      (fun e => e.posHist.isEmpty && parent.isElem && parent.containsId e.node)
  all_goals simp only [hany, if_true, if_false, ite_true, ite_false]
  · rcases hcps : pc.currentPosSt with ⟨pc2, pos⟩
    have hfind : pc2.find = pc.find := by
      have h0 : (pc.currentPosSt).1.find = pc.find := rfl
      rw [hcps] at h0
      exact h0
    simp only []
    obtain ⟨m1, m2, m3, m4⟩ := find_map_facts pc.find
      (fun e => if e.posHist.isEmpty ∧ parent.isElem = true ∧ parent.containsId e.node = true
        then { e with posHist := e.posHist ++ [pos] } else e)
      (fun e => by simp only []; split <;> rfl)
      (fun e => by simp only []; split <;> rfl)
    rw [hfind]
    refine ⟨⟨m1, fun i => m2 i⟩, fun i => ?_⟩
    by_cases hi : i < pc.find.length
    · rw [m3 i hi]
      split
      · rename_i hcond
        have he : (pc.find.getD i dFE).posHist = [] := by
          have h0 := hcond.1
          rwa [List.isEmpty_iff] at h0
        exact Or.inr ⟨he, hcond.2.2, pos, by rw [he]; rfl⟩
      · exact Or.inl rfl
    · rw [m4 i hi]
      exact Or.inl rfl
  · exact ⟨⟨rfl, fun i => ⟨rfl, rfl⟩⟩, fun i => Or.inl rfl⟩

/-- findInside on a text node does nothing. -/
theorem findInside_text (pc : ParseContext) (i : Nat) (v : String) :
    pc.findInside (.text i v) = pc := by
  unfold ParseContext.findInside
  have hany : pc.find.any
      (fun e => e.posHist.isEmpty && DomNode.isElem (.text i v) && DomNode.containsId (.text i v) e.node) = false := by
    simp [DomNode.isElem]
  simp [hany]

/-- findAround of an element around itself does nothing. -/
theorem findAround_self (pc : ParseContext) (dom : DomNode) (b : Bool) :
    pc.findAround dom dom b = pc := by
  unfold ParseContext.findAround
  simp


theorem mem_getD_find (l : List FindEntry) (i : Nat) (h : i < l.length) :
    l.getD i dFE ∈ l := by
  have h1 : l.getD i dFE = l[i] := by
    simp [List.getD, List.getElem?_eq_getElem h]
  rw [h1]
  exact List.getElem_mem h

theorem getD_of_mem_find (l : List FindEntry) (e : FindEntry) (h : e ∈ l) :
    ∃ i, i < l.length ∧ l.getD i dFE = e := by
  obtain ⟨i, hi, he⟩ := List.mem_iff_getElem.mp h
  exact ⟨i, hi, by simp [List.getD, List.getElem?_eq_getElem hi, he]⟩

theorem sync_find (pc : ParseContext) (u : Nat) : (pc.sync u).1.find = pc.find := by
  unfold ParseContext.sync
  cases syncSearch pc.nodes u pc.openDepth <;> rfl

theorem enterInner_find (pc : ParseContext) (t : NodeType) (a : Option Nat)
    (s : Bool) (w : Option PreserveWS) : (pc.enterInner t a s w).find = pc.find := rfl

set_option maxHeartbeats 1000000 in
theorem fpScan_find (node : PMNode) :
    ∀ d pc best, (fpScan node d pc best).1.find = pc.find := by
  intro d
  induction d with
  | zero =>
    intro pc best
    rw [fpScan.eq_def]
    simp only []
    rcases hfw : (pc.nodes.getD 0 dummyNC).findWrappingCx node with ⟨found, cx2⟩
    rcases found with _ | f <;> simp only [] <;> split_ifs <;> rfl
  | succ d' ih =>
    intro pc best
    rw [fpScan.eq_def]
    simp only []
    rcases hfw : (pc.nodes.getD (d' + 1) dummyNC).findWrappingCx node with ⟨found, cx2⟩
    rcases found with _ | f <;> simp only [] <;> split_ifs
    all_goals first
      | rfl
      | exact ih (pc.setNode (d' + 1) cx2) _

theorem foldEnter_find (route : List Nat) :
    ∀ pc : ParseContext,
      (route.foldl (fun acc tid =>
        acc.enterInner (acc.parser.schema.typeById tid) none false none) pc).find
        = pc.find := by
  induction route with
  | nil => intro pc; rfl
  | cons t ts ih =>
    intro pc
    rw [List.foldl_cons, ih]
    rfl

theorem findPlace_find (pc : ParseContext) (node : PMNode) :
    (pc.findPlace node).1.find = pc.find := by
  unfold ParseContext.findPlace
  rcases he : fpScan node pc.openDepth pc none with ⟨pc2, best⟩
  have h2 : pc2.find = pc.find := by
    have h0 := fpScan_find node pc.openDepth pc none
    rw [he] at h0
    exact h0
  rcases best with _ | ⟨route, d⟩
  · simp only []
    exact h2
  · simp only []
    rcases hs : pc2.sync ((pc2.nodes.getD d dummyNC).uid) with ⟨pc3, ok⟩
    have h3 : pc3.find = pc2.find := by
      have h0 := sync_find pc2 ((pc2.nodes.getD d dummyNC).uid)
      rw [hs] at h0
      exact h0
    rw [foldEnter_find, h3, h2]

set_option maxHeartbeats 1000000 in
theorem insertNode_find (pc : ParseContext) (node : PMNode) :
    (pc.insertNode node).1.find = pc.find := by
  unfold ParseContext.insertNode
  simp only []
  split
  · rcases htb : pc.textblockFromContext with _ | blk
    all_goals simp only []
    · rcases hfp : (pc.findPlace node) with ⟨pcf, ok⟩
      have hf : pcf.find = pc.find := by
        have h0 := findPlace_find pc node
        rw [hfp] at h0
        exact h0
      rcases ok <;> simp only [] <;> exact hf
    · rcases hfp : ((pc.enterInner blk none false none).findPlace node) with ⟨pcf, ok⟩
      have hf : pcf.find = pc.find := by
        have h0 := findPlace_find (pc.enterInner blk none false none) node
        rw [hfp, enterInner_find] at h0
        exact h0
      rcases ok <;> simp only [] <;> exact hf
  · rcases hfp : (pc.findPlace node) with ⟨pcf, ok⟩
    have hf : pcf.find = pc.find := by
      have h0 := findPlace_find pc node
      rw [hfp] at h0
      exact h0
    rcases ok <;> simp only [] <;> exact hf

theorem enter_find (pc : ParseContext) (t : NodeType) (a : Option Nat)
    (w : Option PreserveWS) : (pc.enter t a w).1.find = pc.find := by
  unfold ParseContext.enter
  rcases hfp : pc.findPlace (PMNode.node t.id a .nil markNone) with ⟨pcf, ok⟩
  have hf : pcf.find = pc.find := by
    have h0 := findPlace_find pc (PMNode.node t.id a .nil markNone)
    rw [hfp] at h0
    exact h0
  rcases ok <;> simp [enterInner_find, hf]

theorem find_ite (c : Prop) [Decidable c] (a b : ParseContext) (x : List FindEntry)
    (ha : a.find = x) (hb : b.find = x) : (if c then a else b).find = x := by
  split <;> assumption

theorem addPendingMark_find (pc : ParseContext) (m : Mark) :
    (pc.addPendingMark m).find = pc.find := rfl

theorem rpmGo_find (m : Mark) (u : Nat) :
    ∀ d pc, (rpmGo m u d pc).find = pc.find := by
  intro d
  induction d with
  | zero =>
    intro pc
    rw [rpmGo.eq_def]
    simp only []
    exact find_ite _ _ _ _ rfl rfl
  | succ d' ih =>
    intro pc
    rw [rpmGo.eq_def]
    simp only []
    exact find_ite _ _ _ _ rfl (ih _)

theorem removePendingMark_find (pc : ParseContext) (m : Mark) (u : Nat) :
    (pc.removePendingMark m u).find = pc.find := rpmGo_find m u pc.openDepth pc

theorem readStyles_find (pc : ParseContext) (styles : List (String × String)) :
    (pc.readStyles styles).1.find = pc.find := by
  obtain ⟨pr, hpr⟩ := rsGo_parser_only styles pc markNone markNone
  show (rsGo styles pc markNone markNone).1.find = pc.find
  rw [hpr]

theorem findInText_nozero (pc : ParseContext) (v : String) (hz : findNoZero pc) :
    pc.findInText (.text 0 v) = pc := by
  unfold ParseContext.findInText
  have hany : pc.find.any (fun e => decide (e.node = DomNode.idOf (.text 0 v))) = false := by
    rw [List.any_eq_false]
    intro e he
    obtain ⟨i, hi, hg⟩ := getD_of_mem_find pc.find e he
    have := hz i hi
    rw [hg] at this
    simp [DomNode.idOf]
    exact this
  simp [hany]

theorem addTextNode0_find (pc : ParseContext) (v : String) (a b : Option String)
    (hz : findNoZero pc) : (pc.addTextNode (.text 0 v) a b).find = pc.find := by
  unfold ParseContext.addTextNode
  simp only []
  split
  · have hin : ∀ pcx : ParseContext, pcx.find = pc.find →
        (pcx.findInText (.text 0 v)).find = pc.find := by
      intro pcx hx
      rw [findInText_nozero pcx v (by intro i hi; rw [hx] at hi ⊢; exact hz i hi), hx]
    have hin2 : ∀ V : String,
        ((if V = "" then pc else (pc.insertNode (pc.parser.schema.text V)).1).findInText
          (.text 0 v)).find = pc.find := by
      intro V
      split
      · exact hin pc rfl
      · exact hin _ (insertNode_find pc _)
    exact hin2 _
  · rw [findInside_text]

theorem leafFallback_find (pc : ParseContext) (dom : DomNode) (hz : findNoZero pc) :
    (pc.leafFallback dom).find = pc.find := by
  unfold ParseContext.leafFallback
  split
  · exact addTextNode0_find pc "\n" none none hz
  · rfl

theorem ignoreFallback_find (pc : ParseContext) (dom : DomNode) :
    (pc.ignoreFallback dom).find = pc.find := by
  unfold ParseContext.ignoreFallback
  split
  · exact findPlace_find pc _
  · rfl


theorem matchTagAux_nce (dom : DomNode) (cx : ParseContext) :
    ∀ fuel i (p : DOMParser), NoCE p →
      NoCE (matchTagAux p dom cx i fuel).2 ∧
      (∀ r k, (matchTagAux p dom cx i fuel).1 = some (r, k) → r.contentElement = none) := by
  intro fuel
  induction fuel with
  | zero =>
    intro i p hp
    rw [matchTagAux]
    exact ⟨hp, fun r k h => by simp at h⟩
  | succ fuel ih =>
    intro i p hp
    rw [matchTagAux.eq_def]
    simp only []
    rcases ht : p.tags[i]? with _ | rule
    · exact ⟨hp, fun r k h => by simp at h⟩
    · simp only []
      have hmem : rule ∈ p.tags := List.getElem?_mem ht
      have hce : rule.contentElement = none := hp rule hmem
      split
      · rcases hga : rule.getAttrs with _ | f
        all_goals try simp only []
        · exact ⟨hp, fun r k h => by
            simp only [Option.some.injEq, Prod.mk.injEq] at h
            rw [← h.1, hce]⟩
        · rcases hres : f (.el dom) with _ | _ | a
          all_goals try simp only []
          · exact ih (i + 1) p hp
          · refine ⟨?_, fun r k h => by
              simp only [Option.some.injEq, Prod.mk.injEq] at h
              rw [← h.1]
              exact hce⟩
            intro r hr
            rcases List.mem_or_eq_of_mem_set hr with h2 | h2
            · exact hp r h2
            · rw [h2]
              exact hce
          · refine ⟨?_, fun r k h => by
              simp only [Option.some.injEq, Prod.mk.injEq] at h
              rw [← h.1]
              exact hce⟩
            intro r hr
            rcases List.mem_or_eq_of_mem_set hr with h2 | h2
            · exact hp r h2
            · rw [h2]
              exact hce
      · exact ih (i + 1) p hp

theorem matchTagCx_nce (p : DOMParser) (dom : DomNode) (cx : ParseContext)
    (after : Option Nat) (hp : NoCE p) :
    NoCE (p.matchTagCx dom cx after).2 ∧
    (∀ r k, (p.matchTagCx dom cx after).1 = some (r, k) → r.contentElement = none) := by
  unfold DOMParser.matchTagCx
  exact matchTagAux_nce dom cx (p.tags.length + 1) _ p hp

theorem matchStyleAux_tags (prop value : String) (cx : ParseContext) :
    ∀ fuel i (p : DOMParser), (matchStyleAux p prop value cx i fuel).2.tags = p.tags := by
  intro fuel
  induction fuel with
  | zero =>
    intro i p
    rw [matchStyleAux]
  | succ fuel ih =>
    intro i p
    rw [matchStyleAux.eq_def]
    simp only []
    rcases ht : p.styles[i]? with _ | rule
    · rfl
    · simp only []
      split
      all_goals try exact ih (i + 1) p
      all_goals rcases hga : rule.getAttrs with _ | f
      all_goals try simp only []
      all_goals try rfl
      all_goals rcases hres : f (.sv value) with _ | _ | a
      all_goals try simp only []
      all_goals first
        | rfl
        | exact ih (i + 1) p

theorem rsChain_tags (prop value : String) :
    ∀ fuel after pc add remove,
      (rsChain prop value fuel after pc add remove).1.parser.tags = pc.parser.tags := by
  intro fuel
  induction fuel with
  | zero =>
    intro after pc add remove
    rw [rsChain]
  | succ fuel ih =>
    intro after pc add remove
    rw [rsChain.eq_def]
    simp only []
    have htags : (pc.parser.matchStyleCx prop value pc after).2.tags = pc.parser.tags := by
      unfold DOMParser.matchStyleCx
      exact matchStyleAux_tags prop value pc (pc.parser.styles.length + 1) _ pc.parser
    rcases hms : pc.parser.matchStyleCx prop value pc after with ⟨res, p2⟩
    rw [hms] at htags
    rcases res with _ | ⟨rule, idx⟩
    · exact htags
    · simp only []
      split
      · exact htags
      · rcases hcm : rule.clearMark with _ | f <;> simp only []
        · split
          · rw [ih]
            exact htags
          · exact htags
        · split
          · rw [ih]
            exact htags
          · exact htags

theorem rsGo_tags :
    ∀ styles pc add remove, (rsGo styles pc add remove).1.parser.tags = pc.parser.tags := by
  intro styles
  induction styles with
  | nil =>
    intro pc add remove
    rw [rsGo]
  | cons pv rest ih =>
    intro pc add remove
    rcases pv with ⟨prop, value⟩
    rw [rsGo]
    rcases hch : rsChain prop value (pc.parser.styles.length + 1) none pc add remove with
      ⟨pc2, mo⟩
    have h2 : pc2.parser.tags = pc.parser.tags := by
      have h0 := rsChain_tags prop value (pc.parser.styles.length + 1) none pc add remove
      rw [hch] at h0
      exact h0
    rcases mo with _ | ⟨add2, rem2⟩
    · exact h2
    · simp only []
      rw [ih]
      exact h2


theorem subtreeIds_toList : (cs : DomNodeList) →
    DomNodeList.subtreeIds cs = cs.toList.flatMap DomNode.subtreeIds
  | .nil => rfl
  | .cons c cs => by
    rw [DomNodeList.subtreeIds, DomNodeList.toList, List.flatMap_cons, subtreeIds_toList cs]

theorem subtreeIds_append : (cs ds : DomNodeList) →
    (cs.append ds).subtreeIds = cs.subtreeIds ++ ds.subtreeIds
  | .nil, ds => rfl
  | .cons c cs, ds => by
    rw [DomNodeList.append, DomNodeList.subtreeIds, DomNodeList.subtreeIds,
      subtreeIds_append cs ds, List.append_assoc]

theorem subtreeIds_domListOf : (l : List DomNode) →
    (domListOf l).subtreeIds = l.flatMap DomNode.subtreeIds
  | [] => rfl
  | c :: cs => by
    rw [domListOf, DomNodeList.subtreeIds, List.flatMap_cons, subtreeIds_domListOf cs]

/-- The ids of an element after appendChild. -/
theorem subtreeIds_appendChild (d c : DomNode) (h : d.isElem = true) :
    (d.appendChild c).subtreeIds = d.subtreeIds ++ c.subtreeIds := by
  rcases d with ⟨i, v⟩ | ⟨i, n, ns, st, cs⟩
  · simp [DomNode.isElem] at h
  · rw [DomNode.appendChild, DomNode.subtreeIds, DomNode.subtreeIds,
      subtreeIds_append]
    simp [DomNodeList.subtreeIds]

/-- Count of one id over the ids of the list-normalization scan. -/
theorem normalizeListGo_count (a : Nat) : (cs : DomNodeList) →
    ∀ (acc : List DomNode) (cur : Option DomNode) (after : List DomNode),
    (∀ li, cur = some li → li.isElem = true) →
    ((normalizeListGo cs acc cur after).flatMap DomNode.subtreeIds).count a
      = ((acc.flatMap DomNode.subtreeIds).count a
        + (match cur with
           | some li => (li.subtreeIds).count a
           | none => 0)
        + ((after.flatMap DomNode.subtreeIds).count a)
        + (cs.subtreeIds.count a))
  | .nil => by
    intro acc cur after hcur
    rw [normalizeListGo.eq_def]
    rcases cur with _ | li <;>
      simp [List.count_append, DomNodeList.subtreeIds] <;>
      omega
  | .cons child rest => by
    intro acc cur after hcur
    rw [normalizeListGo.eq_def]
    simp only []
    rcases child with ⟨i, v⟩ | ⟨i, n, ns, st, cs⟩ <;> simp only []
    · rcases hc : cur with _ | li <;> simp only []
      · rw [normalizeListGo_count a rest (acc ++ [DomNode.text i v]) none after (by simp)]
        simp [List.count_append, List.count_cons, DomNodeList.subtreeIds,
          DomNode.subtreeIds]
        omega
      · rw [normalizeListGo_count a rest acc (some li) (after ++ [DomNode.text i v])
          (fun li2 h2 => hcur li2 (hc.trans h2))]
        simp [List.count_append, List.count_cons, DomNodeList.subtreeIds,
          DomNode.subtreeIds]
        omega
    · split
      · rcases hc : cur with _ | li <;> simp only []
        · rename_i hcond
          rw [hc] at hcond
          simp at hcond
        · rw [normalizeListGo_count a rest acc
            (some (li.appendChild (DomNode.elem i n ns st cs))) after
            (fun li2 h2 => by
              injection h2 with h3
              rw [← h3]
              have hel : li.isElem = true := hcur li hc
              rcases li with ⟨x1, x2⟩ | ⟨x1, x2, x3, x4, x5⟩
              · simp [DomNode.isElem] at hel
              · rfl)]
          simp only []
          rw [subtreeIds_appendChild li (DomNode.elem i n ns st cs) (hcur li hc)]
          simp [List.count_append, List.count_cons, DomNodeList.subtreeIds,
            DomNode.subtreeIds]
          omega
      · split
        · rcases cur with _ | li <;> simp only []
          · rw [normalizeListGo_count a rest (acc ++ [] ++ after)
              (some (DomNode.elem i n ns st cs)) []
              (fun li2 h2 => by injection h2 with h3; rw [← h3]; rfl)]
            simp [List.count_append, List.count_cons, DomNodeList.subtreeIds,
              DomNode.subtreeIds]
            omega
          · rw [normalizeListGo_count a rest (acc ++ [li] ++ after)
              (some (DomNode.elem i n ns st cs)) []
              (fun li2 h2 => by injection h2 with h3; rw [← h3]; rfl)]
            simp [List.count_append, List.count_cons, DomNodeList.subtreeIds,
              DomNode.subtreeIds]
            omega
        · rcases cur with _ | li <;> simp only []
          · rw [normalizeListGo_count a rest
              (acc ++ [] ++ after ++ [DomNode.elem i n ns st cs]) none [] (by simp)]
            simp [List.count_append, List.count_cons, DomNodeList.subtreeIds,
              DomNode.subtreeIds]
            omega
          · rw [normalizeListGo_count a rest
              (acc ++ [li] ++ after ++ [DomNode.elem i n ns st cs]) none [] (by simp)]
            simp [List.count_append, List.count_cons, DomNodeList.subtreeIds,
              DomNode.subtreeIds]
            omega

/-- normalizeList permutes the subtree identities. -/
theorem normalizeList_ids (dom : DomNode) :
    (normalizeList dom).subtreeIds.Perm dom.subtreeIds := by
  rcases dom with ⟨i, v⟩ | ⟨i, n, ns, st, cs⟩
  · exact List.Perm.refl _
  · rw [normalizeList, DomNode.subtreeIds, DomNode.subtreeIds, subtreeIds_domListOf]
    refine List.Perm.cons i ?_
    refine List.perm_iff_count.mpr (fun a => ?_)
    rw [normalizeListGo_count a cs [] none [] (by simp)]
    simp


theorem sublist_flatMap_ids {l1 l2 : List DomNode}
    (h : List.Sublist l1 l2) :
    List.Sublist (l1.flatMap DomNode.subtreeIds) (l2.flatMap DomNode.subtreeIds) := by
  induction h with
  | slnil => simp
  | cons a h ih =>
    rw [List.flatMap_cons]
    exact ih.trans (List.sublist_append_right _ _)
  | cons₂ a h ih =>
    rw [List.flatMap_cons, List.flatMap_cons]
    exact ih.append_left _

theorem mem_sublist_flatMap_ids {l : List DomNode} {x : DomNode} (h : x ∈ l) :
    List.Sublist x.subtreeIds (l.flatMap DomNode.subtreeIds) := by
  have h1 : List.Sublist [x] l := List.singleton_sublist.mpr h
  have h2 := sublist_flatMap_ids h1
  simpa using h2

theorem subtreeIds_head (dom : DomNode) :
    dom.subtreeIds = dom.idOf :: dom.childrenOf.subtreeIds := by
  rcases dom with ⟨i, v⟩ | ⟨i, n, ns, st, cs⟩ <;> rfl



theorem findAtPoint_parserEq (pc : ParseContext) (a b : Nat) :
    (pc.findAtPoint a b).parser = pc.parser := by
  unfold ParseContext.findAtPoint
  split <;> rfl

theorem findInside_parserEq (pc : ParseContext) (d : DomNode) :
    (pc.findInside d).parser = pc.parser := by
  unfold ParseContext.findInside
  split <;> rfl

theorem findAround_parserEq (pc : ParseContext) (d c : DomNode) (b : Bool) :
    (pc.findAround d c b).parser = pc.parser := by
  unfold ParseContext.findAround
  split <;> rfl

theorem findInText_parserEq (pc : ParseContext) (t : DomNode) :
    (pc.findInText t).parser = pc.parser := by
  unfold ParseContext.findInText
  split <;> rfl

theorem enterInner_parserEq (pc : ParseContext) (t : NodeType) (a : Option Nat)
    (s : Bool) (w : Option PreserveWS) : (pc.enterInner t a s w).parser = pc.parser := rfl

theorem sync_parserEq (pc : ParseContext) (u : Nat) : (pc.sync u).1.parser = pc.parser := by
  unfold ParseContext.sync
  cases syncSearch pc.nodes u pc.openDepth <;> rfl

theorem foldEnter_parserEq (route : List Nat) :
    ∀ pc : ParseContext,
      (route.foldl (fun acc tid =>
        acc.enterInner (acc.parser.schema.typeById tid) none false none) pc).parser
        = pc.parser := by
  induction route with
  | nil => intro pc; rfl
  | cons t ts ih =>
    intro pc
    rw [List.foldl_cons, ih]
    rfl

theorem findPlace_parserEq (pc : ParseContext) (node : PMNode) :
    (pc.findPlace node).1.parser = pc.parser := by
  unfold ParseContext.findPlace
  rcases he : fpScan node pc.openDepth pc none with ⟨pc2, best⟩
  have h2 : pc2.parser = pc.parser := by
    have h0 := (fpScan_state node pc.openDepth pc none).2.1
    rw [he] at h0
    exact h0
  rcases best with _ | ⟨route, d⟩
  · exact h2
  · simp only []
    rcases hs : pc2.sync ((pc2.nodes.getD d dummyNC).uid) with ⟨pc3, ok⟩
    have h3 : pc3.parser = pc2.parser := by
      have h0 := sync_parserEq pc2 ((pc2.nodes.getD d dummyNC).uid)
      rw [hs] at h0
      exact h0
    rw [foldEnter_parserEq, h3, h2]

set_option maxHeartbeats 1000000 in
theorem insertNode_parserEq (pc : ParseContext) (node : PMNode) :
    (pc.insertNode node).1.parser = pc.parser := by
  unfold ParseContext.insertNode
  simp only []
  split
  · rcases htb : pc.textblockFromContext with _ | blk
    all_goals simp only []
    · rcases hfp : (pc.findPlace node) with ⟨pcf, ok⟩
      have hf : pcf.parser = pc.parser := by
        have h0 := findPlace_parserEq pc node
        rw [hfp] at h0
        exact h0
      rcases ok <;> simp only [] <;> exact hf
    · rcases hfp : ((pc.enterInner blk none false none).findPlace node) with ⟨pcf, ok⟩
      have hf : pcf.parser = pc.parser := by
        have h0 := findPlace_parserEq (pc.enterInner blk none false none) node
        rw [hfp] at h0
        exact h0
      rcases ok <;> simp only [] <;> exact hf
  · rcases hfp : (pc.findPlace node) with ⟨pcf, ok⟩
    have hf : pcf.parser = pc.parser := by
      have h0 := findPlace_parserEq pc node
      rw [hfp] at h0
      exact h0
    rcases ok <;> simp only [] <;> exact hf

theorem enter_parserEq (pc : ParseContext) (t : NodeType) (a : Option Nat)
    (w : Option PreserveWS) : (pc.enter t a w).1.parser = pc.parser := by
  unfold ParseContext.enter
  rcases hfp : pc.findPlace (PMNode.node t.id a .nil markNone) with ⟨pcf, ok⟩
  have hf : pcf.parser = pc.parser := by
    have h0 := findPlace_parserEq pc (PMNode.node t.id a .nil markNone)
    rw [hfp] at h0
    exact h0
  rcases ok <;> simp [hf, enterInner_parserEq]

theorem rpmGo_parserEq (m : Mark) (u : Nat) :
    ∀ d pc, (rpmGo m u d pc).parser = pc.parser := by
  have hpi : ∀ (c : Prop) [Decidable c] (a b : ParseContext) (x : DOMParser),
      a.parser = x → b.parser = x → (if c then a else b).parser = x := by
    intro c hc a b x ha hb
    split <;> assumption
  intro d
  induction d with
  | zero =>
    intro pc
    rw [rpmGo.eq_def]
    simp only []
    exact hpi _ _ _ _ rfl rfl
  | succ d' ih =>
    intro pc
    rw [rpmGo.eq_def]
    simp only []
    exact hpi _ _ _ _ rfl (ih _)

theorem addTextNode_parserEq (pc : ParseContext) (d : DomNode) (a b : Option String) :
    (pc.addTextNode d a b).parser = pc.parser := by
  unfold ParseContext.addTextNode
  simp only []
  split
  · have hin : ∀ pcx : ParseContext, pcx.parser = pc.parser →
        (pcx.findInText d).parser = pc.parser := by
      intro pcx hx
      rw [findInText_parserEq, hx]
    have hin2 : ∀ V : String,
        ((if V = "" then pc else (pc.insertNode (pc.parser.schema.text V)).1).findInText
          d).parser = pc.parser := by
      intro V
      split
      · exact hin pc rfl
      · exact hin _ (insertNode_parserEq pc _)
    exact hin2 _
  · rw [findInside_parserEq]

theorem leafFallback_parserEq (pc : ParseContext) (d : DomNode) :
    (pc.leafFallback d).parser = pc.parser := by
  unfold ParseContext.leafFallback
  split
  · exact addTextNode_parserEq pc _ none none
  · rfl

theorem ignoreFallback_parserEq (pc : ParseContext) (d : DomNode) :
    (pc.ignoreFallback d).parser = pc.parser := by
  unfold ParseContext.ignoreFallback
  split
  · exact findPlace_parserEq pc _
  · rfl

/-- addTextNode on a real text node: entries into the text resolve at most
once, everything else is untouched. -/
theorem addTextNode_fwow (pc : ParseContext) (i : Nat) (v : String) (a b : Option String)
    (hc : findClean [i] pc) :
    fwow [i] pc (pc.addTextNode (.text i v) a b) := by
  unfold ParseContext.addTextNode
  simp only []
  split
  · have hin : ∀ pcx : ParseContext, pcx.find = pc.find →
        fwow [i] pc (pcx.findInText (.text i v)) := by
      intro pcx hx
      obtain ⟨hsh, hunc, hor⟩ := findInText_effect pcx (.text i v)
      have hsh2 : findShape pc (pcx.findInText (.text i v)) := by
        refine ⟨?_, fun j => ?_⟩
        · rw [hsh.1, hx]
        · rw [(hsh.2 j).1, (hsh.2 j).2, hx]
          exact ⟨rfl, rfl⟩
      refine ⟨hsh2, fun j => ⟨?_, ?_⟩⟩
      · intro hn
        have hne : ¬((pcx.find.getD j dFE).node = DomNode.idOf (.text i v)) := by
          rw [hx]
          intro h
          exact hn (List.mem_singleton.mpr (by simpa [DomNode.idOf] using h))
        rw [hunc j hne, hx]
      · intro hm
        simp at hm
        have hcl : (pc.find.getD j dFE).posHist = [] := hc j (by simp [hm])
        rcases hor j with h1 | ⟨x, h1⟩
        · rw [h1, hx, hcl]
          decide
        · rw [h1, hx, hcl]
          simp
    have hin2 : ∀ V : String,
        fwow [i] pc ((if V = "" then pc
          else (pc.insertNode (pc.parser.schema.text V)).1).findInText (.text i v)) := by
      intro V
      split
      · exact hin pc rfl
      · exact hin _ (insertNode_find pc _)
    exact hin2 _
  · rw [findInside_text]
    exact fwow_id _ _ hc



theorem ite_bool_true {a : Sort uu} (x y : a) : (if (true : Bool) = true then x else y) = x := rfl

theorem ite_bool_false {a : Sort uu} (x y : a) : (if (false : Bool) = true then x else y) = y := rfl

theorem parser_ite (c : Prop) [Decidable c] (a b : ParseContext) (x : DOMParser)
    (ha : a.parser = x) (hb : b.parser = x) : (if c then a else b).parser = x := by
  split <;> assumption

/-- findInside from any context with the same find list writes at most one
position into clean entries pointing into the subtree, and nothing else. -/
theorem findInside_fwow (pc pc1 : ParseContext) (dom : DomNode)
    (hf : pc1.find = pc.find) (hc : findClean dom.subtreeIds pc) :
    fwow dom.subtreeIds pc (pc1.findInside dom) := by
  obtain ⟨hsh, hor⟩ := findInside_effect pc1 dom
  refine ⟨findShape_trans _ _ _ ⟨by rw [hf], fun i => by rw [hf]; exact ⟨rfl, rfl⟩⟩ hsh,
    fun i => ⟨?_, ?_⟩⟩
  · intro hn
    rcases hor i with h0 | ⟨he, hcid, x, hw⟩
    · rw [h0, hf]
    · rw [hf] at hcid
      rw [DomNode.containsId] at hcid
      exact absurd (of_decide_eq_true hcid) hn
  · intro hm
    rcases hor i with h0 | ⟨he, hcid, x, hw⟩
    · rw [h0, hf, hc i hm]
      decide
    · rw [hw]
      simp

theorem foldl_insertNode_facts (l : List PMNode) : ∀ pcx : ParseContext,
    (l.foldl (fun acc n => (acc.insertNode n).1) pcx).find = pcx.find ∧
    (l.foldl (fun acc n => (acc.insertNode n).1) pcx).parser = pcx.parser := by
  induction l with
  | nil => exact fun pcx => ⟨rfl, rfl⟩
  | cons n rest ih =>
    intro pcx
    rw [List.foldl_cons]
    obtain ⟨hf2, hp2⟩ := ih ((pcx.insertNode n).1)
    exact ⟨hf2.trans (insertNode_find pcx n), hp2.trans (insertNode_parserEq pcx n)⟩

theorem addPendingMark_parserEq (pc : ParseContext) (m : Mark) :
    (pc.addPendingMark m).parser = pc.parser := rfl

theorem removePendingMark_parserEq (pc : ParseContext) (m : Mark) (u : Nat) :
    (pc.removePendingMark m u).parser = pc.parser := rpmGo_parserEq m u pc.openDepth pc

theorem foldl_rpm_facts (ml : List Mark) (u : Nat) : ∀ pcx : ParseContext,
    (ml.foldl (fun acc m => acc.removePendingMark m u) pcx).find = pcx.find ∧
    (ml.foldl (fun acc m => acc.removePendingMark m u) pcx).parser = pcx.parser := by
  induction ml with
  | nil => exact fun pcx => ⟨rfl, rfl⟩
  | cons m rest ih =>
    intro pcx
    rw [List.foldl_cons]
    obtain ⟨hf2, hp2⟩ := ih (pcx.removePendingMark m u)
    exact ⟨hf2.trans (removePendingMark_find pcx m u),
      hp2.trans (removePendingMark_parserEq pcx m u)⟩

theorem foldl_apm_facts (ml : List Mark) : ∀ pcx : ParseContext,
    (ml.foldl (fun acc m => acc.addPendingMark m) pcx).find = pcx.find ∧
    (ml.foldl (fun acc m => acc.addPendingMark m) pcx).parser = pcx.parser := by
  induction ml with
  | nil => exact fun pcx => ⟨rfl, rfl⟩
  | cons m rest ih =>
    intro pcx
    rw [List.foldl_cons]
    obtain ⟨hf2, hp2⟩ := ih (pcx.addPendingMark m)
    exact ⟨hf2.trans rfl, hp2.trans rfl⟩

/-- The write-once discipline of the whole tree walk, by mutual induction on
the fuel: every walk function touches only find entries pointing into the
subtree being walked (plus, for the child loop, the parent point entries at
or past the running index), resolves each such entry at most once, and
preserves the no-contentElement rule store invariant. -/
theorem walkerFind : ∀ fuel : Nat,
    (∀ (pc : ParseContext) (dom : DomNode) (prev par : Option String),
      NoCE pc.parser → dom.subtreeIds.Nodup → findClean dom.subtreeIds pc →
      findNoZero pc →
      fwow dom.subtreeIds pc (addDOM fuel pc dom prev par) ∧
      NoCE (addDOM fuel pc dom prev par).parser) ∧
    (∀ (pc : ParseContext) (dom : DomNode) (after : Option Nat),
      NoCE pc.parser → dom.subtreeIds.Nodup → findClean dom.subtreeIds pc →
      findNoZero pc →
      fwow dom.subtreeIds pc (addElement fuel pc dom after) ∧
      NoCE (addElement fuel pc dom after).parser) ∧
    (∀ (pc : ParseContext) (dom : DomNode) (name : String),
      NoCE pc.parser → dom.subtreeIds.Nodup → findClean dom.subtreeIds pc →
      findNoZero pc →
      fwow dom.subtreeIds pc (addElementSkip fuel pc dom name) ∧
      NoCE (addElementSkip fuel pc dom name).parser) ∧
    (∀ (pc : ParseContext) (dom : DomNode) (rule : ParseRule) (cont : Option Nat),
      NoCE pc.parser → dom.subtreeIds.Nodup → findClean dom.subtreeIds pc →
      findNoZero pc → rule.contentElement = none →
      fwow dom.subtreeIds pc (addElementByRule fuel pc dom rule cont) ∧
      NoCE (addElementByRule fuel pc dom rule cont).parser) ∧
    (∀ (pc : ParseContext) (parentId : Nat) (parentName : String)
        (children : List DomNode) (count idx : Nat) (prevSib : Option String),
      NoCE pc.parser → findNoZero pc →
      (parentId :: (children.take count).flatMap DomNode.subtreeIds).Nodup →
      aagPre parentId ((children.take count).flatMap DomNode.subtreeIds) idx pc →
      aagPost parentId ((children.take count).flatMap DomNode.subtreeIds) idx pc
        (addAllGo fuel pc parentId parentName children count idx prevSib) ∧
      NoCE (addAllGo fuel pc parentId parentName children count idx prevSib).parser ∧
      findNoZero (addAllGo fuel pc parentId parentName children count idx prevSib)) ∧
    (∀ (pc : ParseContext) (parent : DomNode) (fromIdx toIdx : Option Nat),
      NoCE pc.parser → parent.subtreeIds.Nodup → findClean parent.subtreeIds pc →
      findNoZero pc →
      fwow parent.subtreeIds pc (addAll fuel pc parent fromIdx toIdx) ∧
      NoCE (addAll fuel pc parent fromIdx toIdx).parser) := by
  intro fuel
  induction fuel with
  | zero =>
    refine ⟨?_, ?_, ?_, ?_, ?_, ?_⟩
    · intro pc dom prev par h1 h2 h3 h4
      exact ⟨fwow_id _ _ h3, h1⟩
    · intro pc dom after h1 h2 h3 h4
      exact ⟨fwow_id _ _ h3, h1⟩
    · intro pc dom name h1 h2 h3 h4
      exact ⟨fwow_id _ _ h3, h1⟩
    · intro pc dom rule cont h1 h2 h3 h4 h5
      exact ⟨fwow_id _ _ h3, h1⟩
    · intro pc parentId parentName children count idx prevSib h1 h2 h3 h4
      refine ⟨⟨⟨rfl, fun i => ⟨rfl, rfl⟩⟩, fun i => ⟨fun _ => rfl, fun _ _ => rfl, ?_⟩⟩,
        h1, h2⟩
      intro hm
      show (pc.find.getD i dFE).posHist.length ≤ 1
      rcases hm with hm | ⟨hm1, hm2⟩
      · rw [h4.2 i hm]
        decide
      · rw [h4.1 i hm1 hm2]
        decide
    · intro pc parent fromIdx toIdx h1 h2 h3 h4
      exact ⟨fwow_id _ _ h3, h1⟩
  | succ fuel ih =>
    obtain ⟨ihDOM, ihEl, ihSkip, ihRule, ihGo, ihAll⟩ := ih
    refine ⟨?_, ?_, ?_, ?_, ?_, ?_⟩
    · -- addDOM
      intro pc dom prev par h1 h2 h3 h4
      rw [addDOM.eq_def]
      simp only []
      rcases dom with ⟨i, v⟩ | ⟨i, n, ns, st, cs⟩
      · simp only []
        exact ⟨addTextNode_fwow pc i v prev par h3,
          by rw [addTextNode_parserEq]; exact h1⟩
      · simp only []
        by_cases hsty : (!optStrTruthy st) = true
        · rw [if_pos hsty]
          exact ihEl pc (DomNode.elem i n ns st cs) none h1 h2 h3 h4
        · rw [if_neg hsty]
          rcases hrs : pc.readStyles (parseStyles (st.getD "")) with ⟨pc2, mo⟩
          simp only []
          have hf2 : pc2.find = pc.find := by
            have h0 := readStyles_find pc (parseStyles (st.getD ""))
            rw [hrs] at h0
            exact h0
          have hn2 : NoCE pc2.parser := by
            have h0 : (pc.readStyles (parseStyles (st.getD ""))).1.parser.tags
                = pc.parser.tags :=
              rsGo_tags (parseStyles (st.getD "")) pc markNone markNone
            rw [hrs] at h0
            simp only [] at h0
            intro r hr
            refine h1 r ?_
            rw [← h0]
            exact hr
          rcases mo with _ | ⟨addM, remM⟩
          · simp only []
            exact ⟨fwow_congr_right _ _ _ _ hf2 (fwow_id _ _ h3), hn2⟩
          · simp only []
            obtain ⟨hf3, hp3⟩ := foldl_rpm_facts remM pc2.top.uid pc2
            obtain ⟨hf4, hp4⟩ := foldl_apm_facts addM
              (remM.foldl (fun acc m => acc.removePendingMark m pc2.top.uid) pc2)
            have hfind4 : (addM.foldl (fun acc m => acc.addPendingMark m)
                (remM.foldl (fun acc m => acc.removePendingMark m pc2.top.uid) pc2)).find
                = pc.find := hf4.trans (hf3.trans hf2)
            have hnce4 : NoCE (addM.foldl (fun acc m => acc.addPendingMark m)
                (remM.foldl (fun acc m => acc.removePendingMark m pc2.top.uid)
                  pc2)).parser := by
              rw [hp4, hp3]
              exact hn2
            obtain ⟨hw5, hn5⟩ := ihEl (addM.foldl (fun acc m => acc.addPendingMark m)
                (remM.foldl (fun acc m => acc.removePendingMark m pc2.top.uid) pc2))
              (DomNode.elem i n ns st cs) none hnce4 h2
              (findClean_congr _ _ _ hfind4 h3)
              (by intro j hj; rw [hfind4] at hj ⊢; exact h4 j hj)
            obtain ⟨hf6, hp6⟩ := foldl_rpm_facts addM pc2.top.uid
              (addElement fuel (addM.foldl (fun acc m => acc.addPendingMark m)
                (remM.foldl (fun acc m => acc.removePendingMark m pc2.top.uid) pc2))
                (DomNode.elem i n ns st cs) none)
            obtain ⟨hf7, hp7⟩ := foldl_apm_facts remM
              (addM.foldl (fun acc m => acc.removePendingMark m pc2.top.uid)
                (addElement fuel (addM.foldl (fun acc m => acc.addPendingMark m)
                  (remM.foldl (fun acc m => acc.removePendingMark m pc2.top.uid) pc2))
                  (DomNode.elem i n ns st cs) none))
            refine ⟨fwow_congr_left _ _ _ _ hfind4
              (fwow_congr_right _ _ _ _ (hf7.trans hf6) hw5), ?_⟩
            rw [hp7, hp6]
            exact hn5
    · -- addElement
      intro pc dom0 matchAfter h1 h2 h3 h4
      rw [addElement.eq_def]
      simp only []
      by_cases hnl : (decide (lc dom0.nameOf ∈ listTags) && pc.parser.normalizeLists) = true
      · rw [if_pos hnl]
        have hiff : ∀ x : Nat, x ∈ (normalizeList dom0).subtreeIds ↔ x ∈ dom0.subtreeIds :=
          fun x => (normalizeList_ids dom0).mem_iff
        refine And.imp (fwow_memEq _ _ _ _ hiff) id ?_
        have h2n : (normalizeList dom0).subtreeIds.Nodup :=
          ((normalizeList_ids dom0).nodup_iff).mpr h2
        have h3n : findClean (normalizeList dom0).subtreeIds pc :=
          findClean_mono _ _ _ (fun x hx => (hiff x).mp hx) h3
        rcases hmt : pc.parser.matchTagCx (normalizeList dom0) pc matchAfter with ⟨ruleRes, p2⟩
        simp only []
        have hmtc := matchTagCx_nce pc.parser (normalizeList dom0) pc matchAfter h1
        rw [hmt] at hmtc
        simp only [] at hmtc
        obtain ⟨hn2, hrules⟩ := hmtc
        have hSk : ∀ pcB : ParseContext, pcB.find = pc.find → pcB.parser = p2 →
            fwow ((normalizeList dom0)).subtreeIds pc (addElementSkip fuel pcB (normalizeList dom0) (lc dom0.nameOf)) ∧
            NoCE (addElementSkip fuel pcB (normalizeList dom0) (lc dom0.nameOf)).parser := by
          intro pcB hf hpp
          obtain ⟨hw, hn⟩ := ihSkip pcB (normalizeList dom0) (lc dom0.nameOf) (by rw [hpp]; exact hn2) h2n
            (findClean_congr _ _ _ hf h3n)
            (by intro j hj; rw [hf] at hj ⊢; exact h4 j hj)
          exact ⟨fwow_congr_left _ _ _ _ hf hw, hn⟩
        rcases ruleRes with _ | ⟨rule, ruleIdx⟩
        · simp only []
          by_cases hit : decide (lc dom0.nameOf ∈ ignoreTags) = true
          · rw [if_pos hit]
            refine ⟨fwow_congr_right _ _ _ _ (ignoreFallback_find _ (normalizeList dom0))
              (findInside_fwow pc _ (normalizeList dom0) rfl h3n), ?_⟩
            rw [ignoreFallback_parserEq, findInside_parserEq]
            exact hn2
          · rw [if_neg hit]
            exact hSk _ rfl rfl
        · simp only []
          have hce : rule.contentElement = none := hrules rule ruleIdx rfl
          rcases hig : rule.ignore with _ | _
          · rw [ite_bool_false]
            rcases hsc : rule.skip || rule.closeParent with _ | _
            · rw [ite_bool_false]
              obtain ⟨hw, hn⟩ := ihRule { pc with parser := p2 } (normalizeList dom0) rule
                (if rule.consuming = some false then some ruleIdx else none)
                hn2 h2n (findClean_congr _ _ _ rfl h3n)
                (by intro j hj; exact h4 j hj) hce
              exact ⟨fwow_congr_left _ _ _ _ rfl hw, hn⟩
            · rw [ite_bool_true]
              exact hSk _ (find_ite _ _ _ _ rfl rfl) (parser_ite _ _ _ _ rfl rfl)
          · rw [ite_bool_true]
            refine ⟨fwow_congr_right _ _ _ _ (ignoreFallback_find _ (normalizeList dom0))
              (findInside_fwow pc _ (normalizeList dom0) rfl h3n), ?_⟩
            rw [ignoreFallback_parserEq, findInside_parserEq]
            exact hn2
      · rw [if_neg hnl]
        rcases hmt : pc.parser.matchTagCx dom0 pc matchAfter with ⟨ruleRes, p2⟩
        simp only []
        have hmtc := matchTagCx_nce pc.parser dom0 pc matchAfter h1
        rw [hmt] at hmtc
        simp only [] at hmtc
        obtain ⟨hn2, hrules⟩ := hmtc
        have hSk : ∀ pcB : ParseContext, pcB.find = pc.find → pcB.parser = p2 →
            fwow (dom0).subtreeIds pc (addElementSkip fuel pcB dom0 (lc dom0.nameOf)) ∧
            NoCE (addElementSkip fuel pcB dom0 (lc dom0.nameOf)).parser := by
          intro pcB hf hpp
          obtain ⟨hw, hn⟩ := ihSkip pcB dom0 (lc dom0.nameOf) (by rw [hpp]; exact hn2) h2
            (findClean_congr _ _ _ hf h3)
            (by intro j hj; rw [hf] at hj ⊢; exact h4 j hj)
          exact ⟨fwow_congr_left _ _ _ _ hf hw, hn⟩
        rcases ruleRes with _ | ⟨rule, ruleIdx⟩
        · simp only []
          by_cases hit : decide (lc dom0.nameOf ∈ ignoreTags) = true
          · rw [if_pos hit]
            refine ⟨fwow_congr_right _ _ _ _ (ignoreFallback_find _ dom0)
              (findInside_fwow pc _ dom0 rfl h3), ?_⟩
            rw [ignoreFallback_parserEq, findInside_parserEq]
            exact hn2
          · rw [if_neg hit]
            exact hSk _ rfl rfl
        · simp only []
          have hce : rule.contentElement = none := hrules rule ruleIdx rfl
          rcases hig : rule.ignore with _ | _
          · rw [ite_bool_false]
            rcases hsc : rule.skip || rule.closeParent with _ | _
            · rw [ite_bool_false]
              obtain ⟨hw, hn⟩ := ihRule { pc with parser := p2 } dom0 rule
                (if rule.consuming = some false then some ruleIdx else none)
                hn2 h2 (findClean_congr _ _ _ rfl h3)
                (by intro j hj; exact h4 j hj) hce
              exact ⟨fwow_congr_left _ _ _ _ rfl hw, hn⟩
            · rw [ite_bool_true]
              exact hSk _ (find_ite _ _ _ _ rfl rfl) (parser_ite _ _ _ _ rfl rfl)
          · rw [ite_bool_true]
            refine ⟨fwow_congr_right _ _ _ _ (ignoreFallback_find _ dom0)
              (findInside_fwow pc _ dom0 rfl h3), ?_⟩
            rw [ignoreFallback_parserEq, findInside_parserEq]
            exact hn2
    · -- addElementSkip
      intro pc dom name h1 h2 h3 h4
      have hkey : ∀ pcB : ParseContext, pcB.find = pc.find → pcB.parser = pc.parser →
          fwow dom.subtreeIds pc (addAll fuel pcB dom none none) ∧
          NoCE (addAll fuel pcB dom none none).parser := by
        intro pcB hf hp
        obtain ⟨hw, hn⟩ := ihAll pcB dom none none (by rw [hp]; exact h1) h2
          (findClean_congr _ _ _ hf h3)
          (by intro j hj; rw [hf] at hj ⊢; exact h4 j hj)
        exact ⟨fwow_congr_left _ _ _ _ hf hw, hn⟩
      rw [addElementSkip.eq_def]
      simp only []
      by_cases hbt : decide (name ∈ blockTags) = true
      · rw [if_pos hbt]
        have hstep : ∀ pcB : ParseContext, pcB.find = pc.find → pcB.parser = pc.parser →
            ∀ u : Nat,
            fwow dom.subtreeIds pc
              { ((addAll fuel pcB dom none none).sync u).1 with
                needsBlock := pc.needsBlock } ∧
            NoCE ({ ((addAll fuel pcB dom none none).sync u).1 with
                needsBlock := pc.needsBlock } : ParseContext).parser := by
          intro pcB hf hp u
          obtain ⟨hw, hn⟩ := hkey pcB hf hp
          refine ⟨fwow_congr_right _ _ _ _ (sync_find _ u) hw, ?_⟩
          have hps : ({ ((addAll fuel pcB dom none none).sync u).1 with
              needsBlock := pc.needsBlock } : ParseContext).parser
              = (addAll fuel pcB dom none none).parser := sync_parserEq _ u
          rw [hps]
          exact hn
        refine hstep _ ?_ ?_ _
        · exact find_ite _ _ _ _ (find_ite _ _ _ _ rfl rfl) (find_ite _ _ _ _ rfl rfl)
        · exact parser_ite _ _ _ _ (parser_ite _ _ _ _ rfl rfl)
            (parser_ite _ _ _ _ rfl rfl)
      · rw [if_neg hbt]
        rcases hch : dom.childrenOf with _ | ⟨c0, cs0⟩
        · simp only []
          refine ⟨fwow_congr_right _ _ _ _ (leafFallback_find pc dom h4)
            (fwow_id _ _ h3), ?_⟩
          rw [leafFallback_parserEq]
          exact h1
        · simp only []
          obtain ⟨hw, hn⟩ := hkey pc rfl rfl
          exact ⟨fwow_congr_right _ _ _ _ rfl hw, hn⟩
    · -- addElementByRule
      intro pc dom rule cont h1 h2 h3 h4 h5
      rw [addElementByRule.eq_def]
      simp only []
      rw [h5]
      simp only [findAround_self]
      rcases cont with _ | idx
      · rcases hgc : rule.getContent with _ | f
        · simp only []
          have hC : ∀ pcM : ParseContext, pcM.find = pc.find → pcM.parser = pc.parser →
              fwow dom.subtreeIds pc (addAll fuel pcM dom none none) ∧
              NoCE (addAll fuel pcM dom none none).parser := by
            intro pcM hf hp
            obtain ⟨hw, hn⟩ := ihAll pcM dom none none (by rw [hp]; exact h1) h2
              (findClean_congr _ _ _ hf h3)
              (by intro j hj; rw [hf] at hj ⊢; exact h4 j hj)
            exact ⟨fwow_congr_left _ _ _ _ hf hw, hn⟩
          by_cases hopt : optStrTruthy rule.node = true
          · rw [if_pos hopt]
            rcases hnb : pc.parser.schema.nodeByName (rule.node.getD "") with _ | ndef
            · simp only [Bool.false_eq_true, if_false]
              exact hC pc rfl rfl
            · rcases hlf : ndef.type.isLeaf with _ | _
              · simp only [hlf, Bool.not_false, eq_self_iff_true, if_true, Bool.false_eq_true, if_false]
                rcases hent : pc.enter ndef.type rule.attrs rule.preserveWhitespace with ⟨pcE, ok⟩
                simp only []
                have hfE : pcE.find = pc.find := by
                  have h0 := enter_find pc ndef.type rule.attrs rule.preserveWhitespace
                  rw [hent] at h0
                  exact h0
                have hpE : pcE.parser = pc.parser := by
                  have h0 := enter_parserEq pc ndef.type rule.attrs rule.preserveWhitespace
                  rw [hent] at h0
                  exact h0
                obtain ⟨hw2, hn2⟩ := hC pcE hfE hpE
                rcases ok with _ | _
                · simp only [Bool.false_eq_true, if_false]
                  exact ⟨hw2, hn2⟩
                · simp only [eq_self_iff_true, if_true]
                  rcases hs : (addAll fuel pcE dom none none).sync pcE.top.uid with ⟨pcS, okS⟩
                  have hfS : pcS.find = (addAll fuel pcE dom none none).find := by
                    have h0 := sync_find (addAll fuel pcE dom none none) pcE.top.uid
                    rw [hs] at h0
                    exact h0
                  have hpS : pcS.parser = (addAll fuel pcE dom none none).parser := by
                    have h0 := sync_parserEq (addAll fuel pcE dom none none) pcE.top.uid
                    rw [hs] at h0
                    exact h0
                  have hnS : NoCE pcS.parser := by
                    rw [hpS]
                    exact hn2
                  rcases okS with _ | _ <;>
                    exact ⟨fwow_congr_right _ _ _ _ hfS hw2, hnS⟩
              · simp only [hlf, Bool.not_true, eq_self_iff_true, if_true, Bool.false_eq_true, if_false]
                rcases hins : pc.insertNode
                  (PMNode.node ndef.type.id rule.attrs PMNodeList.nil markNone) with ⟨pcI, ok⟩
                simp only []
                have hfI : pcI.find = pc.find := by
                  have h0 := insertNode_find pc
                    (PMNode.node ndef.type.id rule.attrs PMNodeList.nil markNone)
                  rw [hins] at h0
                  exact h0
                have hpI : pcI.parser = pc.parser := by
                  have h0 := insertNode_parserEq pc
                    (PMNode.node ndef.type.id rule.attrs PMNodeList.nil markNone)
                  rw [hins] at h0
                  exact h0
                have hzI : findNoZero pcI := by
                  intro j hj
                  rw [hfI] at hj ⊢
                  exact h4 j hj
                have hf1 : (if ok = true then pcI else pcI.leafFallback dom).find = pc.find := by
                  rcases ok with _ | _
                  · rw [ite_bool_false, leafFallback_find pcI dom hzI]
                    exact hfI
                  · rw [ite_bool_true]
                    exact hfI
                have hp1 : (if ok = true then pcI else pcI.leafFallback dom).parser = pc.parser := by
                  rcases ok with _ | _
                  · rw [ite_bool_false, leafFallback_parserEq]
                    exact hpI
                  · rw [ite_bool_true]
                    exact hpI
                refine ⟨findInside_fwow pc _ dom hf1 h3, ?_⟩
                rw [findInside_parserEq, hp1]
                exact h1
          · rw [if_neg hopt]
            rcases hmb : pc.parser.schema.markByName (rule.mark.getD "") with _ | mdef
            · simp only [Bool.false_eq_true, if_false]
              exact hC pc rfl rfl
            · simp only [Bool.false_eq_true, if_false]
              refine ⟨fwow_congr_right _ _ _ _ (removePendingMark_find _ _ _)
                (hC (pc.addPendingMark { type := mdef.id, attrs := rule.attrs }) rfl rfl).1, ?_⟩
              rw [removePendingMark_parserEq]
              exact (hC (pc.addPendingMark { type := mdef.id, attrs := rule.attrs }) rfl rfl).2
        · simp only []
          have hC : ∀ pcM : ParseContext, pcM.find = pc.find → pcM.parser = pc.parser →
              fwow dom.subtreeIds pc ((f dom).foldl (fun acc n => (acc.insertNode n).1) (pcM.findInside dom)) ∧
              NoCE ((f dom).foldl (fun acc n => (acc.insertNode n).1) (pcM.findInside dom)).parser := by
            intro pcM hf hp
            obtain ⟨hff, hfp⟩ := foldl_insertNode_facts (f dom) (pcM.findInside dom)
            refine ⟨fwow_congr_right _ _ _ _ hff (findInside_fwow pc pcM dom hf h3), ?_⟩
            rw [hfp, findInside_parserEq, hp]
            exact h1
          by_cases hopt : optStrTruthy rule.node = true
          · rw [if_pos hopt]
            rcases hnb : pc.parser.schema.nodeByName (rule.node.getD "") with _ | ndef
            · simp only [Bool.false_eq_true, if_false]
              exact hC pc rfl rfl
            · rcases hlf : ndef.type.isLeaf with _ | _
              · simp only [hlf, Bool.not_false, eq_self_iff_true, if_true, Bool.false_eq_true, if_false]
                rcases hent : pc.enter ndef.type rule.attrs rule.preserveWhitespace with ⟨pcE, ok⟩
                simp only []
                have hfE : pcE.find = pc.find := by
                  have h0 := enter_find pc ndef.type rule.attrs rule.preserveWhitespace
                  rw [hent] at h0
                  exact h0
                have hpE : pcE.parser = pc.parser := by
                  have h0 := enter_parserEq pc ndef.type rule.attrs rule.preserveWhitespace
                  rw [hent] at h0
                  exact h0
                obtain ⟨hw2, hn2⟩ := hC pcE hfE hpE
                rcases ok with _ | _
                · simp only [Bool.false_eq_true, if_false]
                  exact ⟨hw2, hn2⟩
                · simp only [eq_self_iff_true, if_true]
                  rcases hs : ((f dom).foldl (fun acc n => (acc.insertNode n).1) (pcE.findInside dom)).sync pcE.top.uid with ⟨pcS, okS⟩
                  rw [hs]
                  have hfS : pcS.find = ((f dom).foldl (fun acc n => (acc.insertNode n).1) (pcE.findInside dom)).find := by
                    have h0 := sync_find ((f dom).foldl (fun acc n => (acc.insertNode n).1) (pcE.findInside dom)) pcE.top.uid
                    rw [hs] at h0
                    exact h0
                  have hpS : pcS.parser = ((f dom).foldl (fun acc n => (acc.insertNode n).1) (pcE.findInside dom)).parser := by
                    have h0 := sync_parserEq ((f dom).foldl (fun acc n => (acc.insertNode n).1) (pcE.findInside dom)) pcE.top.uid
                    rw [hs] at h0
                    exact h0
                  have hnS : NoCE pcS.parser := by
                    rw [hpS]
                    exact hn2
                  rcases okS with _ | _ <;>
                    exact ⟨fwow_congr_right _ _ _ _ hfS hw2, hnS⟩
              · simp only [hlf, Bool.not_true, eq_self_iff_true, if_true, Bool.false_eq_true, if_false]
                rcases hins : pc.insertNode
                  (PMNode.node ndef.type.id rule.attrs PMNodeList.nil markNone) with ⟨pcI, ok⟩
                simp only []
                have hfI : pcI.find = pc.find := by
                  have h0 := insertNode_find pc
                    (PMNode.node ndef.type.id rule.attrs PMNodeList.nil markNone)
                  rw [hins] at h0
                  exact h0
                have hpI : pcI.parser = pc.parser := by
                  have h0 := insertNode_parserEq pc
                    (PMNode.node ndef.type.id rule.attrs PMNodeList.nil markNone)
                  rw [hins] at h0
                  exact h0
                have hzI : findNoZero pcI := by
                  intro j hj
                  rw [hfI] at hj ⊢
                  exact h4 j hj
                have hf1 : (if ok = true then pcI else pcI.leafFallback dom).find = pc.find := by
                  rcases ok with _ | _
                  · rw [ite_bool_false, leafFallback_find pcI dom hzI]
                    exact hfI
                  · rw [ite_bool_true]
                    exact hfI
                have hp1 : (if ok = true then pcI else pcI.leafFallback dom).parser = pc.parser := by
                  rcases ok with _ | _
                  · rw [ite_bool_false, leafFallback_parserEq]
                    exact hpI
                  · rw [ite_bool_true]
                    exact hpI
                refine ⟨findInside_fwow pc _ dom hf1 h3, ?_⟩
                rw [findInside_parserEq, hp1]
                exact h1
          · rw [if_neg hopt]
            rcases hmb : pc.parser.schema.markByName (rule.mark.getD "") with _ | mdef
            · simp only [Bool.false_eq_true, if_false]
              exact hC pc rfl rfl
            · simp only [Bool.false_eq_true, if_false]
              refine ⟨fwow_congr_right _ _ _ _ (removePendingMark_find _ _ _)
                (hC (pc.addPendingMark { type := mdef.id, attrs := rule.attrs }) rfl rfl).1, ?_⟩
              rw [removePendingMark_parserEq]
              exact (hC (pc.addPendingMark { type := mdef.id, attrs := rule.attrs }) rfl rfl).2
      · simp only []
        have hC : ∀ pcM : ParseContext, pcM.find = pc.find → pcM.parser = pc.parser →
            fwow dom.subtreeIds pc (addElement fuel pcM dom (some idx)) ∧
            NoCE (addElement fuel pcM dom (some idx)).parser := by
          intro pcM hf hp
          obtain ⟨hw, hn⟩ := ihEl pcM dom (some idx) (by rw [hp]; exact h1) h2
            (findClean_congr _ _ _ hf h3)
            (by intro j hj; rw [hf] at hj ⊢; exact h4 j hj)
          exact ⟨fwow_congr_left _ _ _ _ hf hw, hn⟩
        by_cases hopt : optStrTruthy rule.node = true
        · rw [if_pos hopt]
          rcases hnb : pc.parser.schema.nodeByName (rule.node.getD "") with _ | ndef
          · simp only [Bool.false_eq_true, if_false]
            exact hC pc rfl rfl
          · rcases hlf : ndef.type.isLeaf with _ | _
            · simp only [hlf, Bool.not_false, eq_self_iff_true, if_true, Bool.false_eq_true, if_false]
              rcases hent : pc.enter ndef.type rule.attrs rule.preserveWhitespace with ⟨pcE, ok⟩
              simp only []
              have hfE : pcE.find = pc.find := by
                have h0 := enter_find pc ndef.type rule.attrs rule.preserveWhitespace
                rw [hent] at h0
                exact h0
              have hpE : pcE.parser = pc.parser := by
                have h0 := enter_parserEq pc ndef.type rule.attrs rule.preserveWhitespace
                rw [hent] at h0
                exact h0
              obtain ⟨hw2, hn2⟩ := hC pcE hfE hpE
              rcases ok with _ | _
              · simp only [Bool.false_eq_true, if_false]
                exact ⟨hw2, hn2⟩
              · simp only [eq_self_iff_true, if_true]
                rcases hs : (addElement fuel pcE dom (some idx)).sync pcE.top.uid with ⟨pcS, okS⟩
                have hfS : pcS.find = (addElement fuel pcE dom (some idx)).find := by
                  have h0 := sync_find (addElement fuel pcE dom (some idx)) pcE.top.uid
                  rw [hs] at h0
                  exact h0
                have hpS : pcS.parser = (addElement fuel pcE dom (some idx)).parser := by
                  have h0 := sync_parserEq (addElement fuel pcE dom (some idx)) pcE.top.uid
                  rw [hs] at h0
                  exact h0
                have hnS : NoCE pcS.parser := by
                  rw [hpS]
                  exact hn2
                rcases okS with _ | _ <;>
                  exact ⟨fwow_congr_right _ _ _ _ hfS hw2, hnS⟩
            · simp only [hlf, Bool.not_true, eq_self_iff_true, if_true, Bool.false_eq_true, if_false]
              rcases hins : pc.insertNode
                (PMNode.node ndef.type.id rule.attrs PMNodeList.nil markNone) with ⟨pcI, ok⟩
              simp only []
              have hfI : pcI.find = pc.find := by
                have h0 := insertNode_find pc
                  (PMNode.node ndef.type.id rule.attrs PMNodeList.nil markNone)
                rw [hins] at h0
                exact h0
              have hpI : pcI.parser = pc.parser := by
                have h0 := insertNode_parserEq pc
                  (PMNode.node ndef.type.id rule.attrs PMNodeList.nil markNone)
                rw [hins] at h0
                exact h0
              have hzI : findNoZero pcI := by
                intro j hj
                rw [hfI] at hj ⊢
                exact h4 j hj
              have hf1 : (if ok = true then pcI else pcI.leafFallback dom).find = pc.find := by
                rcases ok with _ | _
                · rw [ite_bool_false, leafFallback_find pcI dom hzI]
                  exact hfI
                · rw [ite_bool_true]
                  exact hfI
              have hp1 : (if ok = true then pcI else pcI.leafFallback dom).parser = pc.parser := by
                rcases ok with _ | _
                · rw [ite_bool_false, leafFallback_parserEq]
                  exact hpI
                · rw [ite_bool_true]
                  exact hpI
              refine ⟨findInside_fwow pc _ dom hf1 h3, ?_⟩
              rw [findInside_parserEq, hp1]
              exact h1
        · rw [if_neg hopt]
          rcases hmb : pc.parser.schema.markByName (rule.mark.getD "") with _ | mdef
          · simp only [Bool.false_eq_true, if_false]
            exact hC pc rfl rfl
          · simp only [Bool.false_eq_true, if_false]
            refine ⟨fwow_congr_right _ _ _ _ (removePendingMark_find _ _ _)
              (hC (pc.addPendingMark { type := mdef.id, attrs := rule.attrs }) rfl rfl).1, ?_⟩
            rw [removePendingMark_parserEq]
            exact (hC (pc.addPendingMark { type := mdef.id, attrs := rule.attrs }) rfl rfl).2
    · -- addAllGo
      intro pc parentId parentName children count idx prevSib h1 h2 h3 h4
      have hterm : ∀ pcx : ParseContext, NoCE pcx.parser → findNoZero pcx →
          aagPre parentId [] idx pcx →
          aagPost parentId [] idx pcx (pcx.findAtPoint parentId idx) ∧
          NoCE (pcx.findAtPoint parentId idx).parser ∧
          findNoZero (pcx.findAtPoint parentId idx) := by
        intro pcx hn1 hn2 hn4
        obtain ⟨hsh, hunc, hor⟩ := findAtPoint_effect pcx parentId idx
        refine ⟨⟨hsh, fun i => ⟨?_, ?_, ?_⟩⟩, by rw [findAtPoint_parserEq]; exact hn1,
          findNoZero_shape _ _ hsh hn2⟩
        · intro hn
          exact hunc i (fun hx => hn (by rw [hx.1]; exact List.mem_cons_self _ _))
        · intro hp hlt
          exact hunc i (fun hx => by have := hx.2; omega)
        · intro hm
          rcases hm with hm | ⟨hm1, hm2⟩
          · simp at hm
          · by_cases heq : (pcx.find.getD i dFE).offset = idx
            · have hcl := hn4.1 i hm1 hm2
              rcases hor i with he1 | ⟨x, he1⟩
              · rw [he1, hcl]
                decide
              · rw [he1, hcl]
                simp
            · rw [hunc i (fun hx => heq hx.2), hn4.1 i hm1 hm2]
              decide
      rcases children with _ | ⟨c, rest⟩
      · rw [addAllGo.eq_def]
        simp only [List.take_nil, List.flatMap_nil] at h3 h4 ⊢
        exact hterm pc h1 h2 h4
      · rcases count with _ | k
        · rw [addAllGo.eq_def]
          simp only [List.take_zero, List.flatMap_nil] at h3 h4 ⊢
          exact hterm pc h1 h2 h4
        · rw [addAllGo.eq_def]
          simp only []
          have htake : ((c :: rest).take (k + 1)).flatMap DomNode.subtreeIds
              = c.subtreeIds ++ (rest.take k).flatMap DomNode.subtreeIds := by
            simp [List.take_succ_cons]
          rw [htake] at h3 h4 ⊢
          obtain ⟨hpni, hflat⟩ := List.nodup_cons.mp h3
          obtain ⟨hcnd, hrnd, hdisj⟩ := List.nodup_append.mp hflat
          have hpc : parentId ∉ c.subtreeIds :=
            fun hx => hpni (List.mem_append_left _ hx)
          have hpr : parentId ∉ (rest.take k).flatMap DomNode.subtreeIds :=
            fun hx => hpni (List.mem_append_right _ hx)
          obtain ⟨hshA, huncA, horA⟩ := findAtPoint_effect pc parentId idx
          have hA_nce : NoCE (pc.findAtPoint parentId idx).parser := by
            rw [findAtPoint_parserEq]
            exact h1
          have hA_noz : findNoZero (pc.findAtPoint parentId idx) :=
            findNoZero_shape _ _ hshA h2
          have hAunch : ∀ i, (pc.find.getD i dFE).node ≠ parentId →
              ((pc.findAtPoint parentId idx).find.getD i dFE).posHist
                = (pc.find.getD i dFE).posHist :=
            fun i h => huncA i (fun hx => h hx.1)
          have hcleanA : findClean c.subtreeIds (pc.findAtPoint parentId idx) := by
            intro i hm
            rw [(hshA.2 i).1] at hm
            rw [hAunch i (fun hx => hpc (hx ▸ hm))]
            exact h4.2 i (List.mem_append_left _ hm)
          obtain ⟨hfwB, hB_nce⟩ := ihDOM (pc.findAtPoint parentId idx) c prevSib
            (some parentName) hA_nce hcnd hcleanA hA_noz
          have hB_noz : findNoZero (addDOM fuel (pc.findAtPoint parentId idx) c prevSib
              (some parentName)) := findNoZero_shape _ _ hfwB.1 hA_noz
          have hshAB : findShape pc (addDOM fuel (pc.findAtPoint parentId idx) c prevSib
              (some parentName)) := findShape_trans _ _ _ hshA hfwB.1
          have hpreB : aagPre parentId ((rest.take k).flatMap DomNode.subtreeIds) (idx + 1)
              (addDOM fuel (pc.findAtPoint parentId idx) c prevSib (some parentName)) := by
            constructor
            · intro i hni hoff
              have hni0 : (pc.find.getD i dFE).node = parentId := by
                rw [← (hshAB.2 i).1]
                exact hni
              have hoff0 : idx + 1 ≤ (pc.find.getD i dFE).offset := by
                rw [← (hshAB.2 i).2]
                exact hoff
              have hcl := h4.1 i hni0 (by omega)
              have hA := huncA i (fun hx => by have := hx.2; omega)
              have hBu := (hfwB.2 i).1 (by rw [(hshA.2 i).1, hni0]; exact hpc)
              rw [hBu, hA, hcl]
            · intro i hm
              have hm0 : (pc.find.getD i dFE).node
                  ∈ (rest.take k).flatMap DomNode.subtreeIds := by
                rw [← (hshAB.2 i).1]
                exact hm
              have hA := huncA i (fun hx => hpr (hx.1 ▸ hm0))
              have hBu := (hfwB.2 i).1 (by rw [(hshA.2 i).1]; exact fun hx => hdisj hx hm0)
              rw [hBu, hA]
              exact h4.2 i (List.mem_append_right _ hm0)
          obtain ⟨hpostR, hnceR, hnozR⟩ := ihGo
            (addDOM fuel (pc.findAtPoint parentId idx) c prevSib (some parentName))
            parentId parentName rest k (idx + 1) (some c.nameOf) hB_nce hB_noz
            (List.nodup_cons.mpr ⟨hpr, hrnd⟩) hpreB
          refine ⟨⟨findShape_trans _ _ _ hshAB hpostR.1, fun i => ⟨?_, ?_, ?_⟩⟩, hnceR, hnozR⟩
          · intro hn
            have hnp : (pc.find.getD i dFE).node ≠ parentId :=
              fun hx => hn (by rw [hx]; exact List.mem_cons_self _ _)
            have hnc : (pc.find.getD i dFE).node ∉ c.subtreeIds :=
              fun hx => hn (List.mem_cons_of_mem _ (List.mem_append_left _ hx))
            have hnr : (pc.find.getD i dFE).node ∉ (rest.take k).flatMap DomNode.subtreeIds :=
              fun hx => hn (List.mem_cons_of_mem _ (List.mem_append_right _ hx))
            have hA := hAunch i hnp
            have hB := (hfwB.2 i).1 (by rw [(hshA.2 i).1]; exact hnc)
            have hC := (hpostR.2 i).1 (by
              rw [(hshAB.2 i).1]
              intro hx
              rcases List.mem_cons.mp hx with hx | hx
              · exact hnp hx
              · exact hnr hx)
            rw [hC, hB, hA]
          · intro hp hlt
            have hA := huncA i (fun hx => by have := hx.2; omega)
            have hB := (hfwB.2 i).1 (by rw [(hshA.2 i).1, hp]; exact hpc)
            have hC := (hpostR.2 i).2.1 (by rw [(hshAB.2 i).1]; exact hp)
              (by rw [(hshAB.2 i).2]; omega)
            rw [hC, hB, hA]
          · intro hm
            rcases hm with hm | ⟨hp, hoff⟩
            · rcases List.mem_append.mp hm with hmc | hmr
              · have hnp : (pc.find.getD i dFE).node ≠ parentId :=
                  fun hx => hpc (hx ▸ hmc)
                have hB := (hfwB.2 i).2 (by rw [(hshA.2 i).1]; exact hmc)
                have hC := (hpostR.2 i).1 (by
                  rw [(hshAB.2 i).1]
                  intro hx
                  rcases List.mem_cons.mp hx with hx | hx
                  · exact hnp hx
                  · exact hdisj hmc hx)
                rw [hC]
                exact hB
              · exact (hpostR.2 i).2.2 (Or.inl (by rw [(hshAB.2 i).1]; exact hmr))
            · by_cases heq : (pc.find.getD i dFE).offset = idx
              · have hcl := h4.1 i hp hoff
                have hAb : ((pc.findAtPoint parentId idx).find.getD i dFE).posHist.length
                    ≤ 1 := by
                  rcases horA i with he1 | ⟨x, he1⟩
                  · rw [he1, hcl]
                    decide
                  · rw [he1, hcl]
                    simp
                have hB := (hfwB.2 i).1 (by rw [(hshA.2 i).1, hp]; exact hpc)
                have hC := (hpostR.2 i).2.1 (by rw [(hshAB.2 i).1]; exact hp)
                  (by rw [(hshAB.2 i).2]; omega)
                rw [hC, hB]
                exact hAb
              · exact (hpostR.2 i).2.2 (Or.inr ⟨by rw [(hshAB.2 i).1]; exact hp,
                  by rw [(hshAB.2 i).2]; omega⟩)
    · -- addAll
      intro pc parent fromIdx toIdx h1 h2 h3 h4
      rw [addAll.eq_def]
      simp only []
      have hids : parent.subtreeIds
          = parent.idOf :: parent.childrenOf.toList.flatMap DomNode.subtreeIds := by
        rw [subtreeIds_head, subtreeIds_toList]
      set children := parent.childrenOf.toList with hchildren
      set start := fromIdx.getD 0 with hstart
      set count := toIdx.getD children.length - start with hcount
      have hsubC : List.Sublist (((children.drop start).take count).flatMap DomNode.subtreeIds)
          (children.flatMap DomNode.subtreeIds) :=
        sublist_flatMap_ids ((List.take_sublist _ _).trans (List.drop_sublist _ _))
      have hmemC : ∀ x, x ∈ ((children.drop start).take count).flatMap DomNode.subtreeIds →
          x ∈ parent.subtreeIds := by
        intro x hx
        rw [hids]
        exact List.mem_cons_of_mem _ (hsubC.mem hx)
      have hnodup2 : (parent.idOf
          :: ((children.drop start).take count).flatMap DomNode.subtreeIds).Nodup := by
        rw [hids] at h2
        rcases List.nodup_cons.mp h2 with ⟨hni, hnl⟩
        exact List.nodup_cons.mpr
          ⟨fun hx => hni (hsubC.mem hx), hnl.sublist hsubC⟩
      have hpre : aagPre parent.idOf
          (((children.drop start).take count).flatMap DomNode.subtreeIds) start pc := by
        constructor
        · intro i hni _
          refine h3 i ?_
          rw [hni, hids]
          exact List.mem_cons_self _ _
        · exact findClean_mono _ _ _ hmemC h3
      obtain ⟨hpost, hnce, hnoz⟩ := ihGo pc parent.idOf parent.nameOf
        (children.drop start) count start
        (if start = 0 then none else (children.get? (start - 1)).map (fun c => c.nameOf))
        h1 h4 hnodup2 hpre
      refine ⟨⟨hpost.1, fun i => ⟨?_, ?_⟩⟩, hnce⟩
      · intro hn
        refine (hpost.2 i).1 (fun hx => hn ?_)
        rcases List.mem_cons.mp hx with hx | hx
        · rw [hx, hids]
          exact List.mem_cons_self _ _
        · exact hmemC _ hx
      · intro hm
        by_cases hp : (pc.find.getD i dFE).node = parent.idOf
        · by_cases ho : start ≤ (pc.find.getD i dFE).offset
          · exact (hpost.2 i).2.2 (Or.inr ⟨hp, ho⟩)
          · rw [(hpost.2 i).2.1 hp (by omega), h3 i hm]
            decide
        · by_cases hc2 : (pc.find.getD i dFE).node
              ∈ ((children.drop start).take count).flatMap DomNode.subtreeIds
          · exact (hpost.2 i).2.2 (Or.inl hc2)
          · rw [(hpost.2 i).1 (fun hx => by
              rcases List.mem_cons.mp hx with hx | hx
              · exact hp hx
              · exact hc2 hx), h3 i hm]
            decide

/-- C2: find-position write-once.  For a parse whose tag rules use no
contentElement redirection, over a DOM tree with distinct node identities,
starting from findPositions entries that are unresolved and do not target
the synthetic node identity 0, every entry of the resulting find list has
been assigned a position at most once over the whole parse (its recorded
assignment history has length at most one, so a set pos value is never
overwritten). -/
theorem c2_find_write_once (p : DOMParser) (dom : DomNode) (options : ParseOptions)
    (fuel : Nat)
    (hnce : ∀ r ∈ p.tags, r.contentElement = none)
    (hnd : dom.subtreeIds.Nodup)
    (hclean : ∀ e ∈ options.findPositions, e.posHist = [])
    (hnz : ∀ e ∈ options.findPositions, e.node ≠ 0) :
    ∀ e ∈ (p.parse dom options fuel).1.find, e.posHist.length ≤ 1 := by
  intro e he
  have hpcfind : (p.parse dom options fuel).1.find
      = (addAll fuel (mkParseContext p options false) dom
          options.fromIdx options.toIdx).find := rfl
  rw [hpcfind] at he
  obtain ⟨i, hi, hgi⟩ := getD_of_mem_find _ e he
  obtain ⟨hw, hn⟩ := (walkerFind fuel).2.2.2.2.2 (mkParseContext p options false) dom
    options.fromIdx options.toIdx
    (by intro r hr; exact hnce r hr)
    hnd
    (by
      intro j hm
      by_cases hj : j < (mkParseContext p options false).find.length
      · exact hclean _ (mem_getD_find _ j hj)
      · rw [List.getD_eq_default _ _ (by omega)]
        rfl)
    (by
      intro j hj
      exact hnz _ (mem_getD_find _ j hj))
  have hfacts := hw.2 i
  by_cases hmem : ((mkParseContext p options false).find.getD i dFE).node ∈ dom.subtreeIds
  · have h1 := hfacts.2 hmem
    rw [hgi] at h1
    exact h1
  · have h1 := hfacts.1 hmem
    rw [hgi] at h1
    rw [h1]
    by_cases hj : i < (mkParseContext p options false).find.length
    · have hc2 : ((mkParseContext p options false).find.getD i dFE).posHist = [] :=
        hclean _ (mem_getD_find _ i hj)
      rw [hc2]
      decide
    · rw [List.getD_eq_default _ _ (by omega)]
      decide

/-- Witness: the write-once property evaluated on the div(br) fixture with
one tracked position. -/
theorem c2_find_write_once_witness :
    ((egDOMParser.parse egDomBrDiv { findPositions := [{ node := 2, offset := 1 }] }
        9).1.find.all (fun e => decide (e.posHist.length ≤ 1))) = true := by
  have h := c2_find_write_once egDOMParser egDomBrDiv
    { findPositions := [{ node := 2, offset := 1 }] } 9
    (by decide) (by decide) (by decide) (by decide)
  rw [List.all_eq_true]
  intro e he
  simpa using h e he

end FD
